import Mathlib

/-!
# Network Route Explorer: topology store and path engine

A shallow embedding of `src/sourcecode.cpp` (class `Graph`): the router table,
the link records kept on every router, the mutators, the shortest-path
routines `runDijkstra`, `dijkstra`, `findShortestPath` and `getNextHop`, the rows
written by `printRoutingTable`, and `saveToFile` and `loadFromFile` on the level of
the whitespace-separated tokens of the saved text.

Conventions of the embedding.

* `Graph::nodes[0 .. V)` is the list `Graph.nodes`; `V` is its length.  Slots at
  or above `V` hold no router of the store, so they are not represented; a read of
  such a slot has no result in the embedding.  The cosmetic screen position `x, y`
  is omitted.
* C++ `int` values are `Int`; the one narrowing conversion of the program
  (`static_cast<int>` of a `long long`) is `wrap32`.
* The singly linked adjacency list `Router::head` is a `List EdgeNode`, head first.
* A routine returns `none` where the embedding has no defined result: an element
  access outside a `std::vector` or outside the active routers, a loop that is
  still running when its iteration budget is used up, or a formatted extraction
  whose outcome depends on the characters inside a token.
* Of the console output only the rows of the routing table are modelled.
-/

namespace RouteExplorer

/-! ## Constants and machine integers -/

/-- The value of `INT_MAX` for a 32-bit `int`. -/
def INT_MAX : Int := 2147483647

/-- The value of `INT_MIN` for a 32-bit `int`. -/
def INT_MIN : Int := -2147483648

/-- The constant `MAX_V`, the capacity of `Graph::nodes`. -/
def MAX_V : Nat := 100

/-- The conversion `static_cast<int>(x)` of a 64-bit value: reduction modulo `2^32`
into the range of `int`. -/
def wrap32 (x : Int) : Int := (x + 2147483648) % 4294967296 - 2147483648

/-! ## Data model -/

/-- The struct `EdgeNode` without its `next` pointer. -/
structure EdgeNode where
  dest : Int
  cost : Int
  originalCost : Int
  up : Bool
deriving DecidableEq, Repr

/-- The struct `Router`; `head` is the linked list of its link records. -/
structure Router where
  name : String
  up : Bool
  head : List EdgeNode
deriving DecidableEq, Repr

/-- The class `Graph`: the active routers `nodes[0 .. V)`. -/
structure Graph where
  nodes : List Router
deriving DecidableEq, Repr

/-- The member `Graph::V`. -/
def Graph.V (g : Graph) : Int := (g.nodes.length : Int)

/-- Element access `xs[i]` with a C++ `int` index; `none` outside the container. -/
def getAt {α : Type} (xs : List α) (i : Int) : Option α :=
  if 0 ≤ i then xs[i.toNat]? else none

/-- Element store `xs[i] = x` with a C++ `int` index (no effect outside the container;
every caller has read `xs[i]` or checked the index before). -/
def setAt {α : Type} (xs : List α) (i : Int) (x : α) : List α :=
  if 0 ≤ i then xs.set i.toNat x else xs

/-- The empty store of `Graph()`. -/
def emptyGraph : Graph := ⟨[]⟩

/-! ## Topology store -/

/-- The scan of `Graph::getRouterIndex` from slot `i` on. -/
def findName (name : String) : List Router → Int → Int
  | [], _ => -1
  | r :: rs, i => if r.name = name then i else findName name rs (i + 1)

/-- The member function `Graph::getRouterIndex`: the first slot holding `name`, or `-1`. -/
def getRouterIndex (g : Graph) (name : String) : Int :=
  findName name g.nodes 0

/-- The member function `Graph::addRouter`; the empty string stands for the defaulted argument. -/
def addRouter (g : Graph) (name : String) : Graph :=
  if g.nodes.length ≥ MAX_V then g
  else
    let routerName := if name.isEmpty then "R" ++ toString g.nodes.length else name
    if getRouterIndex g routerName ≠ -1 then g
    else ⟨g.nodes ++ [⟨routerName, true, []⟩]⟩

/-- Replace the adjacency list of slot `i` by `f` of it. -/
def mapHead (g : Graph) (i : Int) (f : List EdgeNode → List EdgeNode) : Graph :=
  match getAt g.nodes i with
  | none => g
  | some r => ⟨setAt g.nodes i { r with head := f r.head }⟩

/-- The lambda `remove` of `Graph::removeEdge` on one list: unlink the first record
whose `dest` is `tgt`. -/
def removeFirst (tgt : Int) : List EdgeNode → List EdgeNode
  | [] => []
  | e :: es => if e.dest = tgt then es else e :: removeFirst tgt es

/-- The member function `Graph::removeEdge` (the flag `printMessage` only affects output). -/
def removeEdge (g : Graph) (fromName toName : String) : Graph :=
  let u := getRouterIndex g fromName
  let v := getRouterIndex g toName
  if u = -1 ∨ v = -1 then g
  else mapHead (mapHead g u (removeFirst v)) v (removeFirst u)

/-- One loop of `Graph::updateEdgeCost` on one list: rewrite the first record whose
`dest` is `tgt`, then `break`. -/
def updateFirst (tgt newCost : Int) (overwriteOriginal : Bool) : List EdgeNode → List EdgeNode
  | [] => []
  | e :: es =>
    if e.dest = tgt then
      { e with cost := newCost,
               originalCost := if overwriteOriginal then newCost else e.originalCost,
               up := decide (newCost ≠ INT_MAX) } :: es
    else e :: updateFirst tgt newCost overwriteOriginal es

/-- Whether a list holds a record whose `dest` is `tgt`. -/
def hasDest (tgt : Int) (es : List EdgeNode) : Bool :=
  es.any (fun e => decide (e.dest = tgt))

/-- The adjacency list of slot `i` (empty outside the table). -/
def headOf (g : Graph) (i : Int) : List EdgeNode :=
  match getAt g.nodes i with
  | none => []
  | some r => r.head

/-- The member function `Graph::updateEdgeCost`: the store afterwards and the flag `updated`. -/
def updateEdgeCost (g : Graph) (u v newCost : Int) (overwriteOriginal : Bool) : Graph × Bool :=
  let g1 := mapHead g u (updateFirst v newCost overwriteOriginal)
  let g2 := mapHead g1 v (updateFirst u newCost overwriteOriginal)
  (g2, hasDest v (headOf g u) || hasDest u (headOf g1 v))

/-- The member function `Graph::addEdge`. -/
def addEdge (g : Graph) (fromName toName : String) (cost : Int) : Graph :=
  let u := getRouterIndex g fromName
  let v := getRouterIndex g toName
  if u = -1 ∨ v = -1 then g
  else if u = v then g
  else
    let r := updateEdgeCost g u v cost true
    if r.2 then r.1
    else
      let g1 := mapHead g u (fun es => ⟨v, cost, cost, true⟩ :: es)
      mapHead g1 v (fun es => ⟨u, cost, cost, true⟩ :: es)

/-- The member function `Graph::toggleRouterStatus`. -/
def toggleRouterStatus (g : Graph) (name : String) : Graph :=
  let idx := getRouterIndex g name
  if idx = -1 then g
  else
    match getAt g.nodes idx with
    | none => g
    | some r => ⟨setAt g.nodes idx { r with up := !r.up }⟩

/-- One loop of `Graph::toggleLink` on one list: every record whose `dest` is `tgt`. -/
def toggleAll (tgt : Int) (up : Bool) (es : List EdgeNode) : List EdgeNode :=
  es.map (fun e =>
    if e.dest = tgt then { e with cost := if up then e.originalCost else INT_MAX, up := up }
    else e)

/-- The member function `Graph::toggleLink`. -/
def toggleLink (g : Graph) (fromName toName : String) (up : Bool) : Graph :=
  let u := getRouterIndex g fromName
  let v := getRouterIndex g toName
  if u = -1 ∨ v = -1 then g
  else mapHead (mapHead g u (toggleAll v up)) v (toggleAll u up)

/-- Step 1 of `Graph::removeRouter` for slot `i`: skip `idx`, otherwise
`removeEdge(nodes[i].name, name, false)`. -/
def removeIncoming (name : String) (idx : Int) (g : Graph) (i : Nat) : Graph :=
  if (i : Int) = idx then g
  else
    match g.nodes[i]? with
    | none => g
    | some r => removeEdge g r.name name

/-- The member function `Graph::removeRouter`: drop the records pointing at the
router from all other routers, then move every later router one slot down. The `dest`
fields of the records that stay are not touched. -/
def removeRouter (g : Graph) (name : String) : Graph :=
  let idx := getRouterIndex g name
  if idx = -1 then g
  else
    let g1 := (List.range g.nodes.length).foldl (removeIncoming name idx) g
    ⟨g1.nodes.eraseIdx idx.toNat⟩

/-- The stores that the public mutators can build from the empty store; the cost
handed to `addEdge` is a C++ `int`. -/
inductive Reachable : Graph → Prop
  | empty : Reachable emptyGraph
  | addRouter (g : Graph) (name : String) : Reachable g → Reachable (addRouter g name)
  | removeRouter (g : Graph) (name : String) : Reachable g → Reachable (removeRouter g name)
  | addEdge (g : Graph) (a b : String) (c : Int) :
      Reachable g → INT_MIN ≤ c → c ≤ INT_MAX → Reachable (addEdge g a b c)
  | removeEdge (g : Graph) (a b : String) : Reachable g → Reachable (removeEdge g a b)
  | toggleRouterStatus (g : Graph) (name : String) :
      Reachable g → Reachable (toggleRouterStatus g name)
  | toggleLink (g : Graph) (a b : String) (up : Bool) :
      Reachable g → Reachable (toggleLink g a b up)

/-! ## Path engine -/

/-- The struct `DijkstraResult`. -/
structure DijkstraResult where
  dist : List Int
  prev : List Int
deriving DecidableEq, Repr

/-- The local variables of `Graph::runDijkstra`: the three vectors and the
priority queue, kept as the bag of its entries `(distance, slot)`. -/
structure DState where
  dist : List Int
  prev : List Int
  visited : List Bool
  pq : List (Int × Int)
deriving DecidableEq, Repr

/-- The order `std::greater<>` inverts: pairs compare by distance, then by slot. -/
def pairLE (a b : Int × Int) : Bool :=
  decide (a.1 < b.1) || (decide (a.1 = b.1) && decide (a.2 ≤ b.2))

/-- The entry `pq.top()` of the min-priority queue: the least pair. -/
def pqTop : List (Int × Int) → Option (Int × Int)
  | [] => none
  | x :: xs =>
    match pqTop xs with
    | none => some x
    | some m => if pairLE x m then some x else some m

/-- The body of the neighbour loop of `runDijkstra` for one record of router `u`.
The condition is evaluated left to right, as `&&` does. -/
def relaxEdge (g : Graph) (u : Int) (st : DState) (e : EdgeNode) : Option DState :=
  match getAt st.dist u with
  | none => none
  | some du =>
    let new_dist := du + e.cost
    match getAt st.visited e.dest with
    | none => none
    | some vis =>
      if vis then some st
      else
        match getAt g.nodes e.dest with
        | none => none
        | some rv =>
          if !rv.up then some st
          else if e.cost = INT_MAX then some st
          else
            match getAt st.dist e.dest with
            | none => none
            | some dv =>
              if new_dist < dv then
                some { st with dist := setAt st.dist e.dest (wrap32 new_dist),
                               prev := setAt st.prev e.dest u,
                               pq := (wrap32 new_dist, e.dest) :: st.pq }
              else some st

/-- The neighbour loop of `runDijkstra` over the records of router `u`. -/
def relaxAll (g : Graph) (u : Int) : DState → List EdgeNode → Option DState
  | st, [] => some st
  | st, e :: es =>
    match relaxEdge g u st e with
    | none => none
    | some st1 => relaxAll g u st1 es

/-- One iteration of the `while (!pq.empty())` loop of `runDijkstra`, `top` being
`pq.top()`. -/
def loopBody (g : Graph) (st : DState) (top : Int × Int) : Option DState :=
  let u := top.2
  let st1 := { st with pq := st.pq.erase top }
  match getAt st1.visited u with
  | none => none
  | some vis =>
    match getAt g.nodes u with
    | none => none
    | some ru =>
      if vis || !ru.up then some st1
      else
        let st2 := { st1 with visited := setAt st1.visited u true }
        match getAt st2.dist u with
        | none => none
        | some du =>
          if du = INT_MAX then some st2
          else relaxAll g u st2 ru.head

/-- The `while (!pq.empty())` loop of `runDijkstra` with a budget of iterations;
`none` when the budget runs out before the queue is empty. -/
def runLoop (g : Graph) : Nat → DState → Option DState
  | 0, st =>
    match pqTop st.pq with
    | none => some st
    | some _ => none
  | fuel + 1, st =>
    match pqTop st.pq with
    | none => some st
    | some top =>
      match loopBody g st top with
      | none => none
      | some st1 => runLoop g fuel st1

/-- The number of link records of the store. -/
def totalRecords (g : Graph) : Nat :=
  (g.nodes.map (fun r => r.head.length)).sum

/-- The iteration budget given to the main loop: one more than the number of
routers plus the number of link records. -/
def loopFuel (g : Graph) : Nat := g.nodes.length + totalRecords g + 1

/-- The state of `runDijkstra` when the main loop is entered. -/
def initState (g : Graph) (src : Int) : DState :=
  { dist := setAt (List.replicate g.nodes.length INT_MAX) src 0,
    prev := List.replicate g.nodes.length (-1),
    visited := List.replicate g.nodes.length false,
    pq := [(0, src)] }

/-- The member function `Graph::runDijkstra`. -/
def runDijkstra (g : Graph) (src : Int) : Option DijkstraResult :=
  if src < 0 ∨ src ≥ g.V then some ⟨[], []⟩
  else
    match runLoop g (loopFuel g) (initState g src) with
    | none => none
    | some st => some ⟨st.dist, st.prev⟩

/-- The loop `while (current != -1 && current != src)` of `dijkstra` and
`findShortestPath`: the final `current` and the stack, top first. -/
def walkBack (prev : List Int) (src : Int) : Nat → Int → List Int → Option (Int × List Int)
  | 0, current, acc =>
    if current ≠ -1 ∧ current ≠ src then none else some (current, acc)
  | fuel + 1, current, acc =>
    if current ≠ -1 ∧ current ≠ src then
      match getAt prev current with
      | none => none
      | some p => walkBack prev src fuel p (current :: acc)
    else some (current, acc)

/-- The member function `Graph::dijkstra`: the returned `int`. -/
def dijkstra (g : Graph) (src dest : Int) (returnCostOnly : Bool) : Option Int :=
  if src < 0 ∨ src ≥ g.V ∨ dest < 0 ∨ dest ≥ g.V then some INT_MAX
  else
    match runDijkstra g src with
    | none => none
    | some result =>
      if result.dist.isEmpty || result.prev.isEmpty then some INT_MAX
      else if returnCostOnly then getAt result.dist dest
      else
        match getAt result.dist dest with
        | none => none
        | some dd =>
          if dd = INT_MAX then some INT_MAX
          else
            match walkBack result.prev src g.nodes.length dest [] with
            | none => none
            | some (current, _) =>
              if current = -1 ∧ src ≠ dest then some INT_MAX else some dd

/-- The member function `Graph::findShortestPath`: the returned vector of slots. -/
def findShortestPath (g : Graph) (src dest : Int) : Option (List Int) :=
  if src < 0 ∨ src ≥ g.V ∨ dest < 0 ∨ dest ≥ g.V then some []
  else
    match runDijkstra g src with
    | none => none
    | some result =>
      if result.dist.isEmpty || result.prev.isEmpty then some []
      else
        match getAt result.dist dest with
        | none => none
        | some dd =>
          if dd = INT_MAX then some []
          else
            match walkBack result.prev src g.nodes.length dest [] with
            | none => none
            | some (current, stack) =>
              if current = -1 ∧ src ≠ dest then some [] else some (src :: stack)

/-- The loop `while (prev[current] != src && prev[current] != -1 && current != src)`
of `getNextHop`: the final `current`. -/
def hopBack (prev : List Int) (src : Int) : Nat → Int → Option Int
  | 0, current =>
    match getAt prev current with
    | none => none
    | some p => if p ≠ src ∧ p ≠ -1 ∧ current ≠ src then none else some current
  | fuel + 1, current =>
    match getAt prev current with
    | none => none
    | some p =>
      if p ≠ src ∧ p ≠ -1 ∧ current ≠ src then hopBack prev src fuel p else some current

/-- The member function `Graph::getNextHop`. -/
def getNextHop (g : Graph) (src dest : Int) : Option Int :=
  if src < 0 ∨ src ≥ g.V ∨ dest < 0 ∨ dest ≥ g.V then some (-1)
  else
    match runDijkstra g src with
    | none => none
    | some result =>
      if result.dist.isEmpty || result.prev.isEmpty then some (-1)
      else
        match getAt result.dist dest with
        | none => none
        | some dd =>
          if dd = INT_MAX then some (-1)
          else if src = dest then some src
          else
            match hopBack result.prev src g.nodes.length dest with
            | none => none
            | some current =>
              match getAt result.prev current with
              | none => none
              | some pc =>
                if pc = src then some current
                else if current = dest then
                  match getAt result.prev dest with
                  | none => none
                  | some pd => if pd = src then some dest else some (-1)
                else some (-1)

/-! ## Specification vocabulary -/

/-- The flag `nodes[i].up`, `false` outside the table. -/
def upOf (g : Graph) (i : Int) : Bool :=
  match getAt g.nodes i with
  | none => false
  | some r => r.up

/-- Slot `i` is a router index in range, `0 <= i < V`. -/
def ValidSlot (g : Graph) (i : Int) : Prop := 0 ≤ i ∧ i < g.V

/-- Router `i` exists and is up. -/
def RouterUp (g : Graph) (i : Int) : Prop := upOf g i = true

/-- Every link record points at a slot in range. -/
def DestsValid (g : Graph) : Prop :=
  ∀ r ∈ g.nodes, ∀ e ∈ r.head, 0 ≤ e.dest ∧ e.dest < g.V

/-- The two halves of each link agree: a record on `i` for `j` is matched by a
record on `j` for `i` with the same cost, original cost and up flag. -/
def HalvesAgree (g : Graph) : Prop :=
  ∀ i : Nat, i < g.nodes.length → ∀ e ∈ headOf g i,
    ∃ e2 ∈ headOf g e.dest, e2.dest = (i : Int) ∧ e2.cost = e.cost ∧
      e2.originalCost = e.originalCost ∧ e2.up = e.up

/-- A router holds at most one record for any given `dest`, so that a link is
exactly one record on each of its two ends. -/
def OneRecordPerDest (g : Graph) : Prop :=
  ∀ r ∈ g.nodes, (r.head.map EdgeNode.dest).Nodup

/-- A well-formed store: every link record's `dest` is a slot in range, and every link
consists of two halves that agree, one record on each of its two ends. -/
def WellFormed (g : Graph) : Prop :=
  DestsValid g ∧ HalvesAgree g ∧ OneRecordPerDest g

/-- All link costs are non-negative. -/
def CostsNonneg (g : Graph) : Prop :=
  ∀ r ∈ g.nodes, ∀ e ∈ r.head, 0 ≤ e.cost

/-- Router names are pairwise distinct. -/
def UniqueNames (g : Graph) : Prop :=
  (g.nodes.map Router.name).Nodup

instance (g : Graph) (i : Int) : Decidable (ValidSlot g i) := by
  unfold ValidSlot; infer_instance

instance (g : Graph) (i : Int) : Decidable (RouterUp g i) := by
  unfold RouterUp; infer_instance

instance (g : Graph) : Decidable (DestsValid g) := by
  unfold DestsValid; infer_instance

instance (g : Graph) : Decidable (HalvesAgree g) := by
  unfold HalvesAgree; infer_instance

instance (g : Graph) : Decidable (OneRecordPerDest g) := by
  unfold OneRecordPerDest; infer_instance

instance (g : Graph) : Decidable (WellFormed g) := by
  unfold WellFormed; infer_instance

instance (g : Graph) : Decidable (CostsNonneg g) := by
  unfold CostsNonneg; infer_instance

instance (g : Graph) : Decidable (UniqueNames g) := by
  unfold UniqueNames; infer_instance

/-- The relation `Walk g src v d`: there is a walk from `src` to `v` of total cost `d` all of
whose routers are up and all of whose link records have a cost other than
`INT_MAX`. -/
inductive Walk (g : Graph) (src : Int) : Int → Int → Prop
  | start : RouterUp g src → Walk g src src 0
  | link {u d : Int} (e : EdgeNode) :
      Walk g src u d → e ∈ headOf g u → e.cost ≠ INT_MAX → RouterUp g e.dest →
      Walk g src e.dest (d + e.cost)

/-- The cost `m` is the least total cost of a walk from `src` to `dest`. -/
def IsMinCost (g : Graph) (src dest m : Int) : Prop :=
  Walk g src dest m ∧ ∀ d, Walk g src dest d → m ≤ d

/-- The `cost` field of the link record that router `a` holds for `b` (`0` if none). -/
def linkCost (g : Graph) (a b : Int) : Int :=
  match (headOf g a).find? (fun e => decide (e.dest = b)) with
  | none => 0
  | some e => e.cost

/-- The sum of the link costs over the consecutive pairs of a slot sequence. -/
def pathCost (g : Graph) : List Int → Int
  | a :: b :: rest => linkCost g a b + pathCost g (b :: rest)
  | _ => 0

/-- Slot `v` hangs on the predecessor array: it is the source or has a predecessor. -/
def Linked (prev : List Int) (src v : Int) : Prop :=
  v = src ∨ ∃ u, getAt prev v = some u ∧ u ≠ -1

/-- The relation `Chain prev src v p`: `p` runs from `src` to `v` and each element is the
predecessor of the next one. -/
inductive Chain (prev : List Int) (src : Int) : Int → List Int → Prop
  | base : Chain prev src src [src]
  | step {u v : Int} {p : List Int} :
      Chain prev src u p → v ≠ src → getAt prev v = some u → u ≠ -1 →
      Chain prev src v (p ++ [v])

/-- Slot `v` has a repetition-free predecessor chain whose earlier elements are
all visited. -/
def Good (st : DState) (src v : Int) : Prop :=
  ∃ p, Chain st.prev src v p ∧ p.Nodup ∧
    ∀ x ∈ p, x ≠ v → getAt st.visited x = some true

/-- The invariant of the main loop of `runDijkstra` that holds for arbitrary costs. -/
structure SInv (g : Graph) (src : Int) (st : DState) : Prop where
  src_valid : 0 ≤ src ∧ src < g.V
  len_dist : st.dist.length = g.nodes.length
  len_prev : st.prev.length = g.nodes.length
  len_vis : st.visited.length = g.nodes.length
  dist_src : getAt st.dist src = some 0
  prev_src : getAt st.prev src = some (-1)
  pq_ok : ∀ k w, (k, w) ∈ st.pq →
    Linked st.prev src w ∧ (w = src ∨ getAt st.visited src = some true) ∧
      (w ≠ src → RouterUp g w) ∧ 0 ≤ w ∧ w < g.V
  vis_ok : ∀ v, getAt st.visited v = some true →
    Linked st.prev src v ∧ getAt st.visited src = some true ∧ RouterUp g v
  good : ∀ v, Linked st.prev src v → Good st src v
  prev_ok : ∀ v u, getAt st.prev v = some u → u ≠ -1 →
    getAt st.visited u = some true ∧ RouterUp g v ∧
      ∃ du e, getAt st.dist u = some du ∧ e ∈ headOf g u ∧ e.dest = v ∧
        e.cost ≠ INT_MAX ∧ getAt st.dist v = some (wrap32 (du + e.cost)) ∧
        du + e.cost < INT_MAX
  dist_le : ∀ v d, getAt st.dist v = some d → d ≤ INT_MAX
  dist_ok : ∀ v d, getAt st.dist v = some d → d ≠ INT_MAX → Linked st.prev src v

/-- The invariant of `runDijkstra` that needs non-negative costs and a source that
is up. `cur` is the router whose records are being relaxed and `pending` the
records of it that are still to come (`[]` between two iterations of the main loop). -/
structure DInv (g : Graph) (src : Int) (st : DState) (cur : Int)
    (pending : List EdgeNode) : Prop where
  dist_range : ∀ v d, getAt st.dist v = some d → 0 ≤ d
  sound : ∀ v d, getAt st.dist v = some d → d ≠ INT_MAX → Walk g src v d
  pq_key : ∀ k w, (k, w) ∈ st.pq → k < INT_MAX ∧ ∃ d, getAt st.dist w = some d ∧ d ≤ k
  unvis_pq : ∀ w d, getAt st.visited w = some false → getAt st.dist w = some d →
    d ≠ INT_MAX → (d, w) ∈ st.pq
  vis_le_pq : ∀ v d, getAt st.visited v = some true → getAt st.dist v = some d →
    ∀ k w, (k, w) ∈ st.pq → d ≤ k
  vis_opt : ∀ v d, getAt st.visited v = some true → getAt st.dist v = some d →
    d < INT_MAX ∧ ∀ d2, Walk g src v d2 → d ≤ d2
  relaxed : ∀ u du, getAt st.visited u = some true → getAt st.dist u = some du →
    ∀ e ∈ headOf g u, (u = cur → e ∉ pending) → e.cost ≠ INT_MAX → RouterUp g e.dest →
      du + e.cost < INT_MAX → ∃ dv, getAt st.dist e.dest = some dv ∧ dv ≤ du + e.cost
  cur_max : pending ≠ [] → ∀ v d dc, getAt st.visited v = some true →
    getAt st.dist v = some d → getAt st.dist cur = some dc → d ≤ dc

/-- The weight of the routers not yet visited: one plus the number of link
records for each. -/
def unvisitedWeight : List Bool → List Router → Nat
  | vis :: vs, r :: rs => (if vis then 0 else 1 + r.head.length) + unvisitedWeight vs rs
  | _, _ => 0

/-- The quantity that every iteration of the main loop decreases. -/
def potential (g : Graph) (st : DState) : Nat :=
  st.pq.length + unvisitedWeight st.visited g.nodes

/-- Record `e` is held by some router of the store. -/
def RecordOf (g : Graph) (e : EdgeNode) : Prop := ∃ r ∈ g.nodes, e ∈ r.head

/-- Every record that is marked down carries the cost `INT_MAX`. -/
def DownHasMax (g : Graph) : Prop := ∀ e, RecordOf g e → e.up = false → e.cost = INT_MAX

/-- The name and up flag of every router, in slot order. -/
def labels (g : Graph) : List (String × Bool) :=
  g.nodes.map (fun r => (r.name, r.up))

/-- Link symmetry: every record on an active router points at an active router that
holds a record pointing back, with the same cost, original cost and up flag. -/
def LinkSymmetry (g : Graph) : Prop := DestsValid g ∧ HalvesAgree g

instance (g : Graph) : Decidable (LinkSymmetry g) := by
  unfold LinkSymmetry; infer_instance

/-- The record that the router named `a` holds for the router named `b`, if both
names are known and there is one. -/
def linkBetween (g : Graph) (a b : String) : Option EdgeNode :=
  let i := getRouterIndex g a
  let j := getRouterIndex g b
  if i = -1 ∨ j = -1 then none
  else (headOf g i).find? (fun e => decide (e.dest = j))

/-- The `dest` fields of every adjacency list, in slot order. -/
def destTable (g : Graph) : List (List Int) :=
  g.nodes.map (fun r => r.head.map EdgeNode.dest)

/-- The records that router `i` holds for slot `j`. -/
def recordsFor (g : Graph) (i j : Int) : List EdgeNode :=
  (headOf g i).filter (fun e => decide (e.dest = j))

/-- The records that router `i` holds for slots other than `j`. -/
def recordsNotFor (g : Graph) (i j : Int) : List EdgeNode :=
  (headOf g i).filter (fun e => !decide (e.dest = j))

/-- Every record that is marked up carries its original cost as its cost. -/
def UpHasOriginal (g : Graph) : Prop :=
  ∀ e, RecordOf g e → e.up = true → e.cost = e.originalCost

/-- The store that `main` builds first: five `addRouter()` calls (`R0` .. `R4`) and the
six `addEdge` calls of the spec scenario. -/
def scenario : Graph :=
  addEdge (addEdge (addEdge (addEdge (addEdge (addEdge
    (addRouter (addRouter (addRouter (addRouter (addRouter emptyGraph "") "") "") "") "")
    "R0" "R1" 10) "R1" "R2" 15) "R2" "R3" 20) "R3" "R4" 25) "R0" "R4" 50) "R1" "R3" 30

/-- Two routers and a link created with the cost `INT_MAX`, built through the public
mutators. -/
def sentinelPair : Graph :=
  addEdge (addRouter (addRouter emptyGraph "") "") "R0" "R1" INT_MAX

/-- The number of link records held by the routers that are not yet visited: a bound on
the pushes that the main loop of `runDijkstra` can still make. -/
def pendingRecords : List Bool → List Router → Nat
  | vis :: vs, r :: rs => (if vis then 0 else r.head.length) + pendingRecords vs rs
  | _, _ => 0

/-- The queue length plus the records of the unvisited routers. -/
def pushBound (g : Graph) (st : DState) : Nat :=
  st.pq.length + pendingRecords st.visited g.nodes

/-- The states in which `runDijkstra(src)` stands at the test of its `while` loop. -/
inductive AtLoopHead (g : Graph) (src : Int) : DState → Prop
  | init : AtLoopHead g src (initState g src)
  | next {st st1 : DState} {top : Int × Int} :
      AtLoopHead g src st → pqTop st.pq = some top → loopBody g st top = some st1 →
      AtLoopHead g src st1

/-- The states in which `runDijkstra(src)` stands inside the `for` loop over the records
of router `u`, with `es` the records still to come: the loop is entered for the popped
slot when it is unvisited, up and `dist[u] != INT_MAX`, and each record is handled by
`relaxEdge`. -/
inductive AtRelax (g : Graph) (src : Int) : Int → DState → List EdgeNode → Prop
  | enter {st : DState} {top : Int × Int} {ru : Router} {du : Int} :
      AtLoopHead g src st → pqTop st.pq = some top →
      getAt st.visited top.2 = some false → getAt g.nodes top.2 = some ru → ru.up = true →
      getAt st.dist top.2 = some du → du ≠ INT_MAX →
      AtRelax g src top.2
        { st with pq := st.pq.erase top, visited := setAt st.visited top.2 true } ru.head
  | step {u : Int} {st st1 : DState} {e : EdgeNode} {es : List EdgeNode} :
      AtRelax g src u st (e :: es) → relaxEdge g u st e = some st1 → AtRelax g src u st1 es

/-- The vectors of a state have the size of the table and every distance lies in
`[0, INT_MAX]`. -/
structure RangeInv (g : Graph) (st : DState) : Prop where
  len_dist : st.dist.length = g.nodes.length
  len_vis : st.visited.length = g.nodes.length
  range : ∀ v d, getAt st.dist v = some d → 0 ≤ d ∧ d ≤ INT_MAX

/-- The cost column of a row of the routing table: the text `INF` or the number `cost`. -/
inductive CostCell where
  | inf : CostCell
  | ms (cost : Int) : CostCell
deriving DecidableEq, Repr

/-- One row written by `printRoutingTable`: its three tab-separated columns. -/
structure TableRow where
  destination : String
  nextHop : String
  cost : CostCell
deriving DecidableEq, Repr

/-- What `printRoutingTable` writes: the line `Invalid router index.`, or the title line
with the router's name, the column headings and the rows. -/
inductive TableOutput where
  | invalid : TableOutput
  | table (router : String) (rows : List TableRow) : TableOutput
deriving DecidableEq, Repr

/-- The body of the `for` loop of `printRoutingTable` for one `dest != routerIdx`. -/
def tableRow (g : Graph) (routerIdx dest : Int) : Option TableRow :=
  match getNextHop g routerIdx dest with
  | none => none
  | some nextHop =>
    match dijkstra g routerIdx dest true with
    | none => none
    | some cost =>
      match getAt g.nodes dest with
      | none => none
      | some rd =>
        if cost = INT_MAX then some ⟨rd.name, "-", CostCell.inf⟩
        else if nextHop = -1 ∨ nextHop = routerIdx then
          some ⟨rd.name, rd.name, CostCell.ms cost⟩
        else
          match getAt g.nodes nextHop with
          | none => none
          | some rh => some ⟨rd.name, rh.name, CostCell.ms cost⟩

/-- The `for (dest = 0; dest < V; ++dest)` loop of `printRoutingTable` over the slots
`dests`. -/
def tableRows (g : Graph) (routerIdx : Int) : List Nat → Option (List TableRow)
  | [] => some []
  | dest :: dests =>
    if (dest : Int) = routerIdx then tableRows g routerIdx dests
    else
      match tableRow g routerIdx dest with
      | none => none
      | some row =>
        match tableRows g routerIdx dests with
        | none => none
        | some rows => some (row :: rows)

/-- The member function `Graph::printRoutingTable`: what it writes. -/
def printRoutingTable (g : Graph) (routerIdx : Int) : Option TableOutput :=
  if routerIdx < 0 ∨ routerIdx ≥ g.V then some TableOutput.invalid
  else
    match getAt g.nodes routerIdx with
    | none => none
    | some r =>
      match tableRows g routerIdx (List.range g.nodes.length) with
      | none => none
      | some rows => some (TableOutput.table r.name rows)

/-- The relation between a slot `dest` and its row in the routing table of `routerIdx`:
the row names `dest`, shows `INF` and `-` exactly when the cost query gives `INT_MAX`
(which is exactly when the next-hop query gives `-1`), and otherwise shows the name of the
next hop and the cost. -/
def RowSpec (g : Graph) (routerIdx : Int) (dest : Nat) (row : TableRow) : Prop :=
  ∃ rd c hop, getAt g.nodes dest = some rd ∧ row.destination = rd.name ∧
    dijkstra g routerIdx dest true = some c ∧ getNextHop g routerIdx dest = some hop ∧
    (row.cost = CostCell.inf ↔ c = INT_MAX) ∧ (hop = -1 ↔ c = INT_MAX) ∧
    (c = INT_MAX → row.nextHop = "-") ∧
    (c ≠ INT_MAX → row.cost = CostCell.ms c ∧
      ∃ rh, getAt g.nodes hop = some rh ∧ row.nextHop = rh.name) ∧
    (CostsNonneg g →
      (row.cost = CostCell.inf ↔ ¬ ∃ d, Walk g routerIdx dest d ∧ d < INT_MAX))

/-- A whitespace-separated token of the saved text: a run of non-blank characters that
was written for a name, an integer written by `<<`, or a floating-point number written
by `<<` (a position, whose value is not modelled). -/
inductive Token where
  | word (s : String) : Token
  | num (n : Int) : Token
  | real : Token
deriving DecidableEq, Repr

/-- The characters that formatted input skips as white space. -/
def isBlank (c : Char) : Bool :=
  c.toNat = 32 || (9 ≤ c.toNat && c.toNat ≤ 13)

/-- The blank-separated words of a character sequence; `cur` is the word being read,
last character first. -/
def splitWords : List Char → List Char → List String
  | [], cur => if cur.isEmpty then [] else [String.mk cur.reverse]
  | c :: cs, cur =>
    if isBlank c then
      if cur.isEmpty then splitWords cs [] else String.mk cur.reverse :: splitWords cs []
    else splitWords cs (c :: cur)

/-- The tokens that a name written by `fout << name` is read back as. -/
def words (s : String) : List String := splitWords s.data []

/-- The lines written by `saveToFile`: the router count, one line per router (name and
up flag; the two positions are not modelled) and one line per link (the two names and the
original cost). -/
structure SavedText where
  count : Int
  routers : List (String × Bool)
  links : List (String × String × Int)
deriving DecidableEq, Repr

/-- The inner loop of the link section of `saveToFile` for router `r` at slot `i`; `none`
when `nodes[e->dest]` is no active router. -/
def linkLines (g : Graph) (i : Int) (r : Router) :
    List EdgeNode → Option (List (String × String × Int))
  | [] => some []
  | e :: es =>
    if i < e.dest then
      match getAt g.nodes e.dest with
      | none => none
      | some rv =>
        match linkLines g i r es with
        | none => none
        | some ls => some ((r.name, rv.name, e.originalCost) :: ls)
    else linkLines g i r es

/-- The outer loop of the link section of `saveToFile`, from slot `i` on. -/
def allLinkLines (g : Graph) : Int → List Router → Option (List (String × String × Int))
  | _, [] => some []
  | i, r :: rs =>
    match linkLines g i r r.head with
    | none => none
    | some ls =>
      match allLinkLines g (i + 1) rs with
      | none => none
      | some ls2 => some (ls ++ ls2)

/-- The member function `Graph::saveToFile`: the lines it writes. -/
def saveToFile (g : Graph) : Option SavedText :=
  match allLinkLines g 0 g.nodes with
  | none => none
  | some ls => some ⟨g.V, g.nodes.map (fun r => (r.name, r.up)), ls⟩

/-- The tokens of a router line: `name up x y`. -/
def routerTokens (l : String × Bool) : List Token :=
  (words l.1).map Token.word ++ [Token.num (if l.2 then 1 else 0), Token.real, Token.real]

/-- The tokens of a link line: `from to cost`. -/
def linkTokens (l : String × String × Int) : List Token :=
  (words l.1).map Token.word ++ (words l.2.1).map Token.word ++ [Token.num l.2.2]

/-- The saved text as the sequence of its whitespace-separated tokens. -/
def tokens (t : SavedText) : List Token :=
  Token.num t.count :: (t.routers.flatMap routerTokens ++ t.links.flatMap linkTokens)

/-- The outcome of one formatted extraction `fin >> x`: a value and the remaining tokens,
a failed stream, or an outcome that the token model does not determine (a number read
as text, or as a number a word that starts like one). -/
inductive ReadResult (α : Type) where
  | value (a : α) (rest : List Token) : ReadResult α
  | fail : ReadResult α
  | unknown : ReadResult α

/-- Whether a word starts with a digit or a sign, so that reading it as an `int` may
succeed on a part of it. -/
def startsNumber (s : String) : Bool :=
  match s.data with
  | [] => false
  | c :: _ => c.isDigit || c.toNat = 43 || c.toNat = 45

/-- The extraction `fin >> s` of a `string`. -/
def readString : List Token → ReadResult String
  | [] => ReadResult.fail
  | Token.word s :: rest => ReadResult.value s rest
  | _ :: _ => ReadResult.unknown

/-- The extraction `fin >> n` of an `int`. -/
def readInt : List Token → ReadResult Int
  | [] => ReadResult.fail
  | Token.num n :: rest => ReadResult.value n rest
  | Token.word s :: _ => if startsNumber s then ReadResult.unknown else ReadResult.fail
  | Token.real :: _ => ReadResult.unknown

/-- The extraction `fin >> x` of a `float`, whose value is not modelled. -/
def readFloat : List Token → ReadResult Unit
  | [] => ReadResult.fail
  | Token.real :: rest => ReadResult.value () rest
  | Token.num _ :: rest => ReadResult.value () rest
  | Token.word _ :: _ => ReadResult.unknown

/-- The assignment `nodes[i].up = b`; it changes no active router when `i` is not below
`V`. -/
def setUp (g : Graph) (i : Int) (b : Bool) : Graph :=
  match getAt g.nodes i with
  | none => g
  | some r => ⟨setAt g.nodes i { r with up := b }⟩

/-- The loop of `loadFromFile` that reads `n` router lines, from loop index `i` on: the
store afterwards and the remaining tokens, which are `none` when the load was aborted;
the whole result is `none` when an extraction is not determined by the token model. -/
def loadRouters : Nat → Int → Graph → List Token → Option (Graph × Option (List Token))
  | 0, _, g, toks => some (g, some toks)
  | n + 1, i, g, toks =>
    match readString toks with
    | ReadResult.unknown => none
    | ReadResult.fail => some (g, none)
    | ReadResult.value name t1 =>
      match readInt t1 with
      | ReadResult.unknown => none
      | ReadResult.fail => some (g, none)
      | ReadResult.value upFlag t2 =>
        match readFloat t2 with
        | ReadResult.unknown => none
        | ReadResult.fail => some (g, none)
        | ReadResult.value _ t3 =>
          match readFloat t3 with
          | ReadResult.unknown => none
          | ReadResult.fail => some (g, none)
          | ReadResult.value _ t4 =>
            loadRouters n (i + 1) (setUp (addRouter g name) i (decide (upFlag = 1))) t4

/-- The loop `while (fin >> from >> to >> cost)` of `loadFromFile` with a budget of
iterations; `none` when the budget runs out or an extraction is not determined. -/
def loadEdges : Nat → Graph → List Token → Option Graph
  | 0, _, _ => none
  | n + 1, g, toks =>
    match readString toks with
    | ReadResult.unknown => none
    | ReadResult.fail => some g
    | ReadResult.value fromName t1 =>
      match readString t1 with
      | ReadResult.unknown => none
      | ReadResult.fail => some g
      | ReadResult.value toName t2 =>
        match readInt t2 with
        | ReadResult.unknown => none
        | ReadResult.fail => some g
        | ReadResult.value cost t3 => loadEdges n (addEdge g fromName toName cost) t3

/-- The member function `Graph::loadFromFile` on a file that can be opened and holds the
tokens `toks`. The store before the call is cleared first, so the result does not depend
on it. -/
def loadFromFile (toks : List Token) : Option Graph :=
  match readInt toks with
  | ReadResult.unknown => none
  | ReadResult.fail => some emptyGraph
  | ReadResult.value n_routers t1 =>
    if n_routers < 0 then some emptyGraph
    else if n_routers > MAX_V then some emptyGraph
    else
      match loadRouters n_routers.toNat 0 emptyGraph t1 with
      | none => none
      | some (g, none) => some g
      | some (g, some t2) => loadEdges (t2.length + 1) g t2
/-- No router holds a record for its own slot. -/
def NoSelfLinks (g : Graph) : Prop :=
  ∀ i : Nat, i < g.nodes.length → ∀ e ∈ headOf g i, e.dest ≠ (i : Int)

instance (g : Graph) : Decidable (NoSelfLinks g) := by
  unfold NoSelfLinks; infer_instance

/-- Every router name is read back as one token: it is not empty and holds no blank. -/
def SingleTokenNames (g : Graph) : Prop :=
  ∀ r ∈ g.nodes, words r.name = [r.name]

instance (g : Graph) : Decidable (SingleTokenNames g) := by
  unfold SingleTokenNames; infer_instance

/-- The routers named `a` and `b` are joined by a link record, held by `a`, whose
original cost is `c`. -/
def HasLink (g : Graph) (a b : String) (c : Int) : Prop :=
  ∃ u ru e rv, getAt g.nodes u = some ru ∧ ru.name = a ∧ e ∈ ru.head ∧
    getAt g.nodes e.dest = some rv ∧ rv.name = b ∧ e.originalCost = c

/-- The router that a router line of the saved text is loaded as, before any link is
read. -/
def routerOfLine (l : String × Bool) : Router := ⟨l.1, l.2, []⟩

/-- The calls `addEdge(from, to, cost)` for a list of link lines, in order. -/
def addLinks (g : Graph) (ls : List (String × String × Int)) : Graph :=
  ls.foldl (fun h l => addEdge h l.1 l.2.1 l.2.2) g

/-- The slots and the original cost of the link lines that the inner loop of `saveToFile`
writes for slot `i`: one triple for each record whose `dest` is above `i`. -/
def linkSlots (i : Int) : List EdgeNode → List (Int × Int × Int)
  | [] => []
  | e :: es =>
    if i < e.dest then (i, e.dest, e.originalCost) :: linkSlots i es else linkSlots i es

/-- The slots and the original cost of all link lines, from slot `i` on. -/
def allLinkSlots : Int → List Router → List (Int × Int × Int)
  | _, [] => []
  | i, r :: rs => linkSlots i r.head ++ allLinkSlots (i + 1) rs

/-- The name in slot `i`, the empty string outside the table. -/
def nameAt (g : Graph) (i : Int) : String :=
  match getAt g.nodes i with
  | none => ""
  | some r => r.name

/-- The link line written for a triple of two slots and a cost. -/
def lineOf (g : Graph) (t : Int × Int × Int) : String × String × Int :=
  (nameAt g t.1, nameAt g t.2.1, t.2.2)

/-- The two records that `addEdge` creates for the link line of the triple `t`: `e` is
held by slot `u`. -/
def MadeBy (t : Int × Int × Int) (u : Int) (e : EdgeNode) : Prop :=
  (u = t.1 ∧ e = ⟨t.2.1, t.2.2, t.2.2, true⟩) ∨ (u = t.2.1 ∧ e = ⟨t.1, t.2.2, t.2.2, true⟩)

/-- The relaxation step of `runDijkstra` with the link test `cost != INT_MAX` replaced by
a test of the record's `up` flag, the filter that the specification names; it is compared
with `relaxEdge`. -/
def relaxEdgeByUp (g : Graph) (u : Int) (st : DState) (e : EdgeNode) : Option DState :=
  match getAt st.dist u with
  | none => none
  | some du =>
    let new_dist := du + e.cost
    match getAt st.visited e.dest with
    | none => none
    | some vis =>
      if vis then some st
      else
        match getAt g.nodes e.dest with
        | none => none
        | some rv =>
          if !rv.up then some st
          else if !e.up then some st
          else
            match getAt st.dist e.dest with
            | none => none
            | some dv =>
              if new_dist < dv then
                some { st with dist := setAt st.dist e.dest (wrap32 new_dist),
                               prev := setAt st.prev e.dest u,
                               pq := (wrap32 new_dist, e.dest) :: st.pq }
              else some st

/-! ## Example stores -/

/-- A store with the single router `R0`, which is down: `addRouter` followed by
`toggleRouterStatus("R0")`. -/
def downOnly : Graph := ⟨[⟨"R0", false, []⟩]⟩

/-- Two routers joined by one link of cost 5. -/
def pairStore : Graph :=
  ⟨[⟨"R0", true, [⟨1, 5, 5, true⟩]⟩, ⟨"R1", true, [⟨0, 5, 5, true⟩]⟩]⟩

/-- Three routers in a row, `R0 - R1 - R2`, with link costs 5 and 7. -/
def lineStore : Graph :=
  ⟨[⟨"R0", true, [⟨1, 5, 5, true⟩]⟩,
    ⟨"R1", true, [⟨2, 7, 7, true⟩, ⟨0, 5, 5, true⟩]⟩,
    ⟨"R2", true, [⟨1, 7, 7, true⟩]⟩]⟩

/-- Three routers `R0`, `R1`, `R2` and the single link `R1 - R2` of cost 5, built
through the public mutators. -/
def threeRouters : Graph :=
  addEdge (addRouter (addRouter (addRouter emptyGraph "") "") "") "R1" "R2" 5

/-- The store `threeRouters` after `removeRouter("R0")`: `R1` and `R2` have moved to
slots 0 and 1, their records still carry the old slot numbers 2 and 1. -/
def staleStore : Graph :=
  ⟨[⟨"R1", true, [⟨2, 5, 5, true⟩]⟩, ⟨"R2", true, [⟨1, 5, 5, true⟩]⟩]⟩

/-! ## Element access lemmas -/

theorem getAt_some_bounds {α : Type} {xs : List α} {i : Int} {x : α}
    (h : getAt xs i = some x) : 0 ≤ i ∧ i < (xs.length : Int) := by
  unfold getAt at h
  split at h
  · rename_i h0
    have hlt : i.toNat < xs.length := by
      by_contra hc
      rw [List.getElem?_eq_none (by omega)] at h
      cases h
    exact ⟨h0, by omega⟩
  · cases h

theorem getAt_of_bounds {α : Type} (xs : List α) {i : Int}
    (h0 : 0 ≤ i) (h1 : i < (xs.length : Int)) : ∃ x, getAt xs i = some x := by
  have hlt : i.toNat < xs.length := by omega
  exact ⟨xs[i.toNat], by simp [getAt, h0, List.getElem?_eq_getElem hlt]⟩

theorem length_setAt {α : Type} (xs : List α) (i : Int) (x : α) :
    (setAt xs i x).length = xs.length := by
  unfold setAt
  split <;> simp

theorem getAt_setAt_self {α : Type} (xs : List α) {i : Int} (x : α)
    (h0 : 0 ≤ i) (h1 : i < (xs.length : Int)) : getAt (setAt xs i x) i = some x := by
  have hlt : i.toNat < xs.length := by omega
  simp [getAt, setAt, h0, hlt]

theorem getAt_setAt_ne {α : Type} (xs : List α) {i j : Int} (x : α) (h : i ≠ j) :
    getAt (setAt xs i x) j = getAt xs j := by
  unfold getAt setAt
  by_cases hi : 0 ≤ i <;> by_cases hj : 0 ≤ j <;> simp [hi, hj]
  have hne : i.toNat ≠ j.toNat := by omega
  simp [List.getElem?_set, hne]

theorem getAt_mem {α : Type} {xs : List α} {i : Int} {x : α}
    (h : getAt xs i = some x) : x ∈ xs := by
  unfold getAt at h
  split at h
  · exact List.getElem?_mem h
  · cases h

theorem getAt_replicate {α : Type} (n : Nat) (a : α) {i : Int} {x : α}
    (h : getAt (List.replicate n a) i = some x) : x = a :=
  List.eq_of_mem_replicate (getAt_mem h)

/-! ## The priority queue -/

theorem pairLE_total (a b : Int × Int) (h : pairLE a b = false) : pairLE b a = true := by
  simp only [pairLE, Bool.or_eq_false_iff, Bool.and_eq_false_iff, decide_eq_false_iff_not,
    Bool.or_eq_true, Bool.and_eq_true, decide_eq_true_eq] at *
  omega

theorem pairLE_trans (a b c : Int × Int) (h1 : pairLE a b = true) (h2 : pairLE b c = true) :
    pairLE a c = true := by
  simp only [pairLE, Bool.or_eq_true, Bool.and_eq_true, decide_eq_true_eq] at *
  omega

theorem pairLE_refl (a : Int × Int) : pairLE a a = true := by
  simp [pairLE]

theorem pairLE_fst {a b : Int × Int} (h : pairLE a b = true) : a.1 ≤ b.1 := by
  simp only [pairLE, Bool.or_eq_true, Bool.and_eq_true, decide_eq_true_eq] at h
  omega

theorem pqTop_spec : ∀ (pq : List (Int × Int)) (top : Int × Int), pqTop pq = some top →
    top ∈ pq ∧ ∀ x ∈ pq, pairLE top x = true
  | [], top, h => by simp [pqTop] at h
  | x :: xs, top, h => by
    unfold pqTop at h
    cases hm : pqTop xs with
    | none =>
      rw [hm] at h
      simp only [Option.some.injEq] at h
      subst h
      have hx : xs = [] := by
        cases xs with
        | nil => rfl
        | cons y ys =>
          unfold pqTop at hm
          split at hm
          · cases hm
          · split at hm <;> cases hm
      subst hx
      simp [pairLE_refl]
    | some m =>
      rw [hm] at h
      have ih := pqTop_spec xs m hm
      by_cases hle : pairLE x m = true
      · simp only [hle, if_true, Option.some.injEq] at h
        subst h
        refine ⟨List.mem_cons_self _ _, ?_⟩
        intro y hy
        rcases List.mem_cons.mp hy with rfl | hy
        · exact pairLE_refl _
        · exact pairLE_trans _ _ _ hle (ih.2 y hy)
      · simp only [hle, if_false, Option.some.injEq] at h
        have hle2 : pairLE x m = false := by simpa using hle
        simp only [hle2, Bool.false_eq_true, if_false, Option.some.injEq] at h
        subst h
        refine ⟨List.mem_cons_of_mem _ ih.1, ?_⟩
        intro y hy
        rcases List.mem_cons.mp hy with rfl | hy
        · exact pairLE_total _ _ (by simpa using hle)
        · exact ih.2 y hy

theorem pqTop_eq_none {pq : List (Int × Int)} (h : pqTop pq = none) : pq = [] := by
  cases pq with
  | nil => rfl
  | cons y ys =>
    unfold pqTop at h
    split at h
    · cases h
    · split at h <;> cases h

theorem pqTop_isSome_of_ne_nil {pq : List (Int × Int)} (h : pq ≠ []) :
    ∃ top, pqTop pq = some top := by
  cases hp : pqTop pq with
  | none => exact absurd (pqTop_eq_none hp) h
  | some t => exact ⟨t, rfl⟩

/-! ## Case analysis of one loop iteration -/

/-- The state after a successful relaxation of record `e` of router `u`. -/
theorem relaxEdge_cases {g : Graph} {u : Int} {st st1 : DState} {e : EdgeNode}
    (h : relaxEdge g u st e = some st1) :
    ∃ du vis, getAt st.dist u = some du ∧ getAt st.visited e.dest = some vis ∧
      ((vis = false ∧ upOf g e.dest = true ∧ e.cost ≠ INT_MAX ∧
          (∃ dv, getAt st.dist e.dest = some dv ∧ du + e.cost < dv) ∧
          st1 = { st with dist := setAt st.dist e.dest (wrap32 (du + e.cost)),
                          prev := setAt st.prev e.dest u,
                          pq := (wrap32 (du + e.cost), e.dest) :: st.pq }) ∨
       (st1 = st ∧ (vis = true ∨ upOf g e.dest = false ∨ e.cost = INT_MAX ∨
          ∃ dv, getAt st.dist e.dest = some dv ∧ dv ≤ du + e.cost))) := by
  unfold relaxEdge at h
  cases hdu : getAt st.dist u with
  | none => simp [hdu] at h
  | some du =>
    cases hvis : getAt st.visited e.dest with
    | none => simp [hdu, hvis] at h
    | some vis =>
      refine ⟨du, vis, rfl, rfl, ?_⟩
      simp only [hdu, hvis] at h
      by_cases hv : vis = true
      · simp only [hv, if_true, Option.some.injEq] at h
        exact Or.inr ⟨h.symm, Or.inl hv⟩
      · have hv2 : vis = false := by simpa using hv
        subst hv2
        simp only [Bool.false_eq_true, if_false] at h
        cases hrv : getAt g.nodes e.dest with
        | none => simp [hrv] at h
        | some rv =>
          simp only [hrv] at h
          have hup : upOf g e.dest = rv.up := by simp [upOf, hrv]
          by_cases hru : rv.up = true
          · simp only [hru, Bool.not_true, Bool.false_eq_true, if_false] at h
            by_cases hc : e.cost = INT_MAX
            · simp only [hc, if_true, Option.some.injEq] at h
              exact Or.inr ⟨h.symm, Or.inr (Or.inr (Or.inl hc))⟩
            · simp only [hc, if_false] at h
              cases hdv : getAt st.dist e.dest with
              | none => simp [hdv] at h
              | some dv =>
                simp only [hdv] at h
                by_cases hlt : du + e.cost < dv
                · simp only [hlt, if_true, Option.some.injEq] at h
                  exact Or.inl ⟨rfl, by rw [hup, hru], hc, ⟨dv, rfl, hlt⟩, h.symm⟩
                · simp only [hlt, if_false, Option.some.injEq] at h
                  exact Or.inr ⟨h.symm, Or.inr (Or.inr (Or.inr ⟨dv, rfl, by omega⟩))⟩
          · have hru2 : rv.up = false := by simpa using hru
            simp only [hru2, Bool.not_false, if_true, Option.some.injEq] at h
            exact Or.inr ⟨h.symm, Or.inr (Or.inl (by rw [hup, hru2]))⟩

/-- A relaxation succeeds as soon as the record points into the table. -/
theorem relaxEdge_isSome (g : Graph) (u : Int) (st : DState) (e : EdgeNode)
    (hu : ∃ du, getAt st.dist u = some du)
    (hvis : ∃ vis, getAt st.visited e.dest = some vis)
    (hn : ∃ rv, getAt g.nodes e.dest = some rv)
    (hd : ∃ dv, getAt st.dist e.dest = some dv) :
    ∃ st1, relaxEdge g u st e = some st1 := by
  obtain ⟨du, hdu⟩ := hu
  obtain ⟨vis, hvis⟩ := hvis
  obtain ⟨rv, hrv⟩ := hn
  obtain ⟨dv, hdv⟩ := hd
  unfold relaxEdge
  simp only [hdu, hvis, hrv, hdv]
  split
  · exact ⟨_, rfl⟩
  · split
    · exact ⟨_, rfl⟩
    · split
      · exact ⟨_, rfl⟩
      · split <;> exact ⟨_, rfl⟩

/-- The shape of one successful iteration of the main loop. -/
theorem loopBody_cases {g : Graph} {st st1 : DState} {top : Int × Int}
    (h : loopBody g st top = some st1) :
    ∃ vis ru, getAt st.visited top.2 = some vis ∧ getAt g.nodes top.2 = some ru ∧
      (((vis = true ∨ ru.up = false) ∧ st1 = { st with pq := st.pq.erase top }) ∨
       (vis = false ∧ ru.up = true ∧ ∃ du, getAt st.dist top.2 = some du ∧
          ((du = INT_MAX ∧
              st1 = { st with pq := st.pq.erase top,
                              visited := setAt st.visited top.2 true }) ∨
           (du ≠ INT_MAX ∧
              relaxAll g top.2 { st with pq := st.pq.erase top,
                                         visited := setAt st.visited top.2 true } ru.head
                = some st1)))) := by
  unfold loopBody at h
  simp only at h
  cases hvis : getAt st.visited top.2 with
  | none => simp [hvis] at h
  | some vis =>
    cases hru : getAt g.nodes top.2 with
    | none => simp [hvis, hru] at h
    | some ru =>
      refine ⟨vis, ru, rfl, rfl, ?_⟩
      simp only [hvis, hru] at h
      cases vis with
      | true =>
        simp only [Bool.true_or, if_true, Option.some.injEq] at h
        exact Or.inl ⟨Or.inl rfl, h.symm⟩
      | false =>
        cases hup : ru.up with
        | false =>
          simp only [hup, Bool.not_false, Bool.or_true, if_true, Option.some.injEq] at h
          exact Or.inl ⟨Or.inr rfl, h.symm⟩
        | true =>
          simp only [hup, Bool.not_true, Bool.or_false, Bool.false_eq_true, if_false] at h
          right
          refine ⟨rfl, rfl, ?_⟩
          cases hdu : getAt st.dist top.2 with
          | none => simp [hdu] at h
          | some du =>
            refine ⟨du, rfl, ?_⟩
            simp only [hdu] at h
            by_cases hm : du = INT_MAX
            · simp only [hm, if_true, Option.some.injEq] at h
              exact Or.inl ⟨hm, h.symm⟩
            · simp only [hm, if_false] at h
              exact Or.inr ⟨hm, h⟩

/-! ## Predecessor chains -/

theorem chain_last_mem {prev : List Int} {src v : Int} {p : List Int}
    (h : Chain prev src v p) : v ∈ p := by
  cases h with
  | base => simp
  | step _ _ _ _ => simp

theorem chain_head {prev : List Int} {src v : Int} {p : List Int}
    (h : Chain prev src v p) : ∃ q, p = src :: q := by
  induction h with
  | base => exact ⟨[], rfl⟩
  | @step u w p0 _ _ _ _ ih =>
    obtain ⟨q, rfl⟩ := ih
    exact ⟨q ++ [w], by simp⟩

theorem chain_getLast {prev : List Int} {src v : Int} {p : List Int}
    (h : Chain prev src v p) : p.getLast? = some v := by
  cases h with
  | base => rfl
  | step _ _ _ _ => simp

theorem chain_src_eq {prev : List Int} {src v : Int} {p : List Int}
    (h : Chain prev src v p) (hv : v = src) : p = [src] := by
  cases h with
  | base => rfl
  | step _ hne _ _ => exact absurd hv hne

theorem chain_length_pos {prev : List Int} {src v : Int} {p : List Int}
    (h : Chain prev src v p) : 0 < p.length := by
  obtain ⟨q, rfl⟩ := chain_head h
  simp

/-- Writing `prev[w]` for a slot off the chain keeps the chain. -/
theorem chain_setAt {prev : List Int} {src v : Int} {p : List Int} (w x : Int)
    (h : Chain prev src v p) (hw : w ∉ p) : Chain (setAt prev w x) src v p := by
  induction h with
  | base => exact Chain.base
  | @step u v p hc hne hp hu ih =>
    have hw1 : w ∉ p := fun hm => hw (List.mem_append_left _ hm)
    have hw2 : w ≠ v := fun hm => hw (by simp [hm])
    exact Chain.step (ih hw1) hne (by rw [getAt_setAt_ne _ _ hw2]; exact hp) hu

/-- Every slot on a chain is in range. -/
theorem chain_bounds {prev : List Int} {src v : Int} {p : List Int}
    (h : Chain prev src v p) (hs : 0 ≤ src ∧ src < (prev.length : Int)) :
    ∀ x ∈ p, 0 ≤ x ∧ x < (prev.length : Int) := by
  induction h with
  | base => intro x hx; simp at hx; subst hx; exact hs
  | step hc hne hp hu ih =>
    intro x hx
    rcases List.mem_append.mp hx with hx | hx
    · exact ih x hx
    · simp at hx; subst hx; exact getAt_some_bounds hp

/-- Consecutive slots of a chain are predecessor and successor. -/
theorem chain_chain' {prev : List Int} {src v : Int} {p : List Int}
    (h : Chain prev src v p) :
    List.Chain' (fun a b => getAt prev b = some a ∧ a ≠ -1 ∧ b ≠ src) p := by
  induction h with
  | base => simp
  | step hc hne hp hu ih =>
    apply List.Chain'.append ih (List.chain'_singleton _)
    intro x hx y hy
    rw [chain_getLast hc] at hx
    simp at hx hy
    subst hx; subst hy
    exact ⟨hp, hu, hne⟩

theorem linked_setAt {prev : List Int} {src w v u : Int} (h : Linked prev src w)
    (hv : 0 ≤ v ∧ v < (prev.length : Int)) (hu : u ≠ -1) :
    Linked (setAt prev v u) src w := by
  rcases h with h | ⟨x, hx, hx1⟩
  · exact Or.inl h
  · by_cases hwv : v = w
    · subst hwv
      exact Or.inr ⟨u, getAt_setAt_self _ _ hv.1 hv.2, hu⟩
    · exact Or.inr ⟨x, by rw [getAt_setAt_ne _ _ hwv]; exact hx, hx1⟩

theorem upOf_eq_true {g : Graph} {i : Int} (h : upOf g i = true) :
    ∃ r, getAt g.nodes i = some r ∧ r.up = true := by
  unfold upOf at h
  split at h
  · cases h
  · rename_i r hr
    exact ⟨r, hr, h⟩

theorem upOf_of_getAt {g : Graph} {i : Int} {r : Router} (h : getAt g.nodes i = some r) :
    upOf g i = r.up := by
  simp [upOf, h]

theorem headOf_of_getAt {g : Graph} {i : Int} {r : Router} (h : getAt g.nodes i = some r) :
    headOf g i = r.head := by
  simp [headOf, h]

theorem getAt_setAt_true {vis : List Bool} {u x : Int} (h : getAt vis x = some true) :
    getAt (setAt vis u true) x = some true := by
  by_cases hux : u = x
  · subst hux
    have hb := getAt_some_bounds h
    exact getAt_setAt_self _ _ hb.1 hb.2
  · rw [getAt_setAt_ne _ _ hux]; exact h

/-! ## The structural invariant is kept by every step -/

/-- Storing a new distance and predecessor for an unvisited slot `v` reached
from a visited router `u` keeps the structural invariant. -/
theorem SInv_update {g : Graph} {src u : Int} {st : DState} {e : EdgeNode} {du : Int}
    (inv : SInv g src st) (hu : getAt st.visited u = some true)
    (he : e ∈ headOf g u) (hdu : getAt st.dist u = some du)
    (hv : getAt st.visited e.dest = some false) (hup : upOf g e.dest = true)
    (hc : e.cost ≠ INT_MAX)
    (hlt : ∃ dv, getAt st.dist e.dest = some dv ∧ du + e.cost < dv) :
    SInv g src { st with dist := setAt st.dist e.dest (wrap32 (du + e.cost)),
                         prev := setAt st.prev e.dest u,
                         pq := (wrap32 (du + e.cost), e.dest) :: st.pq } := by
  have hvb := getAt_some_bounds hv
  have hub := getAt_some_bounds hu
  have hvs := (inv.vis_ok u hu).2.1
  have hvu : e.dest ≠ u := by
    intro h; rw [h, hu] at hv; cases hv
  have hvsrc : e.dest ≠ src := by
    intro h; rw [h, hvs] at hv; cases hv
  have hu1 : u ≠ -1 := by omega
  have hvp : 0 ≤ e.dest ∧ e.dest < (st.prev.length : Int) := by
    rw [inv.len_prev, ← inv.len_vis]; exact hvb
  have hvd : 0 ≤ e.dest ∧ e.dest < (st.dist.length : Int) := by
    rw [inv.len_dist, ← inv.len_vis]; exact hvb
  have hnew : getAt (setAt st.prev e.dest u) e.dest = some u :=
    getAt_setAt_self _ _ hvp.1 hvp.2
  have hlinkv : Linked (setAt st.prev e.dest u) src e.dest := Or.inr ⟨u, hnew, hu1⟩
  refine
    { src_valid := inv.src_valid
      len_dist := by simp [length_setAt, inv.len_dist]
      len_prev := by simp [length_setAt, inv.len_prev]
      len_vis := inv.len_vis
      dist_src := by
        show getAt (setAt st.dist e.dest _) src = some 0
        rw [getAt_setAt_ne _ _ hvsrc]; exact inv.dist_src
      prev_src := by
        show getAt (setAt st.prev e.dest _) src = some (-1)
        rw [getAt_setAt_ne _ _ hvsrc]; exact inv.prev_src
      pq_ok := ?_
      vis_ok := ?_
      good := ?_
      prev_ok := ?_
      dist_le := ?_
      dist_ok := ?_ }
  · intro k w hkw
    rcases List.mem_cons.mp hkw with hh | hh
    · have hw : w = e.dest := by cases hh; rfl
      subst hw
      refine ⟨hlinkv, Or.inr hvs, fun _ => hup, ?_, ?_⟩
      · exact hvb.1
      · have := hvb.2; rw [inv.len_vis] at this; exact this
    · obtain ⟨h1, h2, h3, h4⟩ := inv.pq_ok k w hh
      exact ⟨linked_setAt h1 hvp hu1, h2, h3, h4⟩
  · intro x hx
    obtain ⟨h1, h2, h3⟩ := inv.vis_ok x hx
    exact ⟨linked_setAt h1 hvp hu1, h2, h3⟩
  · intro x hx
    by_cases hxv : x = e.dest
    · subst hxv
      obtain ⟨p, hp1, hp2, hp3⟩ := inv.good u (inv.vis_ok u hu).1
      have hvis_all : ∀ y ∈ p, getAt st.visited y = some true := by
        intro y hy
        by_cases hyu : y = u
        · rw [hyu]; exact hu
        · exact hp3 y hy hyu
      have hnotin : e.dest ∉ p := by
        intro hm
        have := hvis_all _ hm
        rw [hv] at this; cases this
      refine ⟨p ++ [e.dest], Chain.step (chain_setAt _ _ hp1 hnotin) hvsrc hnew hu1, ?_, ?_⟩
      · rw [List.nodup_append]
        refine ⟨hp2, List.nodup_singleton _, ?_⟩
        intro a ha1 ha2
        simp at ha2; subst ha2; exact hnotin ha1
      · intro y hy hyne
        rcases List.mem_append.mp hy with hy | hy
        · exact hvis_all y hy
        · simp at hy; exact absurd hy hyne
    · have hold : Linked st.prev src x := by
        rcases hx with h | ⟨y, hy, hy1⟩
        · exact Or.inl h
        · right
          refine ⟨y, ?_, hy1⟩
          have : getAt (setAt st.prev e.dest u) x = getAt st.prev x :=
            getAt_setAt_ne _ _ (Ne.symm hxv)
          rw [← this]; exact hy
      obtain ⟨p, hp1, hp2, hp3⟩ := inv.good x hold
      have hnotin : e.dest ∉ p := by
        intro hm
        have := hp3 _ hm (Ne.symm hxv)
        rw [hv] at this; cases this
      exact ⟨p, chain_setAt _ _ hp1 hnotin, hp2, hp3⟩
  · intro x y hxy hy1
    by_cases hxv : x = e.dest
    · subst hxv
      have hyu : y = u := by
        have h := hxy
        change getAt (setAt st.prev e.dest u) e.dest = some y at h
        rw [hnew] at h; cases h; rfl
      subst hyu
      refine ⟨hu, hup, du, e, ?_, he, rfl, hc, ?_, ?_⟩
      · show getAt (setAt st.dist e.dest _) y = some du
        rw [getAt_setAt_ne _ _ hvu]; exact hdu
      · exact getAt_setAt_self _ _ hvd.1 hvd.2
      · obtain ⟨dv, hdv, hlt2⟩ := hlt
        have := inv.dist_le _ _ hdv
        omega
    · have hxy2 : getAt st.prev x = some y := by
        have : getAt (setAt st.prev e.dest u) x = getAt st.prev x :=
          getAt_setAt_ne _ _ (Ne.symm hxv)
        rw [← this]; exact hxy
      obtain ⟨h1, h2, dy, e2, h3, h4, h5, h6, h7, h8⟩ := inv.prev_ok x y hxy2 hy1
      have hyv : e.dest ≠ y := by
        intro h; rw [← h, hv] at h1; cases h1
      refine ⟨h1, h2, dy, e2, ?_, h4, h5, h6, ?_, h8⟩
      · show getAt (setAt st.dist e.dest _) y = some dy
        rw [getAt_setAt_ne _ _ hyv]; exact h3
      · show getAt (setAt st.dist e.dest _) x = _
        rw [getAt_setAt_ne _ _ (Ne.symm hxv)]; exact h7
  · intro x d hxd
    by_cases hxv : x = e.dest
    · subst hxv
      have h := hxd
      change getAt (setAt st.dist e.dest (wrap32 (du + e.cost))) e.dest = some d at h
      rw [getAt_setAt_self _ _ hvd.1 hvd.2] at h
      cases h
      unfold wrap32 INT_MAX
      omega
    · have hxd2 : getAt st.dist x = some d := by
        have : getAt (setAt st.dist e.dest (wrap32 (du + e.cost))) x = getAt st.dist x :=
          getAt_setAt_ne _ _ (Ne.symm hxv)
        rw [← this]; exact hxd
      exact inv.dist_le x d hxd2
  · intro x d hxd hd
    by_cases hxv : x = e.dest
    · subst hxv; exact hlinkv
    · have hxd2 : getAt st.dist x = some d := by
        have : getAt (setAt st.dist e.dest (wrap32 (du + e.cost))) x = getAt st.dist x :=
          getAt_setAt_ne _ _ (Ne.symm hxv)
        rw [← this]; exact hxd
      exact linked_setAt (inv.dist_ok x d hxd2 hd) hvp hu1

/-- One relaxation keeps the structural invariant and the visited flags. -/
theorem SInv_relaxEdge {g : Graph} {src u : Int} {st st1 : DState} {e : EdgeNode}
    (inv : SInv g src st) (hu : getAt st.visited u = some true) (he : e ∈ headOf g u)
    (h : relaxEdge g u st e = some st1) :
    SInv g src st1 ∧ st1.visited = st.visited := by
  obtain ⟨du, vis, hdu, hvis, hcase⟩ := relaxEdge_cases h
  rcases hcase with ⟨hv, hup, hc, hlt, hst⟩ | ⟨hst, _⟩
  · subst hv
    rw [hst]
    exact ⟨SInv_update inv hu he hdu hvis hup hc hlt, rfl⟩
  · rw [hst]; exact ⟨inv, rfl⟩

/-- The neighbour loop keeps the structural invariant and the visited flags. -/
theorem SInv_relaxAll {g : Graph} {src u : Int} :
    ∀ (es : List EdgeNode) (st st1 : DState), SInv g src st →
      getAt st.visited u = some true → (∀ e ∈ es, e ∈ headOf g u) →
      relaxAll g u st es = some st1 → SInv g src st1 ∧ st1.visited = st.visited
  | [], st, st1, inv, _, _, h => by
    simp only [relaxAll, Option.some.injEq] at h
    subst h; exact ⟨inv, rfl⟩
  | e :: es, st, st1, inv, hu, hes, h => by
    unfold relaxAll at h
    cases h1 : relaxEdge g u st e with
    | none => simp [h1] at h
    | some st2 =>
      simp only [h1] at h
      obtain ⟨inv2, hv2⟩ := SInv_relaxEdge inv hu (hes e (List.mem_cons_self _ _)) h1
      obtain ⟨inv3, hv3⟩ := SInv_relaxAll es st2 st1 inv2 (by rw [hv2]; exact hu)
        (fun x hx => hes x (List.mem_cons_of_mem _ hx)) h
      exact ⟨inv3, by rw [hv3, hv2]⟩

theorem SInv_erase {g : Graph} {src : Int} {st : DState} (top : Int × Int)
    (inv : SInv g src st) : SInv g src { st with pq := st.pq.erase top } :=
  { src_valid := inv.src_valid
    len_dist := inv.len_dist
    len_prev := inv.len_prev
    len_vis := inv.len_vis
    dist_src := inv.dist_src
    prev_src := inv.prev_src
    pq_ok := fun k w h => inv.pq_ok k w (List.mem_of_mem_erase h)
    vis_ok := inv.vis_ok
    good := inv.good
    prev_ok := inv.prev_ok
    dist_le := inv.dist_le
    dist_ok := inv.dist_ok }

/-- Marking the router taken from the queue as visited keeps the structural invariant. -/
theorem SInv_visit {g : Graph} {src : Int} {st : DState} {top : Int × Int} {ru : Router}
    (inv : SInv g src st) (htop : top ∈ st.pq)
    (hvis : getAt st.visited top.2 = some false)
    (hru : getAt g.nodes top.2 = some ru) (hup : ru.up = true) :
    SInv g src { st with pq := st.pq.erase top, visited := setAt st.visited top.2 true } := by
  have hb := getAt_some_bounds hvis
  have hself : getAt (setAt st.visited top.2 true) top.2 = some true :=
    getAt_setAt_self _ _ hb.1 hb.2
  obtain ⟨t1, t2, t3, t4⟩ := inv.pq_ok top.1 top.2 htop
  have hsrc : getAt (setAt st.visited top.2 true) src = some true := by
    rcases t2 with h | h
    · rw [← h]; exact hself
    · exact getAt_setAt_true h
  refine
    { src_valid := inv.src_valid
      len_dist := inv.len_dist
      len_prev := inv.len_prev
      len_vis := by simp [length_setAt, inv.len_vis]
      dist_src := inv.dist_src
      prev_src := inv.prev_src
      pq_ok := ?_
      vis_ok := ?_
      good := ?_
      prev_ok := ?_
      dist_le := inv.dist_le
      dist_ok := inv.dist_ok }
  · intro k w h
    obtain ⟨h1, _, h3, h4⟩ := inv.pq_ok k w (List.mem_of_mem_erase h)
    exact ⟨h1, Or.inr hsrc, h3, h4⟩
  · intro x hx
    by_cases hxu : x = top.2
    · subst hxu
      exact ⟨t1, hsrc, by unfold RouterUp; rw [upOf_of_getAt hru]; exact hup⟩
    · have hx2 : getAt st.visited x = some true := by
        have : getAt (setAt st.visited top.2 true) x = getAt st.visited x :=
          getAt_setAt_ne _ _ (Ne.symm hxu)
        rw [← this]; exact hx
      obtain ⟨h1, _, h3⟩ := inv.vis_ok x hx2
      exact ⟨h1, hsrc, h3⟩
  · intro x hx
    obtain ⟨p, hp1, hp2, hp3⟩ := inv.good x hx
    exact ⟨p, hp1, hp2, fun y hy hyx => getAt_setAt_true (hp3 y hy hyx)⟩
  · intro x y hxy hy1
    obtain ⟨h1, h2, h3⟩ := inv.prev_ok x y hxy hy1
    exact ⟨getAt_setAt_true h1, h2, h3⟩

/-- One iteration of the main loop keeps the structural invariant. -/
theorem SInv_loopBody {g : Graph} {src : Int} {st st1 : DState} {top : Int × Int}
    (inv : SInv g src st) (htop : pqTop st.pq = some top)
    (h : loopBody g st top = some st1) : SInv g src st1 := by
  obtain ⟨vis, ru, hvis, hru, hcase⟩ := loopBody_cases h
  rcases hcase with ⟨_, hst⟩ | ⟨hv, hup, du, hdu, hcase2⟩
  · rw [hst]; exact SInv_erase top inv
  · subst hv
    have inv2 := SInv_visit inv (pqTop_spec _ _ htop).1 hvis hru hup
    rcases hcase2 with ⟨_, hst⟩ | ⟨_, hrel⟩
    · rw [hst]; exact inv2
    · have hb := getAt_some_bounds hvis
      refine (SInv_relaxAll ru.head _ st1 inv2 ?_ ?_ hrel).1
      · exact getAt_setAt_self _ _ hb.1 hb.2
      · intro e he; rw [headOf_of_getAt hru]; exact he

/-- Loop rule: a property kept by every iteration holds when the loop is left,
and the queue is empty then. -/
theorem runLoop_rule {g : Graph} (P : DState → Prop)
    (hstep : ∀ st top st1, P st → pqTop st.pq = some top →
      loopBody g st top = some st1 → P st1) :
    ∀ (fuel : Nat) (st st1 : DState), P st → runLoop g fuel st = some st1 →
      P st1 ∧ st1.pq = []
  | 0, st, st1, hP, h => by
    unfold runLoop at h
    cases ht : pqTop st.pq with
    | none =>
      simp only [ht, Option.some.injEq] at h
      subst h; exact ⟨hP, pqTop_eq_none ht⟩
    | some top => simp [ht] at h
  | fuel + 1, st, st1, hP, h => by
    unfold runLoop at h
    cases ht : pqTop st.pq with
    | none =>
      simp only [ht, Option.some.injEq] at h
      subst h; exact ⟨hP, pqTop_eq_none ht⟩
    | some top =>
      simp only [ht] at h
      cases hb : loopBody g st top with
      | none => simp [hb] at h
      | some st2 =>
        simp only [hb] at h
        exact runLoop_rule P hstep fuel st2 st1 (hstep st top st2 hP ht hb) h

/-- The structural invariant holds when the main loop is entered. -/
theorem SInv_init {g : Graph} {src : Int} (hs : 0 ≤ src ∧ src < g.V) :
    SInv g src (initState g src) := by
  have hs2 : src < (g.nodes.length : Int) := hs.2
  refine
    { src_valid := hs
      len_dist := by simp [initState, length_setAt]
      len_prev := by simp [initState]
      len_vis := by simp [initState]
      dist_src := by
        show getAt (setAt _ src 0) src = some 0
        exact getAt_setAt_self _ _ hs.1 (by simpa using hs2)
      prev_src := by
        show getAt (List.replicate _ _) src = some (-1)
        obtain ⟨x, hx⟩ := getAt_of_bounds (List.replicate g.nodes.length (-1 : Int)) hs.1
          (by simpa using hs2)
        rw [hx, getAt_replicate _ _ hx]
      pq_ok := ?_
      vis_ok := ?_
      good := ?_
      prev_ok := ?_
      dist_le := ?_
      dist_ok := ?_ }
  · intro k w h
    have hw : w = src := by
      simp only [initState, List.mem_singleton, Prod.mk.injEq] at h
      exact h.2
    subst hw
    exact ⟨Or.inl rfl, Or.inl rfl, fun hne => absurd rfl hne, hs.1, hs.2⟩
  · intro v hv
    have := getAt_replicate _ _ hv
    cases this
  · intro v hv
    have hvs : v = src := by
      rcases hv with h | ⟨u, hu, hu1⟩
      · exact h
      · exact absurd (getAt_replicate _ _ hu) hu1
    subst hvs
    exact ⟨[v], Chain.base, List.nodup_singleton _, fun x hx hne => by
      simp at hx; exact absurd hx hne⟩
  · intro v u hvu hu1
    exact absurd (getAt_replicate _ _ hvu) hu1
  · intro v d hvd
    by_cases hvs : v = src
    · subst hvs
      have h := hvd
      change getAt (setAt _ v 0) v = some d at h
      rw [getAt_setAt_self _ _ hs.1 (by simpa using hs2)] at h
      cases h
      unfold INT_MAX; omega
    · have : getAt (setAt (List.replicate g.nodes.length INT_MAX) src 0) v
          = getAt (List.replicate g.nodes.length INT_MAX) v :=
        getAt_setAt_ne _ _ (Ne.symm hvs)
      have hvd2 : getAt (List.replicate g.nodes.length INT_MAX) v = some d := by
        rw [← this]; exact hvd
      exact le_of_eq (getAt_replicate _ _ hvd2)
  · intro v d hvd hd
    by_cases hvs : v = src
    · exact Or.inl hvs
    · have : getAt (setAt (List.replicate g.nodes.length INT_MAX) src 0) v
          = getAt (List.replicate g.nodes.length INT_MAX) v :=
        getAt_setAt_ne _ _ (Ne.symm hvs)
      have hvd2 : getAt (List.replicate g.nodes.length INT_MAX) v = some d := by
        rw [← this]; exact hvd
      exact absurd (getAt_replicate _ _ hvd2) hd

/-! ## The main loop terminates within its budget -/

theorem relaxEdge_sizes {g : Graph} {u : Int} {st st1 : DState} {e : EdgeNode}
    (h : relaxEdge g u st e = some st1) :
    st1.pq.length ≤ st.pq.length + 1 ∧ st1.visited = st.visited ∧
      st1.dist.length = st.dist.length := by
  obtain ⟨du, vis, _, _, hcase⟩ := relaxEdge_cases h
  rcases hcase with ⟨_, _, _, _, hst⟩ | ⟨hst, _⟩
  · rw [hst]; simp [length_setAt]
  · rw [hst]; simp

theorem relaxAll_sizes {g : Graph} {u : Int} :
    ∀ (es : List EdgeNode) (st st1 : DState), relaxAll g u st es = some st1 →
      st1.pq.length ≤ st.pq.length + es.length ∧ st1.visited = st.visited ∧
        st1.dist.length = st.dist.length
  | [], st, st1, h => by
    simp only [relaxAll, Option.some.injEq] at h
    subst h; simp
  | e :: es, st, st1, h => by
    unfold relaxAll at h
    cases h1 : relaxEdge g u st e with
    | none => simp [h1] at h
    | some st2 =>
      simp only [h1] at h
      obtain ⟨a1, a2, a3⟩ := relaxEdge_sizes h1
      obtain ⟨b1, b2, b3⟩ := relaxAll_sizes es st2 st1 h
      refine ⟨?_, by rw [b2, a2], by rw [b3, a3]⟩
      simp only [List.length_cons]
      omega

/-- With all record targets in range the neighbour loop never leaves the vectors. -/
theorem relaxAll_isSome {g : Graph} {u : Int} :
    ∀ (es : List EdgeNode) (st : DState),
      st.dist.length = g.nodes.length → st.visited.length = g.nodes.length →
      (0 ≤ u ∧ u < g.V) → (∀ e ∈ es, 0 ≤ e.dest ∧ e.dest < g.V) →
      ∃ st1, relaxAll g u st es = some st1
  | [], st, _, _, _, _ => ⟨st, rfl⟩
  | e :: es, st, hd, hv, hu, hes => by
    have hev := hes e (List.mem_cons_self _ _)
    have hu2 : u < (g.nodes.length : Int) := hu.2
    have he2 : e.dest < (g.nodes.length : Int) := hev.2
    obtain ⟨st2, h2⟩ := relaxEdge_isSome g u st e
      (getAt_of_bounds _ hu.1 (by rw [hd]; exact hu2))
      (getAt_of_bounds _ hev.1 (by rw [hv]; exact he2))
      (getAt_of_bounds _ hev.1 he2)
      (getAt_of_bounds _ hev.1 (by rw [hd]; exact he2))
    obtain ⟨_, a2, a3⟩ := relaxEdge_sizes h2
    obtain ⟨st3, h3⟩ := relaxAll_isSome es st2 (by rw [a3, hd]) (by rw [a2, hv]) hu
      (fun x hx => hes x (List.mem_cons_of_mem _ hx))
    exact ⟨st3, by unfold relaxAll; simp only [h2]; exact h3⟩

theorem unvisitedWeight_set :
    ∀ (vs : List Bool) (rs : List Router) (i : Nat) (r : Router),
      vs[i]? = some false → rs[i]? = some r →
      unvisitedWeight (vs.set i true) rs + (1 + r.head.length) = unvisitedWeight vs rs
  | [], _, _, _, h, _ => by simp at h
  | _ :: _, [], _, _, _, h => by simp at h
  | v :: vs, r0 :: rs, 0, r, hv, hr => by
    simp only [List.getElem?_cons_zero, Option.some.injEq] at hv hr
    subst hv; subst hr
    simp only [List.set_cons_zero, unvisitedWeight, if_true, Bool.false_eq_true, if_false]
    omega
  | v :: vs, r0 :: rs, i + 1, r, hv, hr => by
    simp only [List.getElem?_cons_succ] at hv hr
    have ih := unvisitedWeight_set vs rs i r hv hr
    simp only [List.set_cons_succ, unvisitedWeight]
    omega

theorem unvisitedWeight_replicate :
    ∀ rs : List Router, unvisitedWeight (List.replicate rs.length false) rs
      = rs.length + (rs.map (fun r => r.head.length)).sum
  | [] => by simp [unvisitedWeight]
  | r :: rs => by
    have ih := unvisitedWeight_replicate rs
    simp only [List.length_cons, List.replicate_succ, unvisitedWeight, Bool.false_eq_true,
      if_false, List.map_cons, List.sum_cons, ih]
    omega

theorem getAt_toNat {α : Type} {xs : List α} {i : Int} {x : α} (h : getAt xs i = some x) :
    xs[i.toNat]? = some x := by
  unfold getAt at h
  split at h
  · exact h
  · cases h

theorem setAt_toNat {α : Type} (xs : List α) {i : Int} (x : α) (h : 0 ≤ i) :
    setAt xs i x = xs.set i.toNat x := by
  simp [setAt, h]

/-- With all record targets in range every iteration succeeds and lowers the potential. -/
theorem loopBody_progress {g : Graph} {src : Int} {st : DState} {top : Int × Int}
    (hdv : DestsValid g) (inv : SInv g src st) (htop : pqTop st.pq = some top) :
    ∃ st1, loopBody g st top = some st1 ∧ potential g st1 < potential g st := by
  have hmem := (pqTop_spec _ _ htop).1
  obtain ⟨_, _, _, hu0, hu1⟩ := inv.pq_ok top.1 top.2 hmem
  have hu2 : top.2 < (g.nodes.length : Int) := hu1
  obtain ⟨vis, hvis⟩ := getAt_of_bounds st.visited hu0 (by rw [inv.len_vis]; exact hu2)
  obtain ⟨ru, hru⟩ := getAt_of_bounds g.nodes hu0 hu2
  obtain ⟨du, hdu⟩ := getAt_of_bounds st.dist hu0 (by rw [inv.len_dist]; exact hu2)
  have hlen : (st.pq.erase top).length + 1 = st.pq.length := by
    rw [List.length_erase_of_mem hmem]
    have : 0 < st.pq.length := List.length_pos_of_mem hmem
    omega
  by_cases hskip : vis = true ∨ ru.up = false
  · refine ⟨{ st with pq := st.pq.erase top }, ?_, ?_⟩
    · unfold loopBody
      simp only [hvis, hru]
      rcases hskip with h | h
      · simp [h]
      · simp [h]
    · simp only [potential]
      omega
  · have hv : vis = false := by
      cases vis with
      | true => exact absurd (Or.inl rfl) hskip
      | false => rfl
    have hup : ru.up = true := by
      cases h : ru.up with
      | true => rfl
      | false => exact absurd (Or.inr h) hskip
    subst hv
    have hw := unvisitedWeight_set st.visited g.nodes top.2.toNat ru
      (getAt_toNat hvis) (getAt_toNat hru)
    rw [← setAt_toNat _ _ hu0] at hw
    by_cases hm : du = INT_MAX
    · refine ⟨{ st with pq := st.pq.erase top, visited := setAt st.visited top.2 true },
        ?_, ?_⟩
      · unfold loopBody
        simp [hvis, hru, hup, hdu, hm]
      · simp only [potential]
        omega
    · obtain ⟨st1, h1⟩ := relaxAll_isSome (g := g) (u := top.2) ru.head
        { st with pq := st.pq.erase top, visited := setAt st.visited top.2 true }
        inv.len_dist (by simp [length_setAt, inv.len_vis]) ⟨hu0, hu1⟩
        (fun e he => hdv ru (getAt_mem hru) e he)
      refine ⟨st1, ?_, ?_⟩
      · unfold loopBody
        simp [hvis, hru, hup, hdu, hm, h1]
      · obtain ⟨a1, a2, _⟩ := relaxAll_sizes _ _ _ h1
        simp only [potential, a2]
        simp only at a1
        omega

/-- With all record targets in range the main loop ends within any budget that is
at least the potential. -/
theorem runLoop_total {g : Graph} {src : Int} (hdv : DestsValid g) :
    ∀ (fuel : Nat) (st : DState), SInv g src st → potential g st ≤ fuel →
      ∃ st1, runLoop g fuel st = some st1
  | 0, st, _, hp => by
    have : st.pq = [] := by
      unfold potential at hp
      exact List.eq_nil_of_length_eq_zero (by omega)
    exact ⟨st, by simp [runLoop, this, pqTop]⟩
  | fuel + 1, st, inv, hp => by
    cases ht : pqTop st.pq with
    | none => exact ⟨st, by simp [runLoop, ht]⟩
    | some top =>
      obtain ⟨st2, h2, hlt⟩ := loopBody_progress hdv inv ht
      obtain ⟨st3, h3⟩ := runLoop_total hdv fuel st2 (SInv_loopBody inv ht h2) (by omega)
      exact ⟨st3, by simp [runLoop, ht, h2, h3]⟩

theorem potential_init (g : Graph) (src : Int) :
    potential g (initState g src) = loopFuel g := by
  simp only [potential, initState, unvisitedWeight_replicate, loopFuel, totalRecords,
    List.length_singleton]
  omega

/-- On a store whose record targets are in range `runDijkstra` returns, its
vectors satisfy the structural invariant and its queue is empty. -/
theorem runDijkstra_result {g : Graph} {src : Int} (hdv : DestsValid g)
    (hs : 0 ≤ src ∧ src < g.V) :
    ∃ st, runLoop g (loopFuel g) (initState g src) = some st ∧ SInv g src st ∧
      st.pq = [] ∧ runDijkstra g src = some ⟨st.dist, st.prev⟩ := by
  obtain ⟨st, hst⟩ := runLoop_total hdv (loopFuel g) (initState g src) (SInv_init hs)
    (le_of_eq (potential_init g src))
  obtain ⟨inv, hpq⟩ := runLoop_rule (SInv g src)
    (fun st top st1 hP ht hb => SInv_loopBody hP ht hb) _ _ _ (SInv_init hs) hst
  refine ⟨st, hst, inv, hpq, ?_⟩
  unfold runDijkstra
  have : ¬ (src < 0 ∨ src ≥ g.V) := by omega
  simp [this, hst]

/-! ## Walking the predecessor array backwards -/

/-- Along a chain the backward walk of `findShortestPath` ends at the source with
the chain on its stack. -/
theorem walkBack_chain {prev : List Int} {src v : Int} {p : List Int}
    (h : Chain prev src v p) :
    ∀ (fuel : Nat) (acc : List Int), p.length ≤ fuel + 1 →
      ∃ rest, walkBack prev src fuel v acc = some (src, rest) ∧ src :: rest = p ++ acc := by
  induction h with
  | base =>
    intro fuel acc _
    refine ⟨acc, ?_, rfl⟩
    cases fuel <;> simp [walkBack]
  | @step u v p hc hne hp hu ih =>
    intro fuel acc hlen
    have hpos := chain_length_pos hc
    simp only [List.length_append, List.length_singleton] at hlen
    have hv1 : v ≠ -1 := by
      have := (getAt_some_bounds hp).1
      omega
    cases fuel with
    | zero => omega
    | succ f =>
      obtain ⟨rest, hr1, hr2⟩ := ih f (v :: acc) (by omega)
      refine ⟨rest, ?_, by rw [hr2]; simp⟩
      simp only [walkBack]
      rw [if_pos ⟨hv1, hne⟩, hp]
      exact hr1

/-- Along a chain of at least two slots the backward walk of `getNextHop` stops
at the second slot, whose predecessor is the source. -/
theorem hopBack_chain {prev : List Int} {src v : Int} {p : List Int}
    (h : Chain prev src v p) (hv : v ≠ src) :
    ∃ hop, p[1]? = some hop ∧ getAt prev hop = some src ∧
      ∀ fuel : Nat, p.length ≤ fuel + 2 → hopBack prev src fuel v = some hop := by
  induction h with
  | base => exact absurd rfl hv
  | @step u v p hc hne hp hu ih =>
    by_cases hus : u = src
    · have hp1 := chain_src_eq hc hus
      subst hp1
      subst hus
      refine ⟨v, by simp, hp, ?_⟩
      intro fuel _
      cases fuel <;> simp [hopBack, hp]
    · obtain ⟨hop, h1, h2, h3⟩ := ih hus
      have hlen : 1 < p.length := by
        by_contra hc2
        rw [List.getElem?_eq_none (by omega)] at h1
        cases h1
      refine ⟨hop, ?_, h2, ?_⟩
      · rw [List.getElem?_append_left hlen]; exact h1
      · intro fuel hf
        simp only [List.length_append, List.length_singleton] at hf
        cases fuel with
        | zero => omega
        | succ f =>
          simp only [hopBack, hp]
          rw [if_pos ⟨hus, hu, hne⟩]
          exact h3 f (by omega)

/-- A repetition-free list of slots in range is no longer than the table. -/
theorem nodup_length_le {p : List Int} {n : Nat} (hn : p.Nodup)
    (hb : ∀ x ∈ p, 0 ≤ x ∧ x < (n : Int)) : p.length ≤ n := by
  have h1 : (p.map Int.toNat).Nodup := by
    apply List.Nodup.map_on _ hn
    intro x hx y hy hxy
    have := hb x hx
    have := hb y hy
    omega
  have h2 : p.map Int.toNat ⊆ List.range n := by
    intro a ha
    obtain ⟨x, hx, rfl⟩ := List.mem_map.mp ha
    have := hb x hx
    exact List.mem_range.mpr (by omega)
  have h3 := (List.subperm_of_subset h1 h2).length_le
  simpa using h3

/-- What the three path queries return, read off the final state of the main loop. -/
theorem path_queries_of_run {g : Graph} {src dest : Int} {st : DState}
    (hs : ValidSlot g src) (hd : ValidSlot g dest)
    (hrun : runLoop g (loopFuel g) (initState g src) = some st) :
    SInv g src st ∧ st.pq = [] ∧
      ∃ dd, getAt st.dist dest = some dd ∧ dijkstra g src dest true = some dd ∧
        (dd = INT_MAX →
          findShortestPath g src dest = some [] ∧ getNextHop g src dest = some (-1)) ∧
        (dd ≠ INT_MAX → ∃ p, Chain st.prev src dest p ∧ p.Nodup ∧
          (∀ x ∈ p, x ≠ dest → getAt st.visited x = some true) ∧
          findShortestPath g src dest = some p ∧
          (src = dest → getNextHop g src dest = some src) ∧
          (src ≠ dest → ∃ hop, p[1]? = some hop ∧ getNextHop g src dest = some hop)) := by
  obtain ⟨inv, hpq⟩ := runLoop_rule (SInv g src)
    (fun st top st1 hP ht hb => SInv_loopBody hP ht hb) _ _ _ (SInv_init hs) hrun
  have hres : runDijkstra g src = some ⟨st.dist, st.prev⟩ := by
    unfold runDijkstra
    have : ¬ (src < 0 ∨ src ≥ g.V) := by
      have := hs.1; have := hs.2; omega
    simp [this, hrun]
  refine ⟨inv, hpq, ?_⟩
  have hd2 : dest < (g.nodes.length : Int) := hd.2
  have hs2 : src < (g.nodes.length : Int) := hs.2
  obtain ⟨dd, hdd⟩ := getAt_of_bounds st.dist hd.1 (by rw [inv.len_dist]; exact hd2)
  have hvalid : ¬ (src < 0 ∨ src ≥ g.V ∨ dest < 0 ∨ dest ≥ g.V) := by
    have := hs.1; have := hs.2; have := hd.1; have := hd.2
    omega
  have hne1 : st.dist.isEmpty = false := by
    cases h : st.dist with
    | nil => rw [h] at hdd; simp [getAt] at hdd
    | cons a as => rfl
  have hne2 : st.prev.isEmpty = false := by
    cases h : st.prev with
    | nil => have := inv.prev_src; rw [h] at this; simp [getAt] at this
    | cons a as => rfl
  refine ⟨dd, hdd, ?_, ?_, ?_⟩
  · unfold dijkstra
    simp [hvalid, hres, hne1, hne2, hdd]
  · intro hmax
    constructor
    · unfold findShortestPath
      simp [hvalid, hres, hne1, hne2, hdd, hmax]
    · unfold getNextHop
      simp [hvalid, hres, hne1, hne2, hdd, hmax]
  · intro hmax
    obtain ⟨p, hp1, hp2, hp3⟩ := inv.good dest (inv.dist_ok dest dd hdd hmax)
    have hsp : 0 ≤ src ∧ src < (st.prev.length : Int) := by
      rw [inv.len_prev]; exact ⟨hs.1, hs2⟩
    have hlen : p.length ≤ g.nodes.length := by
      apply nodup_length_le hp2
      intro x hx
      have := chain_bounds hp1 hsp x hx
      rw [inv.len_prev] at this
      exact this
    have hs1 : src ≠ -1 := by have := hs.1; omega
    refine ⟨p, hp1, hp2, hp3, ?_, ?_, ?_⟩
    · obtain ⟨rest, hr1, hr2⟩ := walkBack_chain hp1 g.nodes.length [] (by omega)
      unfold findShortestPath
      simp only [hvalid, if_false, hres, hne1, hne2, Bool.or_self, Bool.false_eq_true, hdd,
        hmax, hr1]
      simp [hr2, hs1]
    · intro hsd
      subst hsd
      unfold getNextHop
      simp [hvalid, hres, hne1, hne2, hdd, hmax]
    · intro hsd
      obtain ⟨hop, h1, h2, h3⟩ := hopBack_chain hp1 (Ne.symm hsd)
      refine ⟨hop, h1, ?_⟩
      unfold getNextHop
      simp [hvalid, hres, hne1, hne2, hdd, hmax, hsd, h3 g.nodes.length (by omega), h2]

/-! ## Optimality of the distances (non-negative costs, source up) -/

theorem headOf_mem_nodes {g : Graph} {u : Int} {e : EdgeNode} (he : e ∈ headOf g u) :
    ∃ r, getAt g.nodes u = some r ∧ r ∈ g.nodes ∧ e ∈ r.head := by
  unfold headOf at he
  split at he
  · simp at he
  · rename_i r hr
    exact ⟨r, hr, getAt_mem hr, he⟩

theorem cost_nonneg_of_mem {g : Graph} (hnn : CostsNonneg g) {u : Int} {e : EdgeNode}
    (he : e ∈ headOf g u) : 0 ≤ e.cost := by
  obtain ⟨r, _, hr, her⟩ := headOf_mem_nodes he
  exact hnn r hr e her

theorem walk_up {g : Graph} {src v d : Int} (h : Walk g src v d) : RouterUp g v := by
  cases h with
  | start hs => exact hs
  | link e _ _ _ hv => exact hv

theorem walk_src_up {g : Graph} {src v d : Int} (h : Walk g src v d) : RouterUp g src := by
  induction h with
  | start hs => exact hs
  | link e _ _ _ _ ih => exact ih

theorem walk_nonneg {g : Graph} (hnn : CostsNonneg g) {src v d : Int}
    (h : Walk g src v d) : 0 ≤ d := by
  induction h with
  | start _ => exact le_refl 0
  | link e _ he _ _ ih =>
    have := cost_nonneg_of_mem hnn he
    omega

theorem routerUp_bounds {g : Graph} {v : Int} (h : RouterUp g v) :
    0 ≤ v ∧ v < (g.nodes.length : Int) := by
  obtain ⟨r, hr, _⟩ := upOf_eq_true h
  exact getAt_some_bounds hr

theorem getAt_bool_cases (vis : List Bool) {v : Int}
    (h0 : 0 ≤ v) (h1 : v < (vis.length : Int)) :
    getAt vis v = some true ∨ getAt vis v = some false := by
  obtain ⟨b, hb⟩ := getAt_of_bounds vis h0 h1
  cases b
  · exact Or.inr hb
  · exact Or.inl hb

/-- Between two iterations: a walk cheaper than `INT_MAX` ends in a visited router
whose distance is at most the cost of the walk, or some queue entry has a key that is
at most that cost. -/
theorem frontier {g : Graph} {src cur : Int} {st : DState} (hnn : CostsNonneg g)
    (inv : SInv g src st) (dinv : DInv g src st cur []) {x d : Int}
    (hw : Walk g src x d) (hd : d < INT_MAX) :
    (getAt st.visited x = some true → ∃ dx, getAt st.dist x = some dx ∧ dx ≤ d) ∧
    (getAt st.visited x = some false → ∃ k w, (k, w) ∈ st.pq ∧ k ≤ d) := by
  induction hw with
  | start hs =>
    constructor
    · intro _; exact ⟨0, inv.dist_src, le_refl 0⟩
    · intro hv
      exact ⟨0, src, dinv.unvis_pq src 0 hv inv.dist_src (by unfold INT_MAX; omega), le_refl 0⟩
  | @link u d0 e hwu he hc hup ih =>
    have hcn := cost_nonneg_of_mem hnn he
    have hd0 : d0 < INT_MAX := by omega
    obtain ⟨ih1, ih2⟩ := ih hd0
    have hub := routerUp_bounds (walk_up hwu)
    have hxb := routerUp_bounds hup
    rcases getAt_bool_cases st.visited hub.1 (by rw [inv.len_vis]; exact hub.2)
      with huv | huv
    · obtain ⟨du, hdu, hle⟩ := ih1 huv
      obtain ⟨dv, hdv, hle2⟩ := dinv.relaxed u du huv hdu e he
        (fun _ hm => by simp at hm) hc hup (by omega)
      constructor
      · intro _; exact ⟨dv, hdv, by omega⟩
      · intro hxv
        refine ⟨dv, e.dest, dinv.unvis_pq e.dest dv hxv hdv (by omega), by omega⟩
    · obtain ⟨k, w, hkw, hle⟩ := ih2 huv
      constructor
      · intro hxv
        obtain ⟨dx, hdx⟩ := getAt_of_bounds st.dist hxb.1 (by rw [inv.len_dist]; exact hxb.2)
        exact ⟨dx, hdx, by have := dinv.vis_le_pq e.dest dx hxv hdx k w hkw; omega⟩
      · intro _; exact ⟨k, w, hkw, by omega⟩

theorem DInv_nil_cur {g : Graph} {src cur : Int} {st : DState} (cur2 : Int)
    (dinv : DInv g src st cur []) : DInv g src st cur2 [] :=
  { dist_range := dinv.dist_range
    sound := dinv.sound
    pq_key := dinv.pq_key
    unvis_pq := dinv.unvis_pq
    vis_le_pq := dinv.vis_le_pq
    vis_opt := dinv.vis_opt
    relaxed := fun u du hu hdu e he _ hc hup hlt =>
      dinv.relaxed u du hu hdu e he (fun _ hm => by simp at hm) hc hup hlt
    cur_max := fun h => absurd rfl h }

theorem DInv_erase_visited {g : Graph} {src cur : Int} {st : DState} {top : Int × Int}
    (dinv : DInv g src st cur []) (hvis : getAt st.visited top.2 = some true) :
    DInv g src { st with pq := st.pq.erase top } cur [] :=
  { dist_range := dinv.dist_range
    sound := dinv.sound
    pq_key := fun k w h => dinv.pq_key k w (List.mem_of_mem_erase h)
    unvis_pq := by
      intro w d hw hd hne
      have hmem := dinv.unvis_pq w d hw hd hne
      have hne2 : (d, w) ≠ top := by
        intro h
        have : w = top.2 := by rw [← h]
        rw [this, hvis] at hw
        cases hw
      exact (List.mem_erase_of_ne hne2).mpr hmem
    vis_le_pq := fun v d hv hd k w h => dinv.vis_le_pq v d hv hd k w (List.mem_of_mem_erase h)
    vis_opt := dinv.vis_opt
    relaxed := dinv.relaxed
    cur_max := fun h => absurd rfl h }

theorem wrap32_id {x : Int} (h0 : 0 ≤ x) (h1 : x < INT_MAX) : wrap32 x = x := by
  unfold wrap32
  unfold INT_MAX at h1
  omega

theorem getAt_setAt_true_cases {vis : List Bool} {u x : Int} {b : Bool}
    (h : getAt (setAt vis u true) x = some b) (hu : 0 ≤ u ∧ u < (vis.length : Int)) :
    (x = u ∧ b = true) ∨ (x ≠ u ∧ getAt vis x = some b) := by
  by_cases hxu : x = u
  · subst hxu
    rw [getAt_setAt_self _ _ hu.1 hu.2] at h
    cases h
    exact Or.inl ⟨rfl, rfl⟩
  · rw [getAt_setAt_ne _ _ (Ne.symm hxu)] at h
    exact Or.inr ⟨hxu, h⟩

/-- Taking the least queue entry of an unvisited router and marking the router
visited: its distance is final, and its records are all pending. -/
theorem DInv_visit {g : Graph} {src cur : Int} {st : DState} {top : Int × Int} {ru : Router}
    (hnn : CostsNonneg g) (inv : SInv g src st) (dinv : DInv g src st cur [])
    (htop : pqTop st.pq = some top) (hvis : getAt st.visited top.2 = some false)
    (hru : getAt g.nodes top.2 = some ru) :
    DInv g src { st with pq := st.pq.erase top, visited := setAt st.visited top.2 true }
      top.2 ru.head := by
  obtain ⟨hmem, hmin⟩ := pqTop_spec _ _ htop
  have hb := getAt_some_bounds hvis
  obtain ⟨hk, du, hdu, hle⟩ := dinv.pq_key top.1 top.2 hmem
  have hmemu : (du, top.2) ∈ st.pq := dinv.unvis_pq top.2 du hvis hdu (by omega)
  have hminfst : ∀ k w, (k, w) ∈ st.pq → top.1 ≤ k := fun k w h => pairLE_fst (hmin _ h)
  refine
    { dist_range := dinv.dist_range
      sound := dinv.sound
      pq_key := fun k w h => dinv.pq_key k w (List.mem_of_mem_erase h)
      unvis_pq := ?_
      vis_le_pq := ?_
      vis_opt := ?_
      relaxed := ?_
      cur_max := ?_ }
  · intro w d hw hd hne
    rcases getAt_setAt_true_cases hw hb with ⟨_, h⟩ | ⟨hwu, hw2⟩
    · cases h
    · have hne2 : (d, w) ≠ top := by
        intro h; apply hwu; rw [← h]
      exact (List.mem_erase_of_ne hne2).mpr (dinv.unvis_pq w d hw2 hd hne)
  · intro v d hv hd k w hkw
    have hkw2 := List.mem_of_mem_erase hkw
    rcases getAt_setAt_true_cases hv hb with ⟨hvu, _⟩ | ⟨_, hv2⟩
    · subst hvu
      have hd2 : getAt st.dist top.2 = some d := hd
      rw [hdu] at hd2; cases hd2
      have := hminfst k w hkw2
      omega
    · exact dinv.vis_le_pq v d hv2 hd k w hkw2
  · intro v d hv hd
    rcases getAt_setAt_true_cases hv hb with ⟨hvu, _⟩ | ⟨_, hv2⟩
    · subst hvu
      have hd2 : getAt st.dist top.2 = some d := hd
      rw [hdu] at hd2; cases hd2
      refine ⟨by omega, ?_⟩
      intro d2 hw
      by_cases hlt : d2 < INT_MAX
      · obtain ⟨k, w, hkw, hkd⟩ := (frontier hnn inv dinv hw hlt).2 hvis
        have := hminfst k w hkw
        omega
      · omega
    · exact dinv.vis_opt v d hv2 hd
  · intro x dx hx hdx e he hpend hc hup hlt
    rcases getAt_setAt_true_cases hx hb with ⟨hxu, _⟩ | ⟨_, hx2⟩
    · subst hxu
      rw [headOf_of_getAt hru] at he
      exact absurd he (hpend rfl)
    · exact dinv.relaxed x dx hx2 hdx e he (fun _ hm => by simp at hm) hc hup hlt
  · intro _ v d dc hv hd hdc
    have hdc2 : getAt st.dist top.2 = some dc := hdc
    rw [hdu] at hdc2; cases hdc2
    rcases getAt_setAt_true_cases hv hb with ⟨hvu, _⟩ | ⟨_, hv2⟩
    · subst hvu
      have hd2 : getAt st.dist top.2 = some d := hd
      rw [hdu] at hd2; cases hd2
      exact le_refl _
    · exact dinv.vis_le_pq v d hv2 hd du top.2 hmemu

/-- Relaxing the first pending record of the current router. -/
theorem DInv_relaxEdge {g : Graph} {src u : Int} {st st1 : DState} {e : EdgeNode}
    {es : List EdgeNode} (hnn : CostsNonneg g) (inv : SInv g src st)
    (dinv : DInv g src st u (e :: es)) (hu : getAt st.visited u = some true)
    (he : e ∈ headOf g u) (h : relaxEdge g u st e = some st1) :
    DInv g src st1 u es := by
  obtain ⟨du, vis, hdu, hvis, hcase⟩ := relaxEdge_cases h
  have hcn := cost_nonneg_of_mem hnn he
  have hdu0 := dinv.dist_range u du hdu
  obtain ⟨hdu1, _⟩ := dinv.vis_opt u du hu hdu
  have hpend : e :: es ≠ [] := List.cons_ne_nil _ _
  rcases hcase with ⟨hv, hup, hc, ⟨dv, hdv, hlt⟩, hst⟩ | ⟨hst, hwhy⟩
  · subst hv
    have hdvle := inv.dist_le _ _ hdv
    have hwrap : wrap32 (du + e.cost) = du + e.cost := wrap32_id (by omega) (by omega)
    rw [hwrap] at hst
    have hvb := getAt_some_bounds hdv
    have hvu : e.dest ≠ u := by
      intro hh; rw [hh, hu] at hvis; cases hvis
    have hself : getAt (setAt st.dist e.dest (du + e.cost)) e.dest = some (du + e.cost) :=
      getAt_setAt_self _ _ hvb.1 hvb.2
    have hother : ∀ x, x ≠ e.dest →
        getAt (setAt st.dist e.dest (du + e.cost)) x = getAt st.dist x :=
      fun x hx => getAt_setAt_ne _ _ (Ne.symm hx)
    have hvisne : ∀ x, getAt st.visited x = some true → x ≠ e.dest := by
      intro x hx hh; rw [hh, hvis] at hx; cases hx
    rw [hst]
    refine
      { dist_range := ?_
        sound := ?_
        pq_key := ?_
        unvis_pq := ?_
        vis_le_pq := ?_
        vis_opt := ?_
        relaxed := ?_
        cur_max := ?_ }
    · intro x d hx
      by_cases hxv : x = e.dest
      · subst hxv
        have hx2 : getAt (setAt st.dist e.dest (du + e.cost)) e.dest = some d := hx
        rw [hself] at hx2; cases hx2; omega
      · have hx2 : getAt (setAt st.dist e.dest (du + e.cost)) x = some d := hx
        rw [hother x hxv] at hx2
        exact dinv.dist_range x d hx2
    · intro x d hx hne
      by_cases hxv : x = e.dest
      · subst hxv
        have hx2 : getAt (setAt st.dist e.dest (du + e.cost)) e.dest = some d := hx
        rw [hself] at hx2; cases hx2
        exact Walk.link e (dinv.sound u du hdu (by omega)) he hc hup
      · have hx2 : getAt (setAt st.dist e.dest (du + e.cost)) x = some d := hx
        rw [hother x hxv] at hx2
        exact dinv.sound x d hx2 hne
    · intro k w hkw
      show k < INT_MAX ∧ ∃ d, getAt (setAt st.dist e.dest (du + e.cost)) w = some d ∧ d ≤ k
      rcases List.mem_cons.mp hkw with hh | hh
      · cases hh
        exact ⟨by omega, du + e.cost, hself, le_refl _⟩
      · obtain ⟨hk, d, hd, hle⟩ := dinv.pq_key k w hh
        refine ⟨hk, ?_⟩
        by_cases hwv : w = e.dest
        · subst hwv
          rw [hdv] at hd; cases hd
          exact ⟨du + e.cost, hself, by omega⟩
        · exact ⟨d, by rw [hother w hwv]; exact hd, hle⟩
    · intro w d hw hd hne
      have hd2 : getAt (setAt st.dist e.dest (du + e.cost)) w = some d := hd
      show (d, w) ∈ (du + e.cost, e.dest) :: st.pq
      by_cases hwv : w = e.dest
      · subst hwv
        rw [hself] at hd2; cases hd2
        exact List.mem_cons_self _ _
      · rw [hother w hwv] at hd2
        exact List.mem_cons_of_mem _ (dinv.unvis_pq w d hw hd2 hne)
    · intro x d hx hd k w hkw
      have hd2 : getAt (setAt st.dist e.dest (du + e.cost)) x = some d := hd
      rw [hother x (hvisne x hx)] at hd2
      rcases List.mem_cons.mp hkw with hh | hh
      · cases hh
        have := dinv.cur_max hpend x d du hx hd2 hdu
        omega
      · exact dinv.vis_le_pq x d hx hd2 k w hh
    · intro x d hx hd
      have hd2 : getAt (setAt st.dist e.dest (du + e.cost)) x = some d := hd
      rw [hother x (hvisne x hx)] at hd2
      exact dinv.vis_opt x d hx hd2
    · intro x dx hx hdx e2 he2 hp2 hc2 hup2 hlt2
      have hdx2 : getAt (setAt st.dist e.dest (du + e.cost)) x = some dx := hdx
      rw [hother x (hvisne x hx)] at hdx2
      show ∃ dv, getAt (setAt st.dist e.dest (du + e.cost)) e2.dest = some dv ∧ _
      by_cases hsame : x = u ∧ e2 = e
      · obtain ⟨hxu, hee⟩ := hsame
        subst hxu; subst hee
        rw [hdu] at hdx2; cases hdx2
        exact ⟨du + e2.cost, hself, le_refl _⟩
      · have hcond : x = u → e2 ∉ e :: es := by
          intro hxu hm
          rcases List.mem_cons.mp hm with hm | hm
          · exact hsame ⟨hxu, hm⟩
          · exact hp2 hxu hm
        obtain ⟨d2, hd2, hle2⟩ := dinv.relaxed x dx hx hdx2 e2 he2 hcond hc2 hup2 hlt2
        by_cases hev : e2.dest = e.dest
        · rw [hev] at hd2 ⊢
          rw [hdv] at hd2; cases hd2
          exact ⟨du + e.cost, hself, by omega⟩
        · exact ⟨d2, by rw [hother _ hev]; exact hd2, hle2⟩
    · intro _ x d dc hx hd hdc
      have hd2 : getAt (setAt st.dist e.dest (du + e.cost)) x = some d := hd
      rw [hother x (hvisne x hx)] at hd2
      have hdc2 : getAt (setAt st.dist e.dest (du + e.cost)) u = some dc := hdc
      rw [hother u (Ne.symm hvu)] at hdc2
      exact dinv.cur_max hpend x d dc hx hd2 hdc2
  · rw [hst]
    refine
      { dist_range := dinv.dist_range
        sound := dinv.sound
        pq_key := dinv.pq_key
        unvis_pq := dinv.unvis_pq
        vis_le_pq := dinv.vis_le_pq
        vis_opt := dinv.vis_opt
        relaxed := ?_
        cur_max := fun _ => dinv.cur_max hpend }
    intro x dx hx hdx e2 he2 hp2 hc2 hup2 hlt2
    by_cases hsame : x = u ∧ e2 = e
    · obtain ⟨hxu, hee⟩ := hsame
      subst hxu; subst hee
      rw [hdu] at hdx; cases hdx
      rcases hwhy with hv | hdown | hc | ⟨dv, hdv, hle⟩
      · subst hv
        have hvb := getAt_some_bounds hvis
        obtain ⟨dv, hdv⟩ := getAt_of_bounds st.dist hvb.1
          (by rw [inv.len_dist, ← inv.len_vis]; exact hvb.2)
        have := dinv.cur_max hpend e2.dest dv du hvis hdv hdu
        exact ⟨dv, hdv, by omega⟩
      · unfold RouterUp at hup2
        rw [hdown] at hup2; cases hup2
      · exact absurd hc hc2
      · exact ⟨dv, hdv, hle⟩
    · have hcond : x = u → e2 ∉ e :: es := by
        intro hxu hm
        rcases List.mem_cons.mp hm with hm | hm
        · exact hsame ⟨hxu, hm⟩
        · exact hp2 hxu hm
      exact dinv.relaxed x dx hx hdx e2 he2 hcond hc2 hup2 hlt2

/-- The neighbour loop relaxes every record of the current router. -/
theorem DInv_relaxAll {g : Graph} {src u : Int} (hnn : CostsNonneg g) :
    ∀ (es : List EdgeNode) (st st1 : DState), SInv g src st → DInv g src st u es →
      getAt st.visited u = some true → (∀ e ∈ es, e ∈ headOf g u) →
      relaxAll g u st es = some st1 → DInv g src st1 u []
  | [], st, st1, _, dinv, _, _, h => by
    simp only [relaxAll, Option.some.injEq] at h
    subst h; exact dinv
  | e :: es, st, st1, inv, dinv, hu, hes, h => by
    unfold relaxAll at h
    cases h1 : relaxEdge g u st e with
    | none => simp [h1] at h
    | some st2 =>
      simp only [h1] at h
      have hemem := hes e (List.mem_cons_self _ _)
      obtain ⟨inv2, hv2⟩ := SInv_relaxEdge inv hu hemem h1
      exact DInv_relaxAll hnn es st2 st1 inv2 (DInv_relaxEdge hnn inv dinv hu hemem h1)
        (by rw [hv2]; exact hu) (fun x hx => hes x (List.mem_cons_of_mem _ hx)) h

/-- One iteration of the main loop keeps both invariants. -/
theorem DInv_loopBody {g : Graph} {src : Int} {st st1 : DState} {top : Int × Int}
    (hnn : CostsNonneg g) (hsup : RouterUp g src) (inv : SInv g src st)
    (dinv : DInv g src st src []) (htop : pqTop st.pq = some top)
    (h : loopBody g st top = some st1) : DInv g src st1 src [] := by
  obtain ⟨vis, ru, hvis, hru, hcase⟩ := loopBody_cases h
  have hmem := (pqTop_spec _ _ htop).1
  have hupu : ru.up = true := by
    obtain ⟨_, _, h3, _⟩ := inv.pq_ok top.1 top.2 hmem
    have : RouterUp g top.2 := by
      by_cases hts : top.2 = src
      · rw [hts]; exact hsup
      · exact h3 hts
    unfold RouterUp at this
    rw [upOf_of_getAt hru] at this
    exact this
  rcases hcase with ⟨hskip, hst⟩ | ⟨hv, _, du, hdu, hcase2⟩
  · rcases hskip with hv | hdown
    · subst hv
      rw [hst]
      exact DInv_erase_visited dinv hvis
    · rw [hupu] at hdown; cases hdown
  · subst hv
    have dinv2 := DInv_visit hnn inv dinv htop hvis hru
    have inv2 := SInv_visit inv hmem hvis hru hupu
    rcases hcase2 with ⟨hmax, _⟩ | ⟨_, hrel⟩
    · obtain ⟨hk, d, hd, hle⟩ := dinv.pq_key top.1 top.2 hmem
      rw [hdu] at hd; cases hd
      omega
    · have hb := getAt_some_bounds hvis
      have := DInv_relaxAll hnn ru.head _ st1 inv2 dinv2
        (getAt_setAt_self _ _ hb.1 hb.2)
        (fun e he => by rw [headOf_of_getAt hru]; exact he) hrel
      exact DInv_nil_cur src this

/-- Both invariants hold when the main loop is entered. -/
theorem DInv_init {g : Graph} {src : Int} (hs : 0 ≤ src ∧ src < g.V)
    (hsup : RouterUp g src) : DInv g src (initState g src) src [] := by
  have hs2 : src < (g.nodes.length : Int) := hs.2
  have hself : getAt (setAt (List.replicate g.nodes.length INT_MAX) src 0) src = some 0 :=
    getAt_setAt_self _ _ hs.1 (by simpa using hs2)
  have hdist : ∀ v d, getAt (initState g src).dist v = some d →
      (v = src ∧ d = 0) ∨ d = INT_MAX := by
    intro v d hvd
    have hvd2 : getAt (setAt (List.replicate g.nodes.length INT_MAX) src 0) v = some d := hvd
    by_cases hvs : v = src
    · subst hvs
      rw [hself] at hvd2; cases hvd2
      exact Or.inl ⟨rfl, rfl⟩
    · rw [getAt_setAt_ne _ _ (Ne.symm hvs)] at hvd2
      exact Or.inr (getAt_replicate _ _ hvd2)
  have hnovis : ∀ v, getAt (initState g src).visited v = some true → False := by
    intro v hv
    have := getAt_replicate _ _ hv
    cases this
  refine
    { dist_range := ?_
      sound := ?_
      pq_key := ?_
      unvis_pq := ?_
      vis_le_pq := fun v d hv => (hnovis v hv).elim
      vis_opt := fun v d hv => (hnovis v hv).elim
      relaxed := fun u du hu => (hnovis u hu).elim
      cur_max := fun h => absurd rfl h }
  · intro v d hvd
    rcases hdist v d hvd with ⟨_, h⟩ | h
    · omega
    · rw [h]; unfold INT_MAX; omega
  · intro v d hvd hne
    rcases hdist v d hvd with ⟨h1, h2⟩ | h
    · rw [h1, h2]; exact Walk.start hsup
    · exact absurd h hne
  · intro k w hkw
    have hkw2 : (k, w) ∈ [((0 : Int), src)] := hkw
    simp only [List.mem_singleton, Prod.mk.injEq] at hkw2
    obtain ⟨hk, hw⟩ := hkw2
    subst hk; subst hw
    exact ⟨by unfold INT_MAX; omega, 0, hself, le_refl _⟩
  · intro w d _ hd hne
    rcases hdist w d hd with ⟨h1, h2⟩ | h
    · rw [h1, h2]
      show ((0 : Int), src) ∈ [((0 : Int), src)]
      simp
    · exact absurd h hne

/-- The final state of `runDijkstra` on a store with non-negative costs, record
targets in range and a source that is up: every stored distance other than
`INT_MAX` is the cost of a walk, and no walk cheaper than `INT_MAX` beats it. -/
theorem runDijkstra_optimal {g : Graph} {src : Int} (hdv : DestsValid g)
    (hnn : CostsNonneg g) (hs : ValidSlot g src) (hsup : RouterUp g src) :
    ∃ st, runLoop g (loopFuel g) (initState g src) = some st ∧ SInv g src st ∧
      st.pq = [] ∧
      (∀ v d, getAt st.dist v = some d → d ≠ INT_MAX → 0 ≤ d ∧ Walk g src v d) ∧
      (∀ v d2, Walk g src v d2 → d2 < INT_MAX →
        ∃ d, getAt st.dist v = some d ∧ d ≤ d2) := by
  obtain ⟨st, hrun, inv, hpq, _⟩ := runDijkstra_result hdv hs
  obtain ⟨⟨_, dinv⟩, _⟩ := runLoop_rule (fun st => SInv g src st ∧ DInv g src st src [])
    (fun st top st1 hP ht hb =>
      ⟨SInv_loopBody hP.1 ht hb, DInv_loopBody hnn hsup hP.1 hP.2 ht hb⟩)
    _ _ _ ⟨SInv_init hs, DInv_init hs hsup⟩ hrun
  refine ⟨st, hrun, inv, hpq, ?_, ?_⟩
  · intro v d hvd hne
    exact ⟨dinv.dist_range v d hvd, dinv.sound v d hvd hne⟩
  · intro v d2 hw hlt
    have hvb := routerUp_bounds (walk_up hw)
    obtain ⟨f1, f2⟩ := frontier hnn inv dinv hw hlt
    rcases getAt_bool_cases st.visited hvb.1 (by rw [inv.len_vis]; exact hvb.2)
      with hv | hv
    · exact f1 hv
    · obtain ⟨k, w, hkw, _⟩ := f2 hv
      rw [hpq] at hkw
      simp at hkw

/-- On a store whose record targets are in range the path queries return, and what
they return is read off the final state of the main loop. -/
theorem path_queries {g : Graph} {src dest : Int} (hdv : DestsValid g)
    (hs : ValidSlot g src) (hd : ValidSlot g dest) :
    ∃ st, runLoop g (loopFuel g) (initState g src) = some st ∧ SInv g src st ∧ st.pq = [] ∧
      ∃ dd, getAt st.dist dest = some dd ∧ dijkstra g src dest true = some dd ∧
        (dd = INT_MAX →
          findShortestPath g src dest = some [] ∧ getNextHop g src dest = some (-1)) ∧
        (dd ≠ INT_MAX → ∃ p, Chain st.prev src dest p ∧ p.Nodup ∧
          (∀ x ∈ p, x ≠ dest → getAt st.visited x = some true) ∧
          findShortestPath g src dest = some p ∧
          (src = dest → getNextHop g src dest = some src) ∧
          (src ≠ dest → ∃ hop, p[1]? = some hop ∧ getNextHop g src dest = some hop)) := by
  obtain ⟨st, hrun, _, _, _⟩ := runDijkstra_result hdv hs
  exact ⟨st, hrun, path_queries_of_run hs hd hrun⟩

/-! ## Shortest cost (C1) -/

/-- When the source is down no other slot ever gets a distance. -/
theorem down_source_dist {g : Graph} {src dest dd : Int} {st : DState}
    (inv : SInv g src st) (hdown : ¬ RouterUp g src) (hne : src ≠ dest)
    (hdd : getAt st.dist dest = some dd) : dd = INT_MAX := by
  by_contra hmax
  rcases inv.dist_ok dest dd hdd hmax with h | ⟨u, hu, hu1⟩
  · exact hne h.symm
  · obtain ⟨hvu, _, _⟩ := inv.prev_ok dest u hu hu1
    obtain ⟨_, hvs, _⟩ := inv.vis_ok u hvu
    exact hdown (inv.vis_ok src hvs).2.2

/-- C1, at its counterexample: in the store whose single router is down, which is
well formed and has no negative cost, there is no walk from slot 0 to slot 0 over
routers that are up, so the claim asks for `INT_MAX`; `dijkstra(0, 0, true)`
returns 0. -/
theorem dijkstra_down_source_counterexample :
    WellFormed downOnly ∧ CostsNonneg downOnly ∧ ValidSlot downOnly 0 ∧
      (¬ ∃ d, Walk downOnly 0 0 d) ∧ dijkstra downOnly 0 0 true = some 0 ∧
      dijkstra downOnly 0 0 true ≠ some INT_MAX :=
  ⟨by decide, by decide, by decide,
    fun ⟨_, hw⟩ => absurd (walk_src_up hw) (by decide), by decide, by decide⟩

/-- C1, amended: on a well-formed store with non-negative link costs,
`dijkstra(src, dest, true)` is `INT_MAX` when `src` or `dest` is out of range; for
slots in range with `src != dest` or router `src` up it is the least total cost of a
walk from `src` to `dest` over routers that are up and link records whose cost is
not `INT_MAX`, whenever that least cost is below `INT_MAX`, and it is `INT_MAX` when
there is no such walk; and it is 0 for `dest = src` when router `src` is down. -/
theorem dijkstra_min_cost (g : Graph) (hwf : WellFormed g) (hnn : CostsNonneg g)
    (src dest : Int) :
    ((¬ ValidSlot g src ∨ ¬ ValidSlot g dest) → dijkstra g src dest true = some INT_MAX) ∧
    (ValidSlot g src → ValidSlot g dest → (src ≠ dest ∨ RouterUp g src) →
      ∃ r, dijkstra g src dest true = some r ∧
        (∀ m, IsMinCost g src dest m → m < INT_MAX → r = m) ∧
        ((¬ ∃ d, Walk g src dest d) → r = INT_MAX)) ∧
    (ValidSlot g src → ¬ RouterUp g src → dijkstra g src src true = some 0) := by
  have hdv : DestsValid g := hwf.1
  refine ⟨?_, ?_, ?_⟩
  · intro hbad
    have : src < 0 ∨ src ≥ g.V ∨ dest < 0 ∨ dest ≥ g.V := by
      unfold ValidSlot at hbad
      omega
    unfold dijkstra
    simp [this]
  · intro hs hd hcase
    by_cases hup : RouterUp g src
    · obtain ⟨st, hrun, _, _, hsound, hopt⟩ := runDijkstra_optimal hdv hnn hs hup
      obtain ⟨_, _, dd, hdd, hdij, _, _⟩ := path_queries_of_run hs hd hrun
      refine ⟨dd, hdij, ?_, ?_⟩
      · intro m hm hlt
        obtain ⟨d, hd1, hd2⟩ := hopt dest m hm.1 hlt
        rw [hdd] at hd1; cases hd1
        have hw := (hsound dest dd hdd (by omega)).2
        have := hm.2 dd hw
        omega
      · intro hno
        by_contra hmax
        exact hno ⟨dd, (hsound dest dd hdd hmax).2⟩
    · have hne : src ≠ dest := by
        rcases hcase with h | h
        · exact h
        · exact absurd h hup
      obtain ⟨st, _, inv, _, dd, hdd, hdij, _, _⟩ := path_queries hdv hs hd
      have hmax := down_source_dist inv hup hne hdd
      refine ⟨dd, hdij, ?_, fun _ => hmax⟩
      intro m hm _
      exact absurd (walk_src_up hm.1) hup
  · intro hs _
    obtain ⟨st, _, inv, _, dd, hdd, hdij, _, _⟩ := path_queries hdv hs hs
    rw [inv.dist_src] at hdd; cases hdd
    exact hdij

/-- C1, amended, at a concrete store: two routers that are up and one link of cost 5. -/
theorem dijkstra_min_cost_witness :
    WellFormed pairStore ∧ CostsNonneg pairStore ∧
      ∃ r, dijkstra pairStore 0 1 true = some r ∧
        (∀ m, IsMinCost pairStore 0 1 m → m < INT_MAX → r = m) ∧
        ((¬ ∃ d, Walk pairStore 0 1 d) → r = INT_MAX) :=
  ⟨by decide, by decide,
    (dijkstra_min_cost pairStore (by decide) (by decide) 0 1).2.1
      (by decide) (by decide) (Or.inl (by decide))⟩

/-! ## Cost along the returned path (C2) -/

theorem find_dest_unique : ∀ (l : List EdgeNode) (e : EdgeNode),
    (l.map EdgeNode.dest).Nodup → e ∈ l →
    l.find? (fun x => decide (x.dest = e.dest)) = some e
  | [], _, _, h => by simp at h
  | x :: xs, e, hn, h => by
    simp only [List.map_cons, List.nodup_cons] at hn
    rcases List.mem_cons.mp h with rfl | h
    · simp
    · have hne : x.dest ≠ e.dest := by
        intro heq
        apply hn.1
        rw [heq]
        exact List.mem_map_of_mem _ h
      simp only [List.find?_cons, hne, decide_False]
      exact find_dest_unique xs e hn.2 h

theorem linkCost_of_mem {g : Graph} (h1 : OneRecordPerDest g) {u : Int} {e : EdgeNode}
    (he : e ∈ headOf g u) : linkCost g u e.dest = e.cost := by
  obtain ⟨r, hr, hrm, her⟩ := headOf_mem_nodes he
  unfold linkCost
  rw [headOf_of_getAt hr, find_dest_unique r.head e (h1 r hrm) her]

theorem pathCost_snoc (g : Graph) (v : Int) : ∀ (p : List Int) (u : Int),
    p.getLast? = some u → pathCost g (p ++ [v]) = pathCost g p + linkCost g u v
  | [], _, h => by simp at h
  | [a], u, h => by
    simp only [List.getLast?_singleton, Option.some.injEq] at h
    subst h
    simp [pathCost]
  | a :: b :: rest, u, h => by
    have h2 : (b :: rest).getLast? = some u := by
      rw [List.getLast?_cons_cons] at h; exact h
    have ih := pathCost_snoc g v (b :: rest) u h2
    have e1 : pathCost g ((a :: b :: rest) ++ [v])
        = linkCost g a b + pathCost g ((b :: rest) ++ [v]) := rfl
    have e2 : pathCost g (a :: b :: rest) = linkCost g a b + pathCost g (b :: rest) := rfl
    rw [e1, e2, ih]; ring

/-- With non-negative costs and distances the link costs along a chain add up to
the distance stored for its last slot. -/
theorem chain_cost {g : Graph} {src : Int} {st : DState} (hnn : CostsNonneg g)
    (h1 : OneRecordPerDest g) (inv : SInv g src st)
    (hpos : ∀ v d, getAt st.dist v = some d → 0 ≤ d) {v : Int} {p : List Int}
    (hc : Chain st.prev src v p) : getAt st.dist v = some (pathCost g p) := by
  induction hc with
  | base => simpa [pathCost] using inv.dist_src
  | @step u v p hcu hne hp hu ih =>
    obtain ⟨_, _, du, e, hdu, he, hev, _, hdv, hlt⟩ := inv.prev_ok v u hp hu
    rw [ih] at hdu
    cases hdu
    have hcn := cost_nonneg_of_mem hnn he
    have hdu0 := hpos u _ ih
    rw [wrap32_id (by omega) hlt] at hdv
    rw [pathCost_snoc g v p u (chain_getLast hcu), ← hev, linkCost_of_mem h1 he, hev]
    exact hdv

/-- C2: on a well-formed store with non-negative link costs and for slots in range,
`findShortestPath(src, dest)` returns, and when the returned sequence is not empty the
sum of the `cost` fields of the link records joining its consecutive slots is the value
of `dijkstra(src, dest, true)`. -/
theorem path_cost_eq_dijkstra (g : Graph) (hwf : WellFormed g) (hnn : CostsNonneg g)
    (src dest : Int) (hs : ValidSlot g src) (hd : ValidSlot g dest) :
    ∃ p, findShortestPath g src dest = some p ∧
      (p ≠ [] → dijkstra g src dest true = some (pathCost g p)) := by
  have hdv : DestsValid g := hwf.1
  obtain ⟨st, hrun, inv, _, dd, hdd, hdij, hmaxcase, hpath⟩ := path_queries hdv hs hd
  by_cases hmax : dd = INT_MAX
  · exact ⟨[], (hmaxcase hmax).1, fun h => absurd rfl h⟩
  · obtain ⟨p, hc, _, _, hfsp, _, _⟩ := hpath hmax
    refine ⟨p, hfsp, fun _ => ?_⟩
    rw [hdij]
    by_cases hup : RouterUp g src
    · obtain ⟨st2, hrun2, _, _, hsound, _⟩ := runDijkstra_optimal hdv hnn hs hup
      rw [hrun] at hrun2
      cases hrun2
      have hpos : ∀ v d, getAt st.dist v = some d → 0 ≤ d := by
        intro v d hvd
        by_cases hm : d = INT_MAX
        · rw [hm]; unfold INT_MAX; omega
        · exact (hsound v d hvd hm).1
      have := chain_cost hnn hwf.2.2 inv hpos hc
      rw [hdd] at this
      exact this
    · have hsd : src = dest := by
        by_contra hne
        exact hmax (down_source_dist inv hup hne hdd)
      subst hsd
      rw [chain_src_eq hc rfl]
      rw [inv.dist_src] at hdd
      cases hdd
      simp [pathCost]

/-- C2 at a concrete store: the path from slot 0 to slot 2 of the three routers in
a row. -/
theorem path_cost_eq_dijkstra_witness :
    WellFormed lineStore ∧ CostsNonneg lineStore ∧ ValidSlot lineStore 0 ∧
      ValidSlot lineStore 2 ∧
      ∃ p, findShortestPath lineStore 0 2 = some p ∧
        (p ≠ [] → dijkstra lineStore 0 2 true = some (pathCost lineStore p)) :=
  ⟨by decide, by decide, by decide, by decide,
    path_cost_eq_dijkstra lineStore (by decide) (by decide) 0 2 (by decide) (by decide)⟩

/-! ## Shape of the returned path (C3, C5, C6, C7) -/

/-- C3: on a well-formed store and for slots in range, `findShortestPath(src, dest)`
returns, and when the returned sequence is not empty it starts with `src`, ends with
`dest`, has no slot twice, and for every consecutive pair `(a, b)` router `a` holds a
link record with `dest = b`. -/
theorem shortest_path_shape (g : Graph) (hwf : WellFormed g) (src dest : Int)
    (hs : ValidSlot g src) (hd : ValidSlot g dest) :
    ∃ p, findShortestPath g src dest = some p ∧
      (p ≠ [] → p.head? = some src ∧ p.getLast? = some dest ∧ p.Nodup ∧
        List.Chain' (fun a b => ∃ e ∈ headOf g a, e.dest = b) p) := by
  obtain ⟨st, _, inv, _, dd, _, _, hmaxcase, hpath⟩ := path_queries hwf.1 hs hd
  by_cases hmax : dd = INT_MAX
  · exact ⟨[], (hmaxcase hmax).1, fun h => absurd rfl h⟩
  · obtain ⟨p, hc, hnd, _, hfsp, _, _⟩ := hpath hmax
    refine ⟨p, hfsp, fun _ => ⟨?_, chain_getLast hc, hnd, ?_⟩⟩
    · obtain ⟨q, rfl⟩ := chain_head hc
      rfl
    · refine List.Chain'.imp ?_ (chain_chain' hc)
      intro a b hab
      obtain ⟨_, _, _, e, _, he, hev, _⟩ := inv.prev_ok b a hab.1 hab.2.1
      exact ⟨e, he, hev⟩

/-- C3 at a concrete store: the path from slot 0 to slot 2 of the three routers in
a row. -/
theorem shortest_path_shape_witness :
    WellFormed lineStore ∧ ValidSlot lineStore 0 ∧ ValidSlot lineStore 2 ∧
      ∃ p, findShortestPath lineStore 0 2 = some p ∧
        (p ≠ [] → p.head? = some 0 ∧ p.getLast? = some 2 ∧ p.Nodup ∧
          List.Chain' (fun a b => ∃ e ∈ headOf lineStore a, e.dest = b) p) :=
  ⟨by decide, by decide, by decide,
    shortest_path_shape lineStore (by decide) 0 2 (by decide) (by decide)⟩

/-- C5: on a well-formed store `getNextHop(src, dest)` returns `-1` when an index is
out of range; for slots in range it returns `src` when `src == dest`, `-1` when the
cost `dijkstra(src, dest, true)` is `INT_MAX`, and otherwise exactly the second
element of `findShortestPath(src, dest)`, which is `dest` when that path is the
single direct link. -/
theorem next_hop_spec (g : Graph) (hwf : WellFormed g) (src dest : Int) :
    ((¬ ValidSlot g src ∨ ¬ ValidSlot g dest) → getNextHop g src dest = some (-1)) ∧
    (ValidSlot g src → ValidSlot g dest →
      (src = dest → getNextHop g src dest = some src) ∧
      (dijkstra g src dest true = some INT_MAX → getNextHop g src dest = some (-1)) ∧
      (src ≠ dest → dijkstra g src dest true ≠ some INT_MAX →
        ∃ p hop, findShortestPath g src dest = some p ∧ p[1]? = some hop ∧
          getNextHop g src dest = some hop ∧ (p = [src, dest] → hop = dest))) := by
  constructor
  · intro hbad
    have : src < 0 ∨ src ≥ g.V ∨ dest < 0 ∨ dest ≥ g.V := by
      unfold ValidSlot at hbad
      omega
    unfold getNextHop
    simp [this]
  · intro hs hd
    obtain ⟨st, _, inv, _, dd, hdd, hdij, hmaxcase, hpath⟩ := path_queries hwf.1 hs hd
    refine ⟨?_, ?_, ?_⟩
    · intro hsd
      have hne : dd ≠ INT_MAX := by
        subst hsd
        rw [inv.dist_src] at hdd
        cases hdd
        unfold INT_MAX; omega
      obtain ⟨p, _, _, _, _, hself, _⟩ := hpath hne
      exact hself hsd
    · intro hcost
      rw [hdij] at hcost
      cases hcost
      exact (hmaxcase rfl).2
    · intro hsd hcost
      have hne : dd ≠ INT_MAX := by
        intro h; apply hcost; rw [hdij, h]
      obtain ⟨p, _, _, _, hfsp, _, hhop⟩ := hpath hne
      obtain ⟨hop, h1, h2⟩ := hhop hsd
      refine ⟨p, hop, hfsp, h1, h2, ?_⟩
      intro hp
      subst hp
      simp at h1
      exact h1.symm

/-- C5 at a concrete store: from slot 0 to slot 2 of the three routers in a row the
next hop is the second slot of the path. -/
theorem next_hop_spec_witness :
    WellFormed lineStore ∧
      ∃ p hop, findShortestPath lineStore 0 2 = some p ∧ p[1]? = some hop ∧
        getNextHop lineStore 0 2 = some hop ∧ (p = [0, 2] → hop = 2) :=
  ⟨by decide,
    ((next_hop_spec lineStore (by decide) 0 2).2 (by decide) (by decide)).2.2
      (by decide) (by decide)⟩

/-- C6: on a well-formed store and for all integers `src`, `dest`,
`findShortestPath(src, dest)` returns, and what it returns is the empty sequence if and
only if `src` or `dest` is out of range or `dijkstra(src, dest, true)` is `INT_MAX`. -/
theorem empty_path_iff (g : Graph) (hwf : WellFormed g) (src dest : Int) :
    ∃ p, findShortestPath g src dest = some p ∧
      (p = [] ↔ (¬ ValidSlot g src ∨ ¬ ValidSlot g dest ∨
        dijkstra g src dest true = some INT_MAX)) := by
  by_cases hv : ValidSlot g src ∧ ValidSlot g dest
  · obtain ⟨hs, hd⟩ := hv
    obtain ⟨st, _, inv, _, dd, hdd, hdij, hmaxcase, hpath⟩ := path_queries hwf.1 hs hd
    by_cases hmax : dd = INT_MAX
    · refine ⟨[], (hmaxcase hmax).1, ?_⟩
      constructor
      · intro _; right; right; rw [hdij, hmax]
      · intro _; rfl
    · obtain ⟨p, hc, _, _, hfsp, _, _⟩ := hpath hmax
      refine ⟨p, hfsp, ?_⟩
      constructor
      · intro hp
        have := chain_length_pos hc
        rw [hp] at this
        simp at this
      · intro h
        rcases h with h | h | h
        · exact absurd hs h
        · exact absurd hd h
        · rw [hdij] at h
          cases h
          exact absurd rfl hmax
  · have hbad : src < 0 ∨ src ≥ g.V ∨ dest < 0 ∨ dest ≥ g.V := by
      unfold ValidSlot at hv
      omega
    refine ⟨[], by unfold findShortestPath; simp [hbad], ?_⟩
    constructor
    · intro _
      by_cases hs : ValidSlot g src
      · exact Or.inr (Or.inl (fun hd => hv ⟨hs, hd⟩))
      · exact Or.inl hs
    · intro _; rfl

/-- C6 at a concrete store: slot 5 is out of range in the store of two routers. -/
theorem empty_path_iff_witness :
    WellFormed pairStore ∧
      ∃ p, findShortestPath pairStore 0 5 = some p ∧
        (p = [] ↔ (¬ ValidSlot pairStore 0 ∨ ¬ ValidSlot pairStore 5 ∨
          dijkstra pairStore 0 5 true = some INT_MAX)) :=
  ⟨by decide, empty_path_iff pairStore (by decide) 0 5⟩

theorem mem_setAt {α : Type} {xs : List α} {i : Int} {x y : α} (h : y ∈ setAt xs i x) :
    y = x ∨ y ∈ xs := by
  unfold setAt at h
  split at h
  · rcases List.mem_or_eq_of_mem_set h with h | h
    · exact Or.inr h
    · exact Or.inl h
  · exact Or.inr h

/-- A record of `mapHead g i f` is a record of `g` or one that `f` has made. -/
theorem mapHead_records {g : Graph} {i : Int} {f : List EdgeNode → List EdgeNode}
    {Q : EdgeNode → Prop} (hf : ∀ l e, e ∈ f l → e ∈ l ∨ Q e) {e : EdgeNode}
    (h : RecordOf (mapHead g i f) e) : RecordOf g e ∨ Q e := by
  obtain ⟨r, hr, he⟩ := h
  unfold mapHead at hr
  split at hr
  · exact Or.inl ⟨r, hr, he⟩
  · rename_i r0 hr0
    rcases mem_setAt hr with h | h
    · subst h
      rcases hf _ _ he with h2 | h2
      · exact Or.inl ⟨r0, getAt_mem hr0, h2⟩
      · exact Or.inr h2
    · exact Or.inl ⟨r, h, he⟩

theorem mem_removeFirst {tgt : Int} : ∀ {l : List EdgeNode} {e : EdgeNode},
    e ∈ removeFirst tgt l → e ∈ l
  | [], _, h => by simp [removeFirst] at h
  | x :: xs, e, h => by
    unfold removeFirst at h
    split at h
    · exact List.mem_cons_of_mem _ h
    · rcases List.mem_cons.mp h with h | h
      · rw [h]; exact List.mem_cons_self _ _
      · exact List.mem_cons_of_mem _ (mem_removeFirst h)

theorem mem_updateFirst {tgt c : Int} {ow : Bool} : ∀ {l : List EdgeNode} {e : EdgeNode},
    e ∈ updateFirst tgt c ow l → e ∈ l ∨ (e.cost = c ∧ e.up = decide (c ≠ INT_MAX))
  | [], _, h => by simp [updateFirst] at h
  | x :: xs, e, h => by
    unfold updateFirst at h
    split at h
    · rcases List.mem_cons.mp h with h | h
      · right; rw [h]; exact ⟨rfl, rfl⟩
      · exact Or.inl (List.mem_cons_of_mem _ h)
    · rcases List.mem_cons.mp h with h | h
      · left; rw [h]; exact List.mem_cons_self _ _
      · rcases mem_updateFirst h with h2 | h2
        · exact Or.inl (List.mem_cons_of_mem _ h2)
        · exact Or.inr h2

theorem mem_toggleAll {tgt : Int} {up : Bool} {l : List EdgeNode} {e : EdgeNode}
    (h : e ∈ toggleAll tgt up l) :
    e ∈ l ∨ (e.up = up ∧ e.cost = if up then e.originalCost else INT_MAX) := by
  unfold toggleAll at h
  obtain ⟨x, hx, rfl⟩ := List.mem_map.mp h
  split
  · exact Or.inr ⟨rfl, rfl⟩
  · exact Or.inl hx

theorem removeEdge_records {g : Graph} {a b : String} {e : EdgeNode}
    (h : RecordOf (removeEdge g a b) e) : RecordOf g e := by
  unfold removeEdge at h
  simp only at h
  split at h
  · exact h
  · rcases mapHead_records (Q := fun _ => False)
      (fun l e he => Or.inl (mem_removeFirst he)) h with h1 | h1
    · rcases mapHead_records (Q := fun _ => False)
        (fun l e he => Or.inl (mem_removeFirst he)) h1 with h2 | h2
      · exact h2
      · exact h2.elim
    · exact h1.elim

theorem addRouter_records {g : Graph} {name : String} {e : EdgeNode}
    (h : RecordOf (addRouter g name) e) : RecordOf g e := by
  unfold addRouter at h
  by_cases h1 : g.nodes.length ≥ MAX_V
  · rw [if_pos h1] at h; exact h
  · rw [if_neg h1] at h
    simp only at h
    generalize (if name.isEmpty = true then "R" ++ toString g.nodes.length else name) = rn at h
    by_cases h2 : getRouterIndex g rn ≠ -1
    · rw [if_pos h2] at h; exact h
    · rw [if_neg h2] at h
      obtain ⟨r, hr, he⟩ := h
      rcases List.mem_append.mp hr with hr | hr
      · exact ⟨r, hr, he⟩
      · simp only [List.mem_singleton] at hr
        subst hr
        simp at he

theorem toggleRouterStatus_records {g : Graph} {name : String} {e : EdgeNode}
    (h : RecordOf (toggleRouterStatus g name) e) : RecordOf g e := by
  unfold toggleRouterStatus at h
  simp only at h
  split at h
  · exact h
  · split at h
    · exact h
    · rename_i r0 hr0
      obtain ⟨r, hr, he⟩ := h
      rcases mem_setAt hr with h1 | h1
      · subst h1
        exact ⟨r0, getAt_mem hr0, he⟩
      · exact ⟨r, h1, he⟩

theorem toggleLink_records {g : Graph} {a b : String} {up : Bool} {e : EdgeNode}
    (h : RecordOf (toggleLink g a b up) e) :
    RecordOf g e ∨ (e.up = up ∧ e.cost = if up then e.originalCost else INT_MAX) := by
  unfold toggleLink at h
  simp only at h
  split at h
  · exact Or.inl h
  · rcases mapHead_records (fun l e he => mem_toggleAll he) h with h1 | h1
    · exact mapHead_records (fun l e he => mem_toggleAll he) h1
    · exact Or.inr h1

theorem addEdge_records {g : Graph} {a b : String} {c : Int} {e : EdgeNode}
    (h : RecordOf (addEdge g a b c) e) :
    RecordOf g e ∨ (e.cost = c ∧ e.up = decide (c ≠ INT_MAX)) ∨
      (e.cost = c ∧ e.up = true) := by
  unfold addEdge at h
  simp only at h
  split at h
  · exact Or.inl h
  · split at h
    · exact Or.inl h
    · split at h
      · unfold updateEdgeCost at h
        simp only at h
        rcases mapHead_records (fun l e he => mem_updateFirst he) h with h1 | h1
        · rcases mapHead_records (fun l e he => mem_updateFirst he) h1 with h2 | h2
          · exact Or.inl h2
          · exact Or.inr (Or.inl h2)
        · exact Or.inr (Or.inl h1)
      · have hf : ∀ (v : Int) (l : List EdgeNode) (x : EdgeNode),
            x ∈ (⟨v, c, c, true⟩ : EdgeNode) :: l →
              x ∈ l ∨ (x.cost = c ∧ x.up = true) := by
          intro v l x hx
          rcases List.mem_cons.mp hx with hx | hx
          · right; rw [hx]; exact ⟨rfl, rfl⟩
          · exact Or.inl hx
        rcases mapHead_records (hf _) h with h1 | h1
        · rcases mapHead_records (hf _) h1 with h2 | h2
          · exact Or.inl h2
          · exact Or.inr (Or.inr h2)
        · exact Or.inr (Or.inr h1)

theorem removeIncoming_foldl_records {name : String} {idx : Int} {e : EdgeNode} :
    ∀ (is : List Nat) (g : Graph),
      RecordOf (is.foldl (removeIncoming name idx) g) e → RecordOf g e
  | [], _, h => h
  | i :: is, g, h => by
    have h1 := removeIncoming_foldl_records is _ h
    unfold removeIncoming at h1
    split at h1
    · exact h1
    · split at h1
      · exact h1
      · exact removeEdge_records h1

theorem removeRouter_records {g : Graph} {name : String} {e : EdgeNode}
    (h : RecordOf (removeRouter g name) e) : RecordOf g e := by
  unfold removeRouter at h
  simp only at h
  split at h
  · exact h
  · obtain ⟨r, hr, he⟩ := h
    exact removeIncoming_foldl_records _ g ⟨r, List.mem_of_mem_eraseIdx hr, he⟩

/-- In every reachable store a record that is marked down carries the cost `INT_MAX`. -/
theorem reachable_downHasMax {g : Graph} (h : Reachable g) : DownHasMax g := by
  induction h with
  | empty =>
    intro e he
    obtain ⟨r, hr, _⟩ := he
    simp [emptyGraph] at hr
  | addRouter g name _ ih => exact fun e he => ih e (addRouter_records he)
  | removeRouter g name _ ih => exact fun e he => ih e (removeRouter_records he)
  | addEdge g a b c _ _ _ ih =>
    intro e he hdown
    rcases addEdge_records he with h1 | ⟨h1, h2⟩ | ⟨_, h2⟩
    · exact ih e h1 hdown
    · rw [hdown] at h2
      rw [h1]
      by_contra hc
      simp [hc] at h2
    · rw [hdown] at h2; cases h2
  | removeEdge g a b _ ih => exact fun e he => ih e (removeEdge_records he)
  | toggleRouterStatus g name _ ih => exact fun e he => ih e (toggleRouterStatus_records he)
  | toggleLink g a b up _ ih =>
    intro e he hdown
    rcases toggleLink_records he with h1 | ⟨h1, h2⟩
    · exact ih e h1 hdown
    · rw [hdown] at h1
      rw [← h1] at h2
      simpa using h2

/-! ## Down routers and links are never traversed (C4) -/

theorem findShortestPath_run {g : Graph} {src dest : Int} {p : List Int}
    (hs : ValidSlot g src) (hd : ValidSlot g dest)
    (hp : findShortestPath g src dest = some p) :
    ∃ st, runLoop g (loopFuel g) (initState g src) = some st := by
  have hvalid : ¬ (src < 0 ∨ src ≥ g.V ∨ dest < 0 ∨ dest ≥ g.V) := by
    have := hs.1; have := hs.2; have := hd.1; have := hd.2
    omega
  have hsrc : ¬ (src < 0 ∨ src ≥ g.V) := by
    have := hs.1; have := hs.2
    omega
  cases hrun : runLoop g (loopFuel g) (initState g src) with
  | some st => exact ⟨st, rfl⟩
  | none =>
    have : runDijkstra g src = none := by
      unfold runDijkstra
      simp [hsrc, hrun]
    unfold findShortestPath at hp
    simp [hvalid, this] at hp

theorem reachable_threeRouters : Reachable threeRouters :=
  Reachable.addEdge _ "R1" "R2" 5
    (Reachable.addRouter _ "" (Reachable.addRouter _ "" (Reachable.addRouter _ "" Reachable.empty)))
    (by decide) (by decide)

/-- C4: in every store reachable from the empty store through the public mutators and
for slots `src != dest` in range, every router on the sequence that
`findShortestPath(src, dest)` returns is up and every consecutive pair on it is joined
by a link record whose `up` flag is true; the query does return when all record targets
of the store are in range. -/
theorem down_never_traversed (g : Graph) (hr : Reachable g) (src dest : Int)
    (hs : ValidSlot g src) (hd : ValidSlot g dest) (hne : src ≠ dest) :
    (DestsValid g → ∃ p, findShortestPath g src dest = some p) ∧
    ∀ p, findShortestPath g src dest = some p →
      (∀ x ∈ p, RouterUp g x) ∧
      List.Chain' (fun a b => ∃ e ∈ headOf g a, e.dest = b ∧ e.up = true) p := by
  constructor
  · intro hdv
    obtain ⟨st, _, _, _, dd, _, _, hmaxcase, hpath⟩ := path_queries hdv hs hd
    by_cases hmax : dd = INT_MAX
    · exact ⟨[], (hmaxcase hmax).1⟩
    · obtain ⟨p, _, _, _, hfsp, _⟩ := hpath hmax
      exact ⟨p, hfsp⟩
  · intro p hp
    obtain ⟨st, hrun⟩ := findShortestPath_run hs hd hp
    obtain ⟨inv, _, dd, hdd, _, hmaxcase, hpath⟩ := path_queries_of_run hs hd hrun
    by_cases hmax : dd = INT_MAX
    · rw [(hmaxcase hmax).1] at hp
      cases hp
      exact ⟨fun x hx => by simp at hx, List.chain'_nil⟩
    · obtain ⟨q, hc, _, hvis, hfsp, _⟩ := hpath hmax
      rw [hfsp] at hp
      cases hp
      have hdm := reachable_downHasMax hr
      constructor
      · intro x hx
        by_cases hxd : x = dest
        · subst hxd
          rcases inv.dist_ok x dd hdd hmax with h | ⟨u, hu, hu1⟩
          · exact absurd h.symm hne
          · exact (inv.prev_ok x u hu hu1).2.1
        · exact (inv.vis_ok x (hvis x hx hxd)).2.2
      · refine List.Chain'.imp ?_ (chain_chain' hc)
        intro a b hab
        obtain ⟨_, _, _, e, _, he, hev, hcost, _⟩ := inv.prev_ok b a hab.1 hab.2.1
        refine ⟨e, he, hev, ?_⟩
        obtain ⟨r, _, hrm, her⟩ := headOf_mem_nodes he
        cases hup : e.up with
        | true => rfl
        | false => exact absurd (hdm e ⟨r, hrm, her⟩ hup) hcost

/-- C4 at a concrete reachable store: the path from `R1` to `R2` in the store of
three routers. -/
theorem down_never_traversed_witness :
    Reachable threeRouters ∧ ValidSlot threeRouters 1 ∧ ValidSlot threeRouters 2 ∧
      findShortestPath threeRouters 1 2 = some [1, 2] ∧
      ((∀ x ∈ [(1 : Int), 2], RouterUp threeRouters x) ∧
        List.Chain' (fun a b => ∃ e ∈ headOf threeRouters a, e.dest = b ∧ e.up = true)
          [(1 : Int), 2]) :=
  ⟨reachable_threeRouters, by decide, by decide, by decide,
    (down_never_traversed threeRouters reachable_threeRouters 1 2 (by decide) (by decide)
      (by decide)).2 [1, 2] (by decide)⟩

/-! ## `removeRouter` (C8, C9, C10) -/

/-- C8, evaluated at its failing input: after three `addRouter`, `addEdge("R1", "R2", 5)`
and `removeRouter("R0")` the store is `staleStore`, in which the record on slot 0 points
at slot 2, which is no active router: link symmetry does not hold in this reachable
store. -/
theorem removeRouter_breaks_symmetry :
    Reachable (removeRouter threeRouters "R0") ∧
      removeRouter threeRouters "R0" = staleStore ∧ ¬ LinkSymmetry staleStore :=
  ⟨Reachable.removeRouter _ "R0" reachable_threeRouters, by decide, by decide⟩

/-- C9, evaluated at its failing input: `threeRouters` is well formed with unique
names and has the link `R1 - R2`; after `removeRouter("R0")`, which is not an end of
that link, router `R1` holds no record for the slot of `R2` any more. -/
theorem removeRouter_loses_link :
    WellFormed threeRouters ∧ UniqueNames threeRouters ∧
      linkBetween threeRouters "R1" "R2" = some ⟨2, 5, 5, true⟩ ∧
      linkBetween (removeRouter threeRouters "R0") "R1" "R2" = none ∧
      linkBetween (removeRouter threeRouters "R0") "R2" "R1" = none :=
  ⟨by decide, by decide, by decide, by decide, by decide⟩

theorem findName_congr (n : String) : ∀ (rs rs2 : List Router) (i : Int),
    rs.map Router.name = rs2.map Router.name → findName n rs i = findName n rs2 i
  | [], [], _, _ => rfl
  | [], _ :: _, _, h => by simp at h
  | _ :: _, [], _, h => by simp at h
  | r :: rs, r2 :: rs2, i, h => by
    simp only [List.map_cons, List.cons.injEq] at h
    unfold findName
    rw [h.1, findName_congr n rs rs2 (i + 1) h.2]

/-- The result of the name scan: `-1` and no router has the name, or the offset of
a router that has it. -/
theorem findName_spec (n : String) : ∀ (rs : List Router) (i : Int),
    (findName n rs i = -1 ∧ ∀ r ∈ rs, r.name ≠ n) ∨
    ∃ (k : Nat) (ro : Router), findName n rs i = i + k ∧ rs[k]? = some ro ∧ ro.name = n
  | [], _ => Or.inl ⟨rfl, fun r hr => by simp at hr⟩
  | r :: rs, i => by
    unfold findName
    by_cases h : r.name = n
    · rw [if_pos h]
      exact Or.inr ⟨0, r, by simp, by simp, h⟩
    · rw [if_neg h]
      rcases findName_spec n rs (i + 1) with ⟨h1, h2⟩ | ⟨k, ro, h1, h2, h3⟩
      · left
        refine ⟨h1, ?_⟩
        intro x hx
        rcases List.mem_cons.mp hx with hx | hx
        · rw [hx]; exact h
        · exact h2 x hx
      · right
        refine ⟨k + 1, ro, ?_, by simpa using h2, h3⟩
        rw [h1]; push_cast; ring

theorem labels_names (g : Graph) : (labels g).map Prod.fst = g.nodes.map Router.name := by
  simp [labels, List.map_map, Function.comp_def]

theorem getRouterIndex_congr {g g2 : Graph} (h : labels g2 = labels g) (n : String) :
    getRouterIndex g2 n = getRouterIndex g n := by
  unfold getRouterIndex
  apply findName_congr
  rw [← labels_names, ← labels_names, h]

theorem mapHead_labels (g : Graph) (i : Int) (f : List EdgeNode → List EdgeNode) :
    labels (mapHead g i f) = labels g := by
  unfold mapHead
  split
  · rfl
  · rename_i r hr
    have hb := getAt_some_bounds hr
    have hr2 := getAt_toNat hr
    simp only [labels, setAt, if_pos hb.1, List.map_set]
    apply List.ext_getElem?
    intro j
    rw [List.getElem?_set]
    split
    · rename_i hij
      subst hij
      have hlt : i.toNat < g.nodes.length := by omega
      have hr3 : g.nodes[i.toNat] = r := by
        rw [List.getElem?_eq_getElem hlt] at hr2
        exact Option.some.inj hr2
      simp [hlt, hr3]
    · rfl

theorem removeEdge_labels (g : Graph) (a b : String) :
    labels (removeEdge g a b) = labels g := by
  unfold removeEdge
  simp only
  split
  · rfl
  · rw [mapHead_labels, mapHead_labels]

theorem removeIncoming_foldl_labels (name : String) (idx : Int) :
    ∀ (is : List Nat) (g : Graph),
      labels (is.foldl (removeIncoming name idx) g) = labels g
  | [], _ => rfl
  | i :: is, g => by
    rw [List.foldl_cons, removeIncoming_foldl_labels name idx is]
    unfold removeIncoming
    split
    · rfl
    · split
      · rfl
      · exact removeEdge_labels _ _ _

theorem map_eraseIdx {α β : Type} (f : α → β) : ∀ (l : List α) (i : Nat),
    (l.eraseIdx i).map f = (l.map f).eraseIdx i
  | [], _ => rfl
  | _ :: _, 0 => rfl
  | a :: l, i + 1 => by
    simp only [List.eraseIdx_cons_succ, List.map_cons, map_eraseIdx f l i]

/-- Calling `removeRouter` with a known name deletes one entry of the label list and keeps
the others in order. -/
theorem removeRouter_labels {g : Graph} {name : String} (h : getRouterIndex g name ≠ -1) :
    labels (removeRouter g name) = (labels g).eraseIdx (getRouterIndex g name).toNat := by
  unfold removeRouter
  simp only [if_neg h]
  have := removeIncoming_foldl_labels name (getRouterIndex g name)
    (List.range g.nodes.length) g
  unfold labels at this ⊢
  rw [map_eraseIdx, this]

/-- C10: in a store with unique names in which router `r` sits at slot `idx`, after
`removeRouter(r)` the router count is one less, `getRouterIndex(r)` is `-1`, every slot
below `idx` holds the name and up flag it held before, and every slot `i` from `idx` on
holds the name and up flag that slot `i + 1` held before. -/
theorem removeRouter_slots (g : Graph) (hu : UniqueNames g) (r : String) (idx : Nat)
    (hidx : getRouterIndex g r = (idx : Int)) :
    (removeRouter g r).nodes.length + 1 = g.nodes.length ∧
    getRouterIndex (removeRouter g r) r = -1 ∧
    (∀ i, i < idx → (labels (removeRouter g r))[i]? = (labels g)[i]?) ∧
    (∀ i, idx ≤ i → i + 1 < g.nodes.length →
      (labels (removeRouter g r))[i]? = (labels g)[i + 1]?) := by
  have hne : getRouterIndex g r ≠ -1 := by rw [hidx]; omega
  have hlab := removeRouter_labels hne
  rw [hidx, Int.toNat_ofNat] at hlab
  have hat : ∃ ro, g.nodes[idx]? = some ro ∧ ro.name = r := by
    rcases findName_spec r g.nodes 0 with ⟨h1, _⟩ | ⟨k, ro, h1, h2, h3⟩
    · exact absurd h1 hne
    · have hk : k = idx := by
        have : getRouterIndex g r = 0 + (k : Int) := h1
        rw [hidx] at this
        omega
      subst hk
      exact ⟨ro, h2, h3⟩
  obtain ⟨ro, hro, hname⟩ := hat
  have hlt : idx < g.nodes.length := by
    by_contra hc
    rw [List.getElem?_eq_none (by omega)] at hro
    cases hro
  have hlen : (labels (removeRouter g r)).length + 1 = (labels g).length := by
    rw [hlab, List.length_eraseIdx]
    simp only [labels, List.length_map, if_pos hlt]
    omega
  refine ⟨by simpa [labels] using hlen, ?_, ?_, ?_⟩
  · rcases findName_spec r (removeRouter g r).nodes 0 with ⟨h1, _⟩ | ⟨k, ro2, _, h2, h3⟩
    · exact h1
    · exfalso
      have hmem : r ∈ ((labels g).eraseIdx idx).map Prod.fst := by
        rw [← hlab, labels_names]
        exact List.mem_map.mpr ⟨ro2, List.getElem?_mem h2, h3⟩
      rw [map_eraseIdx, labels_names] at hmem
      obtain ⟨j, hj, hjr⟩ := List.mem_eraseIdx_iff_getElem?.mp hmem
      have hidxr : (g.nodes.map Router.name)[idx]? = some r := by
        rw [List.getElem?_map, hro]; simp [hname]
      have : idx = j := List.getElem?_inj (by simpa using hlt) hu (by rw [hidxr, hjr])
      exact hj this.symm
  · intro i hi
    rw [hlab, List.getElem?_eraseIdx, if_pos hi]
  · intro i hi _
    rw [hlab, List.getElem?_eraseIdx, if_neg (by omega)]

/-- C10 at a concrete store: removing `R1`, which sits at slot 1, from the store of
three routers. -/
theorem removeRouter_slots_witness :
    UniqueNames threeRouters ∧ getRouterIndex threeRouters "R1" = ((1 : Nat) : Int) ∧
      (removeRouter threeRouters "R1").nodes.length + 1 = threeRouters.nodes.length ∧
      getRouterIndex (removeRouter threeRouters "R1") "R1" = -1 ∧
      (∀ i, i < 1 →
        (labels (removeRouter threeRouters "R1"))[i]? = (labels threeRouters)[i]?) ∧
      (∀ i, 1 ≤ i → i + 1 < threeRouters.nodes.length →
        (labels (removeRouter threeRouters "R1"))[i]? = (labels threeRouters)[i + 1]?) :=
  ⟨by decide, by decide, removeRouter_slots threeRouters (by decide) "R1" 1 (by decide)⟩

/-! ## Slots, adjacency lists and store equality -/

theorem getAt_natCast {α : Type} (xs : List α) (n : Nat) : getAt xs (n : Int) = xs[n]? := by
  simp [getAt]

/-- A name that `getRouterIndex` finds sits at the slot it returns. -/
theorem getRouterIndex_valid {g : Graph} {a : String} {u : Int}
    (hu : getRouterIndex g a = u) (hu1 : u ≠ -1) :
    ∃ r, getAt g.nodes u = some r ∧ r.name = a := by
  rcases findName_spec a g.nodes 0 with ⟨h1, _⟩ | ⟨k, ro, h1, h2, h3⟩
  · exact absurd (hu.symm.trans h1) hu1
  · have : u = (k : Int) := by
      have h : getRouterIndex g a = 0 + (k : Int) := h1
      rw [hu] at h; omega
    subst this
    exact ⟨ro, by rw [getAt_natCast]; exact h2, h3⟩

/-- A name that `getRouterIndex` does not find is the name of no router. -/
theorem getRouterIndex_absent {g : Graph} {a : String} (h : getRouterIndex g a = -1) :
    ∀ r ∈ g.nodes, r.name ≠ a := by
  rcases findName_spec a g.nodes 0 with ⟨_, h2⟩ | ⟨k, ro, h1, _, _⟩
  · exact h2
  · have h3 : getRouterIndex g a = 0 + (k : Int) := h1
    rw [h] at h3; omega

theorem headOf_mapHead_self {g : Graph} {i : Int} {r : Router}
    (f : List EdgeNode → List EdgeNode) (h : getAt g.nodes i = some r) :
    headOf (mapHead g i f) i = f (headOf g i) := by
  have hb := getAt_some_bounds h
  unfold mapHead
  simp only [h]
  unfold headOf
  simp only [getAt_setAt_self _ _ hb.1 hb.2, h]

theorem getAt_mapHead_ne (g : Graph) {i j : Int} (f : List EdgeNode → List EdgeNode)
    (h : i ≠ j) : getAt (mapHead g i f).nodes j = getAt g.nodes j := by
  unfold mapHead
  split
  · rfl
  · exact getAt_setAt_ne _ _ h

theorem headOf_mapHead_ne (g : Graph) {i j : Int} (f : List EdgeNode → List EdgeNode)
    (h : i ≠ j) : headOf (mapHead g i f) j = headOf g j := by
  unfold headOf
  rw [getAt_mapHead_ne g f h]

theorem labels_length (g : Graph) : (labels g).length = g.nodes.length := by
  simp [labels]

theorem getAt_mapHead_labels {g : Graph} {i j : Int} {f : List EdgeNode → List EdgeNode}
    {r : Router} (h : getAt g.nodes j = some r) :
    ∃ r2, getAt (mapHead g i f).nodes j = some r2 ∧ r2.name = r.name ∧ r2.up = r.up := by
  by_cases hij : i = j
  · subst hij
    have hb := getAt_some_bounds h
    refine ⟨{ r with head := f r.head }, ?_, rfl, rfl⟩
    unfold mapHead
    simp only [h]
    exact getAt_setAt_self _ _ hb.1 hb.2
  · exact ⟨r, by rw [getAt_mapHead_ne g f hij]; exact h, rfl, rfl⟩

/-- Two stores with the same names, up flags and adjacency lists are equal. -/
theorem graph_ext {g1 g2 : Graph} (hl : labels g1 = labels g2)
    (hh : ∀ w : Int, headOf g1 w = headOf g2 w) : g1 = g2 := by
  cases g1 with
  | mk n1 =>
    cases g2 with
    | mk n2 =>
      congr 1
      apply List.ext_getElem?
      intro n
      have h1 : (labels ⟨n1⟩)[n]? = (labels ⟨n2⟩)[n]? := by rw [hl]
      simp only [labels, List.getElem?_map] at h1
      have h2 := hh (n : Int)
      simp only [headOf, getAt_natCast] at h2
      cases ha : n1[n]? with
      | none =>
        cases hb : n2[n]? with
        | none => rfl
        | some b => rw [ha, hb] at h1; simp at h1
      | some a =>
        cases hb : n2[n]? with
        | none => rw [ha, hb] at h1; simp at h1
        | some b =>
          rw [ha, hb] at h1 h2
          simp only [Option.map_some', Option.some.injEq, Prod.mk.injEq] at h1
          simp only at h2
          cases a; cases b
          simp only at h1 h2
          simp [h1.1, h1.2, h2]

/-- Rewriting an adjacency list to itself leaves the store as it is. -/
theorem mapHead_id {g : Graph} {i : Int} {f : List EdgeNode → List EdgeNode}
    (h : f (headOf g i) = headOf g i) : mapHead g i f = g := by
  apply graph_ext (mapHead_labels g i f)
  intro w
  by_cases hw : i = w
  · subst hw
    cases hr : getAt g.nodes i with
    | none => unfold mapHead; simp only [hr]
    | some r => rw [headOf_mapHead_self f hr, h]
  · exact headOf_mapHead_ne g f hw

theorem getRouterIndex_mapHead (g : Graph) (i : Int) (f : List EdgeNode → List EdgeNode)
    (n : String) : getRouterIndex (mapHead g i f) n = getRouterIndex g n :=
  getRouterIndex_congr (mapHead_labels g i f) n

theorem mapHead_length (g : Graph) (i : Int) (f : List EdgeNode → List EdgeNode) :
    (mapHead g i f).nodes.length = g.nodes.length := by
  rw [← labels_length, mapHead_labels, labels_length]

theorem getAt_mapHead_isSome {g : Graph} {i j : Int} {f : List EdgeNode → List EdgeNode}
    {r : Router} (h : getAt g.nodes j = some r) :
    ∃ r2, getAt (mapHead g i f).nodes j = some r2 := by
  obtain ⟨r2, h2, _⟩ := getAt_mapHead_labels (i := i) (f := f) h
  exact ⟨r2, h2⟩

/-! ## The list operations of the mutators -/

theorem hasDest_eq_true {tgt : Int} {l : List EdgeNode} :
    hasDest tgt l = true ↔ ∃ e ∈ l, e.dest = tgt := by
  simp [hasDest]

theorem hasDest_eq_false {tgt : Int} {l : List EdgeNode} :
    hasDest tgt l = false ↔ ∀ e ∈ l, e.dest ≠ tgt := by
  simp [hasDest]

theorem hasDest_iff_mem {tgt : Int} {l : List EdgeNode} :
    hasDest tgt l = true ↔ tgt ∈ l.map EdgeNode.dest := by
  rw [hasDest_eq_true, List.mem_map]

theorem removeFirst_of_not_hasDest {tgt : Int} : ∀ {l : List EdgeNode},
    hasDest tgt l = false → removeFirst tgt l = l
  | [], _ => rfl
  | x :: xs, h => by
    rw [hasDest_eq_false] at h
    have hx : x.dest ≠ tgt := h x (List.mem_cons_self _ _)
    have hxs : hasDest tgt xs = false :=
      hasDest_eq_false.mpr (fun e he => h e (List.mem_cons_of_mem _ he))
    simp only [removeFirst, if_neg hx, removeFirst_of_not_hasDest hxs]

theorem filter_ne_of_not_hasDest {tgt : Int} {l : List EdgeNode}
    (h : hasDest tgt l = false) : l.filter (fun e => !decide (e.dest = tgt)) = l := by
  rw [hasDest_eq_false] at h
  apply List.filter_eq_self.mpr
  intro e he
  simp [h e he]

/-- With one record per `dest`, unlinking the first record for `tgt` leaves exactly
the records for other slots. -/
theorem removeFirst_eq_filter {tgt : Int} : ∀ {l : List EdgeNode},
    (l.map EdgeNode.dest).Nodup →
    removeFirst tgt l = l.filter (fun e => !decide (e.dest = tgt))
  | [], _ => rfl
  | x :: xs, h => by
    simp only [List.map_cons, List.nodup_cons] at h
    by_cases hx : x.dest = tgt
    · have hxs : hasDest tgt xs = false := by
        rw [hasDest_eq_false]
        intro e he hed
        apply h.1
        rw [hx, ← hed]
        exact List.mem_map_of_mem _ he
      simp [removeFirst, hx, filter_ne_of_not_hasDest hxs]
    · simp [removeFirst, hx, removeFirst_eq_filter h.2]

theorem removeFirst_sublist (tgt : Int) : ∀ (l : List EdgeNode),
    List.Sublist (removeFirst tgt l) l
  | [] => List.Sublist.refl _
  | x :: xs => by
    unfold removeFirst
    split
    · exact List.sublist_cons_self _ _
    · exact (removeFirst_sublist tgt xs).cons_cons _

theorem updateFirst_map_dest (tgt c : Int) (ow : Bool) : ∀ (l : List EdgeNode),
    (updateFirst tgt c ow l).map EdgeNode.dest = l.map EdgeNode.dest
  | [] => rfl
  | x :: xs => by
    unfold updateFirst
    split
    · rfl
    · simp only [List.map_cons, updateFirst_map_dest tgt c ow xs]

theorem updateFirst_of_not_hasDest {tgt c : Int} {ow : Bool} : ∀ {l : List EdgeNode},
    hasDest tgt l = false → updateFirst tgt c ow l = l
  | [], _ => rfl
  | x :: xs, h => by
    rw [hasDest_eq_false] at h
    have hx : x.dest ≠ tgt := h x (List.mem_cons_self _ _)
    have hxs : hasDest tgt xs = false :=
      hasDest_eq_false.mpr (fun e he => h e (List.mem_cons_of_mem _ he))
    simp only [updateFirst, if_neg hx, updateFirst_of_not_hasDest hxs]

theorem updateFirst_filter_ne (tgt c : Int) (ow : Bool) : ∀ (l : List EdgeNode),
    (updateFirst tgt c ow l).filter (fun e => !decide (e.dest = tgt))
      = l.filter (fun e => !decide (e.dest = tgt))
  | [] => rfl
  | x :: xs => by
    by_cases hx : x.dest = tgt
    · simp [updateFirst, hx]
    · simp [updateFirst, hx, updateFirst_filter_ne tgt c ow xs]

/-- With one record per `dest`, after the cost update the records for `tgt` are the
single rewritten record. -/
theorem updateFirst_filter_eq {tgt c : Int} : ∀ {l : List EdgeNode},
    (l.map EdgeNode.dest).Nodup → hasDest tgt l = true →
    (updateFirst tgt c true l).filter (fun e => decide (e.dest = tgt))
      = [⟨tgt, c, c, decide (c ≠ INT_MAX)⟩]
  | [], _, h => by simp [hasDest] at h
  | x :: xs, hn, h => by
    simp only [List.map_cons, List.nodup_cons] at hn
    by_cases hx : x.dest = tgt
    · have hxs : ∀ e ∈ xs, e.dest ≠ tgt := by
        intro e he hed
        apply hn.1
        rw [hx, ← hed]
        exact List.mem_map_of_mem _ he
      have hf : xs.filter (fun e => decide (e.dest = tgt)) = [] := by
        apply List.filter_eq_nil_iff.mpr
        intro e he
        simp [hxs e he]
      simp [updateFirst, hx, hf]
    · have hxs : hasDest tgt xs = true := by
        rw [hasDest_eq_true] at h ⊢
        obtain ⟨e, he, hed⟩ := h
        rcases List.mem_cons.mp he with he | he
        · rw [he] at hed; exact absurd hed hx
        · exact ⟨e, he, hed⟩
      simp [updateFirst, hx, updateFirst_filter_eq hn.2 hxs]

theorem toggleAll_map_dest (tgt : Int) (up : Bool) (l : List EdgeNode) :
    (toggleAll tgt up l).map EdgeNode.dest = l.map EdgeNode.dest := by
  unfold toggleAll
  rw [List.map_map]
  apply List.map_congr_left
  intro e _
  simp only [Function.comp]
  split <;> rfl

theorem toggleAll_toggleAll (tgt : Int) (b1 b2 : Bool) (l : List EdgeNode) :
    toggleAll tgt b2 (toggleAll tgt b1 l) = toggleAll tgt b2 l := by
  unfold toggleAll
  rw [List.map_map]
  apply List.map_congr_left
  intro e _
  simp only [Function.comp]
  by_cases he : e.dest = tgt
  · simp [he]
  · simp [he]

/-- Bringing up records that are up with their original cost changes nothing. -/
theorem toggleAll_true_id {tgt : Int} {l : List EdgeNode}
    (h : ∀ e ∈ l, e.dest = tgt → e.up = true ∧ e.cost = e.originalCost) :
    toggleAll tgt true l = l := by
  unfold toggleAll
  conv_rhs => rw [← List.map_id l]
  apply List.map_congr_left
  intro e he
  by_cases hd : e.dest = tgt
  · obtain ⟨h1, h2⟩ := h e he hd
    cases e
    simp only at h1 h2 hd
    simp [hd, h1, h2]
  · simp [hd]

theorem toggleAll_of_not_hasDest {tgt : Int} {up : Bool} {l : List EdgeNode}
    (h : hasDest tgt l = false) : toggleAll tgt up l = l := by
  rw [hasDest_eq_false] at h
  unfold toggleAll
  conv_rhs => rw [← List.map_id l]
  apply List.map_congr_left
  intro e he
  simp [h e he]

theorem toggleAll_false_cost {tgt : Int} {l : List EdgeNode} {e : EdgeNode}
    (he : e ∈ toggleAll tgt false l) (hd : e.dest = tgt) : e.cost = INT_MAX := by
  unfold toggleAll at he
  obtain ⟨x, _, rfl⟩ := List.mem_map.mp he
  by_cases hx : x.dest = tgt
  · simp [hx]
  · simp [hx] at hd

/-! ## `addEdge` (C11) -/

theorem addEdge_shape (g : Graph) (a b : String) (c : Int) :
    addEdge g a b c = g ∨
      ∃ f1 f2, addEdge g a b c
        = mapHead (mapHead g (getRouterIndex g a) f1) (getRouterIndex g b) f2 := by
  unfold addEdge
  simp only
  split
  · exact Or.inl rfl
  · split
    · exact Or.inl rfl
    · split
      · exact Or.inr ⟨_, _, rfl⟩
      · exact Or.inr ⟨_, _, rfl⟩

theorem addEdge_labels (g : Graph) (a b : String) (c : Int) :
    labels (addEdge g a b c) = labels g := by
  rcases addEdge_shape g a b c with h | ⟨f1, f2, h⟩
  · rw [h]
  · rw [h, mapHead_labels, mapHead_labels]

/-- The two branches of `addEdge` for two known, different routers. -/
theorem addEdge_eq {g : Graph} {a b : String} {c u v : Int}
    (hu : getRouterIndex g a = u) (hv : getRouterIndex g b = v)
    (hu1 : u ≠ -1) (hv1 : v ≠ -1) (huv : u ≠ v) :
    addEdge g a b c =
      if (hasDest v (headOf g u) || hasDest u (headOf g v)) = true then
        mapHead (mapHead g u (updateFirst v c true)) v (updateFirst u c true)
      else
        mapHead (mapHead g u (fun es => ⟨v, c, c, true⟩ :: es)) v
          (fun es => ⟨u, c, c, true⟩ :: es) := by
  unfold addEdge updateEdgeCost
  simp only [hu, hv]
  rw [if_neg (by simp [hu1, hv1]), if_neg huv, headOf_mapHead_ne g _ huv]

theorem halves_hasDest {g : Graph} (hh : HalvesAgree g) {u v : Int} {r : Router}
    (hr : getAt g.nodes u = some r) (h : hasDest v (headOf g u) = true) :
    hasDest u (headOf g v) = true := by
  have hb := getAt_some_bounds hr
  obtain ⟨e, he, hev⟩ := hasDest_eq_true.mp h
  have hlt : u.toNat < g.nodes.length := by omega
  have hcast : ((u.toNat : Nat) : Int) = u := by omega
  have := hh u.toNat hlt e (by rw [hcast]; exact he)
  obtain ⟨e2, he2, hd, _⟩ := this
  rw [hev, hcast] at *
  exact hasDest_eq_true.mpr ⟨e2, he2, hd⟩

theorem head_nodup {g : Graph} (h1 : OneRecordPerDest g) (u : Int) :
    ((headOf g u).map EdgeNode.dest).Nodup := by
  unfold headOf
  split
  · simp
  · rename_i r hr
    exact h1 r (getAt_mem hr)

theorem filter_eq_nil_of_not_hasDest {tgt : Int} {l : List EdgeNode}
    (h : hasDest tgt l = false) : l.filter (fun e => decide (e.dest = tgt)) = [] := by
  rw [hasDest_eq_false] at h
  apply List.filter_eq_nil_iff.mpr
  intro e he
  simp [h e he]

/-- C11: on a well-formed store, for two distinct existing router names `a`, `b` at
slots `u`, `v` and every integer `c`, after `addEdge(a, b, c)` router `a` holds exactly
one record for `b` and router `b` exactly one for `a`, both with `cost = c` and
`originalCost = c`, whose up flag is `c != INT_MAX` if a link between them existed
before and `true` otherwise; all other records and every router name and up flag are
as before. -/
theorem addEdge_spec (g : Graph) (hwf : WellFormed g) (a b : String) (c u v : Int)
    (hu : getRouterIndex g a = u) (hv : getRouterIndex g b = v)
    (hu1 : u ≠ -1) (hv1 : v ≠ -1) (hab : a ≠ b) :
    labels (addEdge g a b c) = labels g ∧
    recordsFor (addEdge g a b c) u v
      = [⟨v, c, c, if hasDest v (headOf g u) = true then decide (c ≠ INT_MAX) else true⟩] ∧
    recordsFor (addEdge g a b c) v u
      = [⟨u, c, c, if hasDest v (headOf g u) = true then decide (c ≠ INT_MAX) else true⟩] ∧
    recordsNotFor (addEdge g a b c) u v = recordsNotFor g u v ∧
    recordsNotFor (addEdge g a b c) v u = recordsNotFor g v u ∧
    ∀ w, w ≠ u → w ≠ v → headOf (addEdge g a b c) w = headOf g w := by
  obtain ⟨ru, hru, hrua⟩ := getRouterIndex_valid hu hu1
  obtain ⟨rv, hrv, hrvb⟩ := getRouterIndex_valid hv hv1
  have huv : u ≠ v := by
    intro h
    rw [h, hrv] at hru
    cases hru
    exact hab (hrua.symm.trans hrvb)
  refine ⟨addEdge_labels g a b c, ?_⟩
  rw [addEdge_eq hu hv hu1 hv1 huv]
  by_cases hl : hasDest v (headOf g u) = true
  · have hl2 := halves_hasDest hwf.2.1 hru hl
    simp only [hl, hl2, Bool.or_self, if_true]
    obtain ⟨rv2, hrv2⟩ := getAt_mapHead_isSome (i := u) (f := updateFirst v c true) hrv
    have hheadu : headOf (mapHead (mapHead g u (updateFirst v c true)) v (updateFirst u c true)) u
        = updateFirst v c true (headOf g u) := by
      rw [headOf_mapHead_ne _ _ (Ne.symm huv), headOf_mapHead_self _ hru]
    have hheadv : headOf (mapHead (mapHead g u (updateFirst v c true)) v (updateFirst u c true)) v
        = updateFirst u c true (headOf g v) := by
      rw [headOf_mapHead_self _ hrv2, headOf_mapHead_ne _ _ huv]
    refine ⟨?_, ?_, ?_, ?_, ?_⟩
    · unfold recordsFor
      rw [hheadu, updateFirst_filter_eq (head_nodup hwf.2.2 u) hl]
    · unfold recordsFor
      rw [hheadv, updateFirst_filter_eq (head_nodup hwf.2.2 v) hl2]
    · unfold recordsNotFor
      rw [hheadu, updateFirst_filter_ne]
    · unfold recordsNotFor
      rw [hheadv, updateFirst_filter_ne]
    · intro w hwu hwv
      rw [headOf_mapHead_ne _ _ (Ne.symm hwv), headOf_mapHead_ne _ _ (Ne.symm hwu)]
  · have hl1 : hasDest v (headOf g u) = false := by simpa using hl
    have hl2 : hasDest u (headOf g v) = false := by
      cases h : hasDest u (headOf g v) with
      | false => rfl
      | true => exact absurd (halves_hasDest hwf.2.1 hrv h) hl
    simp only [hl1, hl2, Bool.or_self, Bool.false_eq_true, if_false]
    obtain ⟨rv2, hrv2⟩ := getAt_mapHead_isSome (i := u)
      (f := fun es => (⟨v, c, c, true⟩ : EdgeNode) :: es) hrv
    have hheadu : headOf (mapHead (mapHead g u (fun es => ⟨v, c, c, true⟩ :: es)) v
        (fun es => ⟨u, c, c, true⟩ :: es)) u = ⟨v, c, c, true⟩ :: headOf g u := by
      rw [headOf_mapHead_ne _ _ (Ne.symm huv), headOf_mapHead_self _ hru]
    have hheadv : headOf (mapHead (mapHead g u (fun es => ⟨v, c, c, true⟩ :: es)) v
        (fun es => ⟨u, c, c, true⟩ :: es)) v = ⟨u, c, c, true⟩ :: headOf g v := by
      rw [headOf_mapHead_self _ hrv2, headOf_mapHead_ne _ _ huv]
    refine ⟨?_, ?_, ?_, ?_, ?_⟩
    · unfold recordsFor
      rw [hheadu]
      simp [filter_eq_nil_of_not_hasDest hl1]
    · unfold recordsFor
      rw [hheadv]
      simp [filter_eq_nil_of_not_hasDest hl2]
    · unfold recordsNotFor
      rw [hheadu]
      simp
    · unfold recordsNotFor
      rw [hheadv]
      simp
    · intro w hwu hwv
      rw [headOf_mapHead_ne _ _ (Ne.symm hwv), headOf_mapHead_ne _ _ (Ne.symm hwu)]

/-- C11 at a concrete store: a second `addEdge` on the linked pair `R1`, `R2` of the
three routers, with cost `INT_MAX`. -/
theorem addEdge_spec_witness :
    WellFormed threeRouters ∧ getRouterIndex threeRouters "R1" = 1 ∧
      getRouterIndex threeRouters "R2" = 2 ∧
      recordsFor (addEdge threeRouters "R1" "R2" INT_MAX) 1 2 = [⟨2, INT_MAX, INT_MAX, false⟩] ∧
      recordsFor (addEdge threeRouters "R1" "R2" INT_MAX) 2 1 = [⟨1, INT_MAX, INT_MAX, false⟩] :=
  ⟨by decide, by decide, by decide,
    (addEdge_spec threeRouters (by decide) "R1" "R2" INT_MAX 1 2 (by decide) (by decide)
      (by decide) (by decide) (by decide)).2.1,
    (addEdge_spec threeRouters (by decide) "R1" "R2" INT_MAX 1 2 (by decide) (by decide)
      (by decide) (by decide) (by decide)).2.2.1⟩

/-! ## No duplicate link records (C12) -/

/-- Rewriting the adjacency list of one slot keeps a property of all adjacency lists
if the rewrite keeps it on the list of that slot. -/
theorem mapHead_allHeads {P : List EdgeNode → Prop} {g : Graph} {i : Int}
    {f : List EdgeNode → List EdgeNode} (hg : ∀ r ∈ g.nodes, P r.head)
    (hf : P (headOf g i) → P (f (headOf g i))) :
    ∀ r ∈ (mapHead g i f).nodes, P r.head := by
  intro r hr
  unfold mapHead at hr
  split at hr
  · exact hg r hr
  · rename_i r0 hr0
    rcases mem_setAt hr with h | h
    · subst h
      have := hf (by rw [headOf_of_getAt hr0]; exact hg r0 (getAt_mem hr0))
      rw [headOf_of_getAt hr0] at this
      exact this
    · exact hg r h

theorem mapHead_destTable {g : Graph} {i : Int} {f : List EdgeNode → List EdgeNode}
    (hf : ∀ l, (f l).map EdgeNode.dest = l.map EdgeNode.dest) :
    destTable (mapHead g i f) = destTable g := by
  unfold mapHead
  split
  · rfl
  · rename_i r hr
    have hb := getAt_some_bounds hr
    have hr2 := getAt_toNat hr
    have hlt : i.toNat < g.nodes.length := by omega
    have hr3 : g.nodes[i.toNat] = r := by
      rw [List.getElem?_eq_getElem hlt] at hr2
      exact Option.some.inj hr2
    simp only [destTable, setAt, if_pos hb.1, List.map_set]
    apply List.ext_getElem?
    intro j
    rw [List.getElem?_set]
    split
    · rename_i hij
      subst hij
      simp [hlt, hr3, hf]
    · rfl

theorem oneRecord_mapHead {g : Graph} {i : Int} {f : List EdgeNode → List EdgeNode}
    (hg : OneRecordPerDest g)
    (hf : ((headOf g i).map EdgeNode.dest).Nodup → ((f (headOf g i)).map EdgeNode.dest).Nodup) :
    OneRecordPerDest (mapHead g i f) :=
  mapHead_allHeads (P := fun l => (l.map EdgeNode.dest).Nodup) hg hf

theorem oneRecord_removeEdge {g : Graph} (hg : OneRecordPerDest g) (a b : String) :
    OneRecordPerDest (removeEdge g a b) := by
  unfold removeEdge
  simp only
  split
  · exact hg
  · apply oneRecord_mapHead (oneRecord_mapHead hg _)
    · exact fun h => ((removeFirst_sublist _ _).map _).nodup h
    · exact fun h => ((removeFirst_sublist _ _).map _).nodup h

theorem oneRecord_toggleLink {g : Graph} (hg : OneRecordPerDest g) (a b : String)
    (up : Bool) : OneRecordPerDest (toggleLink g a b up) := by
  unfold toggleLink
  simp only
  split
  · exact hg
  · apply oneRecord_mapHead (oneRecord_mapHead hg _)
    · intro h; rw [toggleAll_map_dest]; exact h
    · intro h; rw [toggleAll_map_dest]; exact h

theorem oneRecord_addRouter {g : Graph} (hg : OneRecordPerDest g) (name : String) :
    OneRecordPerDest (addRouter g name) := by
  intro r hr
  unfold addRouter at hr
  by_cases h1 : g.nodes.length ≥ MAX_V
  · rw [if_pos h1] at hr; exact hg r hr
  · rw [if_neg h1] at hr
    simp only at hr
    generalize (if name.isEmpty = true then "R" ++ toString g.nodes.length else name) = rn at hr
    by_cases h2 : getRouterIndex g rn ≠ -1
    · rw [if_pos h2] at hr; exact hg r hr
    · rw [if_neg h2] at hr
      rcases List.mem_append.mp hr with hr | hr
      · exact hg r hr
      · simp only [List.mem_singleton] at hr
        subst hr
        simp

theorem oneRecord_toggleRouterStatus {g : Graph} (hg : OneRecordPerDest g) (name : String) :
    OneRecordPerDest (toggleRouterStatus g name) := by
  intro r hr
  unfold toggleRouterStatus at hr
  simp only at hr
  split at hr
  · exact hg r hr
  · split at hr
    · exact hg r hr
    · rename_i r0 hr0
      rcases mem_setAt hr with h | h
      · subst h
        exact hg r0 (getAt_mem hr0)
      · exact hg r h

theorem oneRecord_removeIncoming_foldl {name : String} {idx : Int} :
    ∀ (is : List Nat) (g : Graph), OneRecordPerDest g →
      OneRecordPerDest (is.foldl (removeIncoming name idx) g)
  | [], _, h => h
  | i :: is, g, h => by
    rw [List.foldl_cons]
    apply oneRecord_removeIncoming_foldl is
    unfold removeIncoming
    split
    · exact h
    · split
      · exact h
      · exact oneRecord_removeEdge h _ _

theorem oneRecord_removeRouter {g : Graph} (hg : OneRecordPerDest g) (name : String) :
    OneRecordPerDest (removeRouter g name) := by
  unfold removeRouter
  simp only
  split
  · exact hg
  · intro r hr
    exact oneRecord_removeIncoming_foldl _ g hg r (List.mem_of_mem_eraseIdx hr)

theorem oneRecord_addEdge {g : Graph} (hg : OneRecordPerDest g) (a b : String) (c : Int) :
    OneRecordPerDest (addEdge g a b c) := by
  by_cases hbad : getRouterIndex g a = -1 ∨ getRouterIndex g b = -1
  · unfold addEdge
    simp only [if_pos hbad]
    exact hg
  · by_cases huv : getRouterIndex g a = getRouterIndex g b
    · unfold addEdge
      simp only [if_neg hbad, if_pos huv]
      exact hg
    · have hu1 : getRouterIndex g a ≠ -1 := fun h => hbad (Or.inl h)
      have hv1 : getRouterIndex g b ≠ -1 := fun h => hbad (Or.inr h)
      rw [addEdge_eq rfl rfl hu1 hv1 huv]
      split
      · apply oneRecord_mapHead (oneRecord_mapHead hg _)
        · intro h; rw [updateFirst_map_dest]; exact h
        · intro h; rw [updateFirst_map_dest]; exact h
      · rename_i hno
        simp only [Bool.or_eq_true, not_or, Bool.not_eq_true] at hno
        apply oneRecord_mapHead (oneRecord_mapHead hg _)
        · intro h
          rw [headOf_mapHead_ne _ _ huv] at h ⊢
          simp only [List.map_cons, List.nodup_cons]
          refine ⟨?_, h⟩
          intro hm
          have := hasDest_iff_mem.mpr hm
          rw [hno.2] at this
          cases this
        · intro h
          simp only [List.map_cons, List.nodup_cons]
          refine ⟨?_, h⟩
          intro hm
          have := hasDest_iff_mem.mpr hm
          rw [hno.1] at this
          cases this

theorem reachable_oneRecord {g : Graph} (h : Reachable g) : OneRecordPerDest g := by
  induction h with
  | empty => intro r hr; simp [emptyGraph] at hr
  | addRouter g name _ ih => exact oneRecord_addRouter ih name
  | removeRouter g name _ ih => exact oneRecord_removeRouter ih name
  | addEdge g a b c _ _ _ ih => exact oneRecord_addEdge ih a b c
  | removeEdge g a b _ ih => exact oneRecord_removeEdge ih a b
  | toggleRouterStatus g name _ ih => exact oneRecord_toggleRouterStatus ih name
  | toggleLink g a b up _ ih => exact oneRecord_toggleLink ih a b up

/-- After a call of `addEdge` that got past its checks, one of the two routers holds a
record for the other. -/
theorem addEdge_linked {g : Graph} {a b : String} {c u v : Int}
    (hu : getRouterIndex g a = u) (hv : getRouterIndex g b = v)
    (hu1 : u ≠ -1) (hv1 : v ≠ -1) (huv : u ≠ v) :
    (hasDest v (headOf (addEdge g a b c) u) || hasDest u (headOf (addEdge g a b c) v))
      = true := by
  obtain ⟨ru, hru, _⟩ := getRouterIndex_valid hu hu1
  obtain ⟨rv, hrv, _⟩ := getRouterIndex_valid hv hv1
  rw [addEdge_eq hu hv hu1 hv1 huv]
  split
  · rename_i hl
    obtain ⟨rv2, hrv2⟩ := getAt_mapHead_isSome (i := u) (f := updateFirst v c true) hrv
    rw [headOf_mapHead_ne _ _ (Ne.symm huv), headOf_mapHead_self _ hru,
      headOf_mapHead_self _ hrv2, headOf_mapHead_ne _ _ huv]
    simp only [Bool.or_eq_true] at hl ⊢
    rcases hl with hl | hl
    · left
      rw [hasDest_iff_mem, updateFirst_map_dest, ← hasDest_iff_mem]
      exact hl
    · right
      rw [hasDest_iff_mem, updateFirst_map_dest, ← hasDest_iff_mem]
      exact hl
  · rw [headOf_mapHead_ne _ _ (Ne.symm huv), headOf_mapHead_self _ hru]
    simp [hasDest]

/-- A call of `addEdge` on a pair one of whose routers holds a record for the other
rewrites records in place: the `dest` fields of all adjacency lists stay as they are. -/
theorem addEdge_destTable_of_linked {g : Graph} {a b : String} {c u v : Int}
    (hu : getRouterIndex g a = u) (hv : getRouterIndex g b = v)
    (hu1 : u ≠ -1) (hv1 : v ≠ -1) (huv : u ≠ v)
    (hl : (hasDest v (headOf g u) || hasDest u (headOf g v)) = true) :
    destTable (addEdge g a b c) = destTable g := by
  rw [addEdge_eq hu hv hu1 hv1 huv, if_pos hl,
    mapHead_destTable (updateFirst_map_dest _ _ _),
    mapHead_destTable (updateFirst_map_dest _ _ _)]

theorem addEdge_fail {g : Graph} {a b : String} (c : Int)
    (h : getRouterIndex g a = -1 ∨ getRouterIndex g b = -1 ∨
      getRouterIndex g a = getRouterIndex g b) : addEdge g a b c = g := by
  unfold addEdge
  simp only
  by_cases hbad : getRouterIndex g a = -1 ∨ getRouterIndex g b = -1
  · rw [if_pos hbad]
  · rw [if_neg hbad]
    have huv : getRouterIndex g a = getRouterIndex g b := by
      rcases h with h | h | h
      · exact absurd (Or.inl h) hbad
      · exact absurd (Or.inr h) hbad
      · exact h
    rw [if_pos huv]

/-- The second of two `addEdge` calls on the same pair of names adds no record. -/
theorem addEdge_twice_destTable (g : Graph) (a b : String) (c c2 : Int) :
    destTable (addEdge (addEdge g a b c) a b c2) = destTable (addEdge g a b c) := by
  by_cases hfail : getRouterIndex g a = -1 ∨ getRouterIndex g b = -1 ∨
      getRouterIndex g a = getRouterIndex g b
  · rw [addEdge_fail c hfail, addEdge_fail c2 hfail]
  · have hia : getRouterIndex (addEdge g a b c) a = getRouterIndex g a :=
      getRouterIndex_congr (addEdge_labels g a b c) a
    have hib : getRouterIndex (addEdge g a b c) b = getRouterIndex g b :=
      getRouterIndex_congr (addEdge_labels g a b c) b
    have hu1 : getRouterIndex g a ≠ -1 := fun h => hfail (Or.inl h)
    have hv1 : getRouterIndex g b ≠ -1 := fun h => hfail (Or.inr (Or.inl h))
    have huv : getRouterIndex g a ≠ getRouterIndex g b :=
      fun h => hfail (Or.inr (Or.inr h))
    exact addEdge_destTable_of_linked hia hib hu1 hv1 huv
      (addEdge_linked rfl rfl hu1 hv1 huv)

/-- C12: in every store reachable from the empty store through the public mutators
each adjacency list holds at most one record for any given `dest`, and a repeated
`addEdge` on the same pair of names leaves the `dest` fields of all adjacency lists as
they are, so it updates the link instead of adding a second one. -/
theorem no_duplicate_records (g : Graph) (h : Reachable g) :
    OneRecordPerDest g ∧
    ∀ (a b : String) (c c2 : Int),
      destTable (addEdge (addEdge g a b c) a b c2) = destTable (addEdge g a b c) :=
  ⟨reachable_oneRecord h, fun a b c c2 => addEdge_twice_destTable g a b c c2⟩

/-- C12 at a concrete reachable store: the three routers with the link `R1 - R2`. -/
theorem no_duplicate_records_witness :
    Reachable threeRouters ∧ OneRecordPerDest threeRouters ∧
      destTable (addEdge (addEdge threeRouters "R1" "R2" 5) "R1" "R2" 9)
        = destTable (addEdge threeRouters "R1" "R2" 5) :=
  ⟨reachable_threeRouters, (no_duplicate_records threeRouters reachable_threeRouters).1,
    (no_duplicate_records threeRouters reachable_threeRouters).2 "R1" "R2" 5 9⟩

/-! ## `removeEdge` (C13) -/

theorem removeEdge_eq {g : Graph} {a b : String} {u v : Int}
    (hu : getRouterIndex g a = u) (hv : getRouterIndex g b = v)
    (hu1 : u ≠ -1) (hv1 : v ≠ -1) :
    removeEdge g a b = mapHead (mapHead g u (removeFirst v)) v (removeFirst u) := by
  unfold removeEdge
  simp only [hu, hv]
  rw [if_neg (by simp [hu1, hv1])]

theorem removeEdge_fail {g : Graph} {a b : String}
    (h : getRouterIndex g a = -1 ∨ getRouterIndex g b = -1) : removeEdge g a b = g := by
  unfold removeEdge
  simp only [if_pos h]

theorem filter_ne_filter_ne (tgt : Int) (l : List EdgeNode) :
    (l.filter (fun e => !decide (e.dest = tgt))).filter (fun e => !decide (e.dest = tgt))
      = l.filter (fun e => !decide (e.dest = tgt)) := by
  rw [List.filter_filter]
  simp

theorem filter_eq_filter_ne (tgt : Int) (l : List EdgeNode) :
    (l.filter (fun e => !decide (e.dest = tgt))).filter (fun e => decide (e.dest = tgt))
      = [] := by
  rw [List.filter_filter]
  apply List.filter_eq_nil_iff.mpr
  intro e _
  simp

theorem not_hasDest_filter_ne (tgt : Int) (l : List EdgeNode) :
    hasDest tgt (l.filter (fun e => !decide (e.dest = tgt))) = false := by
  rw [hasDest_eq_false]
  intro e he
  have := (List.mem_filter.mp he).2
  simpa using this

/-- The adjacency lists of the two ends after `removeEdge` on a store with one record
per `dest`. -/
theorem removeEdge_heads {g : Graph} (h1 : OneRecordPerDest g) {a b : String} {u v : Int}
    (hu : getRouterIndex g a = u) (hv : getRouterIndex g b = v)
    (hu1 : u ≠ -1) (hv1 : v ≠ -1) :
    headOf (removeEdge g a b) u = (headOf g u).filter (fun e => !decide (e.dest = v)) ∧
    headOf (removeEdge g a b) v = (headOf g v).filter (fun e => !decide (e.dest = u)) := by
  obtain ⟨ru, hru, _⟩ := getRouterIndex_valid hu hu1
  obtain ⟨rv, hrv, _⟩ := getRouterIndex_valid hv hv1
  obtain ⟨rv2, hrv2⟩ := getAt_mapHead_isSome (i := u) (f := removeFirst v) hrv
  rw [removeEdge_eq hu hv hu1 hv1]
  by_cases huv : u = v
  · subst huv
    have : headOf (mapHead (mapHead g u (removeFirst u)) u (removeFirst u)) u
        = (headOf g u).filter (fun e => !decide (e.dest = u)) := by
      rw [headOf_mapHead_self _ hrv2, headOf_mapHead_self _ hru,
        removeFirst_eq_filter (head_nodup h1 u),
        removeFirst_of_not_hasDest (not_hasDest_filter_ne _ _)]
    exact ⟨this, this⟩
  · constructor
    · rw [headOf_mapHead_ne _ _ (Ne.symm huv), headOf_mapHead_self _ hru,
        removeFirst_eq_filter (head_nodup h1 u)]
    · rw [headOf_mapHead_self _ hrv2, headOf_mapHead_ne _ _ huv,
        removeFirst_eq_filter (head_nodup h1 v)]

/-- C13: on a well-formed store, for existing router names `a`, `b` at slots `u`, `v`,
after `removeEdge(a, b)` router `a` holds no record for `b` and router `b` none for
`a`; every other record, every router name and up flag and the router count are as
before; and when neither held a record for the other the store is exactly as it was. -/
theorem removeEdge_spec (g : Graph) (hwf : WellFormed g) (a b : String) (u v : Int)
    (hu : getRouterIndex g a = u) (hv : getRouterIndex g b = v)
    (hu1 : u ≠ -1) (hv1 : v ≠ -1) :
    labels (removeEdge g a b) = labels g ∧
    (removeEdge g a b).nodes.length = g.nodes.length ∧
    recordsFor (removeEdge g a b) u v = [] ∧
    recordsFor (removeEdge g a b) v u = [] ∧
    recordsNotFor (removeEdge g a b) u v = recordsNotFor g u v ∧
    recordsNotFor (removeEdge g a b) v u = recordsNotFor g v u ∧
    (∀ w, w ≠ u → w ≠ v → headOf (removeEdge g a b) w = headOf g w) ∧
    (hasDest v (headOf g u) = false → hasDest u (headOf g v) = false →
      removeEdge g a b = g) := by
  obtain ⟨h1, h2⟩ := removeEdge_heads hwf.2.2 hu hv hu1 hv1
  refine ⟨removeEdge_labels g a b, ?_, ?_, ?_, ?_, ?_, ?_, ?_⟩
  · rw [← labels_length, removeEdge_labels, labels_length]
  · unfold recordsFor
    rw [h1, filter_eq_filter_ne]
  · unfold recordsFor
    rw [h2, filter_eq_filter_ne]
  · unfold recordsNotFor
    rw [h1, filter_ne_filter_ne]
  · unfold recordsNotFor
    rw [h2, filter_ne_filter_ne]
  · intro w hwu hwv
    rw [removeEdge_eq hu hv hu1 hv1, headOf_mapHead_ne _ _ (Ne.symm hwv),
      headOf_mapHead_ne _ _ (Ne.symm hwu)]
  · intro hn1 hn2
    have e1 : mapHead g u (removeFirst v) = g :=
      mapHead_id (removeFirst_of_not_hasDest hn1)
    rw [removeEdge_eq hu hv hu1 hv1, e1]
    exact mapHead_id (removeFirst_of_not_hasDest hn2)

/-- C13 at a concrete store: removing the link `R1 - R2` of the three routers in a row. -/
theorem removeEdge_spec_witness :
    WellFormed lineStore ∧ getRouterIndex lineStore "R1" = 1 ∧
      getRouterIndex lineStore "R2" = 2 ∧
      recordsFor (removeEdge lineStore "R1" "R2") 1 2 = [] ∧
      recordsFor (removeEdge lineStore "R1" "R2") 2 1 = [] ∧
      recordsNotFor (removeEdge lineStore "R1" "R2") 1 2 = [⟨0, 5, 5, true⟩] :=
  ⟨by decide, by decide, by decide,
    (removeEdge_spec lineStore (by decide) "R1" "R2" 1 2 (by decide) (by decide)
      (by decide) (by decide)).2.2.1,
    (removeEdge_spec lineStore (by decide) "R1" "R2" 1 2 (by decide) (by decide)
      (by decide) (by decide)).2.2.2.1,
    (removeEdge_spec lineStore (by decide) "R1" "R2" 1 2 (by decide) (by decide)
      (by decide) (by decide)).2.2.2.2.1⟩

/-! ## `toggleLink` (C14, C15) -/

theorem mem_updateFirst_true {tgt c : Int} : ∀ {l : List EdgeNode} {e : EdgeNode},
    e ∈ updateFirst tgt c true l → e ∈ l ∨ (e.cost = c ∧ e.originalCost = c)
  | [], _, h => by simp [updateFirst] at h
  | x :: xs, e, h => by
    unfold updateFirst at h
    split at h
    · rcases List.mem_cons.mp h with h | h
      · right; rw [h]; exact ⟨rfl, rfl⟩
      · exact Or.inl (List.mem_cons_of_mem _ h)
    · rcases List.mem_cons.mp h with h | h
      · left; rw [h]; exact List.mem_cons_self _ _
      · rcases mem_updateFirst_true h with h2 | h2
        · exact Or.inl (List.mem_cons_of_mem _ h2)
        · exact Or.inr h2

theorem addEdge_records_orig {g : Graph} {a b : String} {c : Int} {e : EdgeNode}
    (h : RecordOf (addEdge g a b c) e) :
    RecordOf g e ∨ (e.cost = c ∧ e.originalCost = c) := by
  by_cases hfail : getRouterIndex g a = -1 ∨ getRouterIndex g b = -1 ∨
      getRouterIndex g a = getRouterIndex g b
  · rw [addEdge_fail c hfail] at h
    exact Or.inl h
  · have hu1 : getRouterIndex g a ≠ -1 := fun h => hfail (Or.inl h)
    have hv1 : getRouterIndex g b ≠ -1 := fun h => hfail (Or.inr (Or.inl h))
    have huv : getRouterIndex g a ≠ getRouterIndex g b :=
      fun h => hfail (Or.inr (Or.inr h))
    rw [addEdge_eq rfl rfl hu1 hv1 huv] at h
    split at h
    · rcases mapHead_records (fun l e he => mem_updateFirst_true he) h with h1 | h1
      · exact mapHead_records (fun l e he => mem_updateFirst_true he) h1
      · exact Or.inr h1
    · have hf : ∀ (w : Int) (l : List EdgeNode) (x : EdgeNode),
          x ∈ (⟨w, c, c, true⟩ : EdgeNode) :: l →
            x ∈ l ∨ (x.cost = c ∧ x.originalCost = c) := by
        intro w l x hx
        rcases List.mem_cons.mp hx with hx | hx
        · right; rw [hx]; exact ⟨rfl, rfl⟩
        · exact Or.inl hx
      rcases mapHead_records (hf _) h with h1 | h1
      · exact mapHead_records (hf _) h1
      · exact Or.inr h1

/-- In every reachable store a record that is marked up carries its original cost. -/
theorem reachable_upHasOriginal {g : Graph} (h : Reachable g) : UpHasOriginal g := by
  induction h with
  | empty =>
    intro e he
    obtain ⟨r, hr, _⟩ := he
    simp [emptyGraph] at hr
  | addRouter g name _ ih => exact fun e he => ih e (addRouter_records he)
  | removeRouter g name _ ih => exact fun e he => ih e (removeRouter_records he)
  | addEdge g a b c _ _ _ ih =>
    intro e he hup
    rcases addEdge_records_orig he with h1 | ⟨h1, h2⟩
    · exact ih e h1 hup
    · rw [h1, h2]
  | removeEdge g a b _ ih => exact fun e he => ih e (removeEdge_records he)
  | toggleRouterStatus g name _ ih => exact fun e he => ih e (toggleRouterStatus_records he)
  | toggleLink g a b up _ ih =>
    intro e he hup
    rcases toggleLink_records he with h1 | ⟨h1, h2⟩
    · exact ih e h1 hup
    · rw [hup] at h1
      rw [← h1] at h2
      simpa using h2

theorem toggleLink_eq {g : Graph} {a b : String} {u v : Int} (up : Bool)
    (hu : getRouterIndex g a = u) (hv : getRouterIndex g b = v)
    (hu1 : u ≠ -1) (hv1 : v ≠ -1) :
    toggleLink g a b up = mapHead (mapHead g u (toggleAll v up)) v (toggleAll u up) := by
  unfold toggleLink
  simp only [hu, hv]
  rw [if_neg (by simp [hu1, hv1])]

theorem toggleLink_fail {g : Graph} {a b : String} (up : Bool)
    (h : getRouterIndex g a = -1 ∨ getRouterIndex g b = -1) : toggleLink g a b up = g := by
  unfold toggleLink
  simp only [if_pos h]

theorem toggleLink_labels (g : Graph) (a b : String) (up : Bool) :
    labels (toggleLink g a b up) = labels g := by
  unfold toggleLink
  simp only
  split
  · rfl
  · rw [mapHead_labels, mapHead_labels]

/-- The adjacency lists after `toggleLink` on two known names. -/
theorem toggleLink_heads {g : Graph} {a b : String} {u v : Int} (up : Bool)
    (hu : getRouterIndex g a = u) (hv : getRouterIndex g b = v)
    (hu1 : u ≠ -1) (hv1 : v ≠ -1) :
    headOf (toggleLink g a b up) u = toggleAll v up (headOf g u) ∧
    headOf (toggleLink g a b up) v = toggleAll u up (headOf g v) ∧
    ∀ w, w ≠ u → w ≠ v → headOf (toggleLink g a b up) w = headOf g w := by
  obtain ⟨ru, hru, _⟩ := getRouterIndex_valid hu hu1
  obtain ⟨rv, hrv, _⟩ := getRouterIndex_valid hv hv1
  obtain ⟨rv2, hrv2⟩ := getAt_mapHead_isSome (i := u) (f := toggleAll v up) hrv
  rw [toggleLink_eq up hu hv hu1 hv1]
  refine ⟨?_, ?_, ?_⟩
  · by_cases huv : u = v
    · subst huv
      rw [headOf_mapHead_self _ hrv2, headOf_mapHead_self _ hru, toggleAll_toggleAll]
    · rw [headOf_mapHead_ne _ _ (Ne.symm huv), headOf_mapHead_self _ hru]
  · by_cases huv : u = v
    · subst huv
      rw [headOf_mapHead_self _ hrv2, headOf_mapHead_self _ hru, toggleAll_toggleAll]
    · rw [headOf_mapHead_self _ hrv2, headOf_mapHead_ne _ _ huv]
  · intro w hwu hwv
    rw [headOf_mapHead_ne _ _ (Ne.symm hwv), headOf_mapHead_ne _ _ (Ne.symm hwu)]

theorem recordOf_of_headOf {g : Graph} {u : Int} {e : EdgeNode} (he : e ∈ headOf g u) :
    RecordOf g e := by
  obtain ⟨r, _, hr, her⟩ := headOf_mem_nodes he
  exact ⟨r, hr, her⟩

/-- C14: in a reachable store, for existing router names `a`, `b` at slots `u`, `v`
whose link is up (every record either router holds for the other has `up = true`),
`toggleLink(a, b, false)` followed by `toggleLink(a, b, true)` gives back exactly the
store before the two calls: the halves are up again with `cost` equal to their
`originalCost`, and every shortest cost and path is what it was. -/
theorem toggleLink_round_trip (g : Graph) (hr : Reachable g) (a b : String) (u v : Int)
    (hu : getRouterIndex g a = u) (hv : getRouterIndex g b = v)
    (hu1 : u ≠ -1) (hv1 : v ≠ -1)
    (hup1 : ∀ e ∈ headOf g u, e.dest = v → e.up = true)
    (hup2 : ∀ e ∈ headOf g v, e.dest = u → e.up = true) :
    toggleLink (toggleLink g a b false) a b true = g ∧
    (∀ e ∈ recordsFor (toggleLink (toggleLink g a b false) a b true) u v ++
        recordsFor (toggleLink (toggleLink g a b false) a b true) v u,
      e.up = true ∧ e.cost = e.originalCost) ∧
    ∀ s d,
      dijkstra (toggleLink (toggleLink g a b false) a b true) s d true
        = dijkstra g s d true ∧
      findShortestPath (toggleLink (toggleLink g a b false) a b true) s d
        = findShortestPath g s d := by
  have horig := reachable_upHasOriginal hr
  have hu2 : getRouterIndex (toggleLink g a b false) a = u :=
    (getRouterIndex_congr (toggleLink_labels g a b false) a).trans hu
  have hv2 : getRouterIndex (toggleLink g a b false) b = v :=
    (getRouterIndex_congr (toggleLink_labels g a b false) b).trans hv
  obtain ⟨a1, a2, a3⟩ := toggleLink_heads false hu hv hu1 hv1
  obtain ⟨b1, b2, b3⟩ := toggleLink_heads true hu2 hv2 hu1 hv1
  have key : toggleLink (toggleLink g a b false) a b true = g := by
    apply graph_ext
    · rw [toggleLink_labels, toggleLink_labels]
    · intro w
      by_cases hwu : w = u
      · subst hwu
        rw [b1, a1, toggleAll_toggleAll]
        exact toggleAll_true_id (fun e he hd =>
          ⟨hup1 e he hd, horig e (recordOf_of_headOf he) (hup1 e he hd)⟩)
      · by_cases hwv : w = v
        · subst hwv
          rw [b2, a2, toggleAll_toggleAll]
          exact toggleAll_true_id (fun e he hd =>
            ⟨hup2 e he hd, horig e (recordOf_of_headOf he) (hup2 e he hd)⟩)
        · rw [b3 w hwu hwv, a3 w hwu hwv]
  refine ⟨key, ?_, ?_⟩
  · rw [key]
    intro e he
    rcases List.mem_append.mp he with he | he
    · obtain ⟨h1, h2⟩ := List.mem_filter.mp he
      have hd : e.dest = v := by simpa using h2
      exact ⟨hup1 e h1 hd, horig e (recordOf_of_headOf h1) (hup1 e h1 hd)⟩
    · obtain ⟨h1, h2⟩ := List.mem_filter.mp he
      have hd : e.dest = u := by simpa using h2
      exact ⟨hup2 e h1 hd, horig e (recordOf_of_headOf h1) (hup2 e h1 hd)⟩
  · intro s d
    rw [key]
    exact ⟨rfl, rfl⟩

/-- C14 at a concrete reachable store: the link `R1 - R2` of the three routers. -/
theorem toggleLink_round_trip_witness :
    Reachable threeRouters ∧ getRouterIndex threeRouters "R1" = 1 ∧
      getRouterIndex threeRouters "R2" = 2 ∧
      toggleLink (toggleLink threeRouters "R1" "R2" false) "R1" "R2" true = threeRouters :=
  ⟨reachable_threeRouters, by decide, by decide,
    (toggleLink_round_trip threeRouters reachable_threeRouters "R1" "R2" 1 2 (by decide)
      (by decide) (by decide) (by decide) (by decide) (by decide)).1⟩

theorem destsValid_of_destTable {g g2 : Graph} (ht : destTable g2 = destTable g)
    (hl : g2.nodes.length = g.nodes.length) (h : DestsValid g) : DestsValid g2 := by
  intro r2 hr2 e he
  have hm : r2.head.map EdgeNode.dest ∈ destTable g2 :=
    List.mem_map.mpr ⟨r2, hr2, rfl⟩
  rw [ht] at hm
  obtain ⟨r, hr, hrr⟩ := List.mem_map.mp hm
  have hed : e.dest ∈ r.head.map EdgeNode.dest := by
    rw [hrr]; exact List.mem_map_of_mem _ he
  obtain ⟨e0, he0, hd0⟩ := List.mem_map.mp hed
  have := h r hr e0 he0
  rw [hd0] at this
  unfold Graph.V at this ⊢
  rw [hl]
  exact this

theorem toggleLink_destTable (g : Graph) (a b : String) (up : Bool) :
    destTable (toggleLink g a b up) = destTable g := by
  unfold toggleLink
  simp only
  split
  · rfl
  · rw [mapHead_destTable (toggleAll_map_dest _ _), mapHead_destTable (toggleAll_map_dest _ _)]

theorem toggleLink_length (g : Graph) (a b : String) (up : Bool) :
    (toggleLink g a b up).nodes.length = g.nodes.length := by
  rw [← labels_length, toggleLink_labels, labels_length]

/-- C15: on a well-formed store, for existing router names `a`, `b` at slots `u`, `v`,
after `toggleLink(a, b, false)` every query `findShortestPath(s, d)` with `s`, `d` in
range returns, and the returned sequence has the slots `u` and `v` nowhere as adjacent
elements, in either order. -/
theorem toggled_down_link_unused (g : Graph) (hwf : WellFormed g) (a b : String)
    (u v : Int) (hu : getRouterIndex g a = u) (hv : getRouterIndex g b = v)
    (hu1 : u ≠ -1) (hv1 : v ≠ -1) (s d : Int)
    (hs : ValidSlot (toggleLink g a b false) s) (hd : ValidSlot (toggleLink g a b false) d) :
    ∃ p, findShortestPath (toggleLink g a b false) s d = some p ∧
      ¬ [u, v] <:+: p ∧ ¬ [v, u] <:+: p := by
  have hdv : DestsValid (toggleLink g a b false) :=
    destsValid_of_destTable (toggleLink_destTable g a b false)
      (toggleLink_length g a b false) hwf.1
  obtain ⟨h1, h2, _⟩ := toggleLink_heads false hu hv hu1 hv1
  obtain ⟨st, _, inv, _, dd, _, _, hmaxcase, hpath⟩ := path_queries hdv hs hd
  by_cases hmax : dd = INT_MAX
  · refine ⟨[], (hmaxcase hmax).1, ?_, ?_⟩
    · intro h; simpa using h.length_le
    · intro h; simpa using h.length_le
  · obtain ⟨p, hc, _, _, hfsp, _⟩ := hpath hmax
    have hch := chain_chain' hc
    refine ⟨p, hfsp, ?_, ?_⟩
    · intro hin
      have hsub := List.Chain'.infix hch hin
      have hpair := List.chain'_pair.mp hsub
      obtain ⟨_, _, _, e, _, he, hev, hcost, _⟩ := inv.prev_ok v u hpair.1 hpair.2.1
      rw [h1] at he
      exact hcost (toggleAll_false_cost he hev)
    · intro hin
      have hsub := List.Chain'.infix hch hin
      have hpair := List.chain'_pair.mp hsub
      obtain ⟨_, _, _, e, _, he, hev, hcost, _⟩ := inv.prev_ok u v hpair.1 hpair.2.1
      rw [h2] at he
      exact hcost (toggleAll_false_cost he hev)

/-- C15 at a concrete store: with the link `R1 - R2` of the three routers in a row
down, the query from slot 0 to slot 2 returns the empty sequence. -/
theorem toggled_down_link_unused_witness :
    WellFormed lineStore ∧ getRouterIndex lineStore "R1" = 1 ∧
      getRouterIndex lineStore "R2" = 2 ∧
      findShortestPath lineStore 0 2 = some [0, 1, 2] ∧
      ∃ p, findShortestPath (toggleLink lineStore "R1" "R2" false) 0 2 = some p ∧
        ¬ [1, 2] <:+: p ∧ ¬ [2, 1] <:+: p :=
  ⟨by decide, by decide, by decide, by decide,
    toggled_down_link_unused lineStore (by decide) "R1" "R2" 1 2 (by decide) (by decide)
      (by decide) (by decide) 0 2 (by decide) (by decide)⟩

/-! ## `toggleRouterStatus` (C16) -/

theorem setAt_getAt_self {α : Type} {xs : List α} {i : Int} {x : α}
    (h : getAt xs i = some x) : setAt xs i x = xs := by
  have hb := getAt_some_bounds h
  have h2 := getAt_toNat h
  rw [setAt_toNat _ _ hb.1]
  apply List.ext_getElem?
  intro j
  rw [List.getElem?_set]
  split
  · rename_i hij
    subst hij
    have hlt : i.toNat < xs.length := by omega
    simp [hlt, h2]
  · rfl

theorem setAt_setAt {α : Type} (xs : List α) (i : Int) (x y : α) :
    setAt (setAt xs i x) i y = setAt xs i y := by
  unfold setAt
  split
  · exact List.set_set _ _ _ _
  · rfl

theorem toggleRouterStatus_eq {g : Graph} {r : String} {idx : Int} {r0 : Router}
    (hidx : getRouterIndex g r = idx) (h1 : idx ≠ -1) (hr0 : getAt g.nodes idx = some r0) :
    toggleRouterStatus g r = ⟨setAt g.nodes idx { r0 with up := !r0.up }⟩ := by
  unfold toggleRouterStatus
  simp only [hidx, if_neg h1, hr0]

theorem toggleRouterStatus_fail {g : Graph} {r : String} (h : getRouterIndex g r = -1) :
    toggleRouterStatus g r = g := by
  unfold toggleRouterStatus
  simp only [if_pos h]

theorem map_setAt_same {α β : Type} (f : α → β) {xs : List α} {i : Int} {x y : α}
    (h : getAt xs i = some x) (hf : f y = f x) : (setAt xs i y).map f = xs.map f := by
  have hb := getAt_some_bounds h
  have h2 := getAt_toNat h
  rw [setAt_toNat _ _ hb.1, List.map_set]
  apply List.ext_getElem?
  intro j
  rw [List.getElem?_set]
  split
  · rename_i hij
    subst hij
    have hlt : i.toNat < xs.length := by omega
    have h3 : xs[i.toNat] = x := by
      rw [List.getElem?_eq_getElem hlt] at h2
      exact Option.some.inj h2
    simp [hlt, h3, hf]
  · rfl

theorem toggleRouterStatus_names (g : Graph) (r : String) :
    (toggleRouterStatus g r).nodes.map Router.name = g.nodes.map Router.name := by
  unfold toggleRouterStatus
  simp only
  split
  · rfl
  · split
    · rfl
    · rename_i r0 hr0
      exact map_setAt_same Router.name hr0 rfl

theorem toggleRouterStatus_length (g : Graph) (r : String) :
    (toggleRouterStatus g r).nodes.length = g.nodes.length := by
  have := congrArg List.length (toggleRouterStatus_names g r)
  simpa using this

theorem getRouterIndex_of_names {g g2 : Graph}
    (h : g2.nodes.map Router.name = g.nodes.map Router.name) (n : String) :
    getRouterIndex g2 n = getRouterIndex g n :=
  findName_congr n _ _ 0 h

theorem scenario_cost : dijkstra scenario 0 3 true = some 40 := by decide

/-- C16: for every store and every existing router name `r`, found at slot `idx`,
`toggleRouterStatus(r)` negates the up flag of that router and keeps its name and
records, every other slot and the router count; two calls in a row give back exactly
the store before them, so every shortest cost is what it was, and in the spec scenario
the cost from `R0` to `R3` is 40 after `R1` was brought down and up again. -/
theorem toggleRouterStatus_spec (g : Graph) (r : String) (idx : Int)
    (hidx : getRouterIndex g r = idx) (h1 : idx ≠ -1) :
    (∃ r0, getAt g.nodes idx = some r0 ∧ r0.name = r ∧
      getAt (toggleRouterStatus g r).nodes idx = some { r0 with up := !r0.up }) ∧
    (∀ w, w ≠ idx → getAt (toggleRouterStatus g r).nodes w = getAt g.nodes w) ∧
    (toggleRouterStatus g r).nodes.length = g.nodes.length ∧
    toggleRouterStatus (toggleRouterStatus g r) r = g ∧
    (∀ s d, dijkstra (toggleRouterStatus (toggleRouterStatus g r) r) s d true
      = dijkstra g s d true) ∧
    dijkstra (toggleRouterStatus (toggleRouterStatus scenario "R1") "R1") 0 3 true
      = some 40 := by
  have round : ∀ (g : Graph) (r : String), getRouterIndex g r ≠ -1 →
      toggleRouterStatus (toggleRouterStatus g r) r = g := by
    intro g r hne
    obtain ⟨r0, hr0, _⟩ := getRouterIndex_valid rfl hne
    have hb := getAt_some_bounds hr0
    have e1 := toggleRouterStatus_eq rfl hne hr0
    have hidx2 : getRouterIndex (toggleRouterStatus g r) r = getRouterIndex g r :=
      getRouterIndex_of_names (toggleRouterStatus_names g r) r
    have hr1 : getAt (toggleRouterStatus g r).nodes (getRouterIndex g r)
        = some { r0 with up := !r0.up } := by
      rw [e1]
      exact getAt_setAt_self _ _ hb.1 hb.2
    rw [toggleRouterStatus_eq hidx2 hne hr1]
    cases g with
    | mk nodes =>
      congr 1
      rw [e1]
      simp only [setAt_setAt, Bool.not_not]
      exact setAt_getAt_self hr0
  obtain ⟨r0, hr0, hname⟩ := getRouterIndex_valid hidx h1
  have hb := getAt_some_bounds hr0
  have e1 := toggleRouterStatus_eq hidx h1 hr0
  have hround := round g r (by rw [hidx]; exact h1)
  refine ⟨⟨r0, hr0, hname, ?_⟩, ?_, toggleRouterStatus_length g r, hround, ?_, ?_⟩
  · rw [e1]
    exact getAt_setAt_self _ _ hb.1 hb.2
  · intro w hw
    rw [e1]
    exact getAt_setAt_ne _ _ (Ne.symm hw)
  · intro s d
    rw [hround]
  · rw [round scenario "R1" (by decide)]
    exact scenario_cost

/-- C16 at a concrete store: router `R1` of the three routers in a row. -/
theorem toggleRouterStatus_spec_witness :
    getRouterIndex lineStore "R1" = 1 ∧
      upOf (toggleRouterStatus lineStore "R1") 1 = false ∧
      toggleRouterStatus (toggleRouterStatus lineStore "R1") "R1" = lineStore :=
  ⟨by decide, by decide,
    (toggleRouterStatus_spec lineStore "R1" 1 (by decide) (by decide)).2.2.2.1⟩

/-! ## Failed calls (C17) -/

theorem addRouter_full {g : Graph} (name : String) (h : g.nodes.length ≥ MAX_V) :
    addRouter g name = g := by
  unfold addRouter
  rw [if_pos h]

theorem addRouter_known {g : Graph} (name : String)
    (h : getRouterIndex g (if name.isEmpty = true then "R" ++ toString g.nodes.length
      else name) ≠ -1) : addRouter g name = g := by
  unfold addRouter
  split
  · rfl
  · simp only
    rw [if_pos h]

theorem removeRouter_fail {g : Graph} {name : String} (h : getRouterIndex g name = -1) :
    removeRouter g name = g := by
  unfold removeRouter
  simp only [if_pos h]

theorem toggleLink_no_link {g : Graph} {a b : String} (up : Bool)
    (h1 : hasDest (getRouterIndex g b) (headOf g (getRouterIndex g a)) = false)
    (h2 : hasDest (getRouterIndex g a) (headOf g (getRouterIndex g b)) = false) :
    toggleLink g a b up = g := by
  by_cases hbad : getRouterIndex g a = -1 ∨ getRouterIndex g b = -1
  · exact toggleLink_fail up hbad
  · have hu1 : getRouterIndex g a ≠ -1 := fun h => hbad (Or.inl h)
    have hv1 : getRouterIndex g b ≠ -1 := fun h => hbad (Or.inr h)
    have e1 : mapHead g (getRouterIndex g a) (toggleAll (getRouterIndex g b) up) = g :=
      mapHead_id (toggleAll_of_not_hasDest h1)
    rw [toggleLink_eq up rfl rfl hu1 hv1, e1]
    exact mapHead_id (toggleAll_of_not_hasDest h2)

/-- C17: every mutator call that fails on bad input returns the store it was given:
`addRouter` when the table is full or the (possibly defaulted) name is known;
`removeRouter` and `toggleRouterStatus` on an unknown name; `addEdge` when a name is
unknown or both names denote the same router; `removeEdge` on an unknown name;
`toggleLink` on an unknown name or on a pair neither of which holds a record for the
other. -/
theorem failed_calls_change_nothing (g : Graph) :
    (∀ name, g.nodes.length ≥ MAX_V → addRouter g name = g) ∧
    (∀ name, getRouterIndex g (if name.isEmpty = true then "R" ++ toString g.nodes.length
        else name) ≠ -1 → addRouter g name = g) ∧
    (∀ name, getRouterIndex g name = -1 → removeRouter g name = g) ∧
    (∀ name, getRouterIndex g name = -1 → toggleRouterStatus g name = g) ∧
    (∀ a b c, (getRouterIndex g a = -1 ∨ getRouterIndex g b = -1 ∨
        getRouterIndex g a = getRouterIndex g b) → addEdge g a b c = g) ∧
    (∀ a b, (getRouterIndex g a = -1 ∨ getRouterIndex g b = -1) → removeEdge g a b = g) ∧
    (∀ a b up, (getRouterIndex g a = -1 ∨ getRouterIndex g b = -1) →
        toggleLink g a b up = g) ∧
    (∀ a b up, hasDest (getRouterIndex g b) (headOf g (getRouterIndex g a)) = false →
        hasDest (getRouterIndex g a) (headOf g (getRouterIndex g b)) = false →
        toggleLink g a b up = g) :=
  ⟨fun name h => addRouter_full name h,
    fun name h => addRouter_known name h,
    fun _ h => removeRouter_fail h,
    fun _ h => toggleRouterStatus_fail h,
    fun _ _ c h => addEdge_fail c h,
    fun _ _ h => removeEdge_fail h,
    fun _ _ up h => toggleLink_fail up h,
    fun _ _ up h1 h2 => toggleLink_no_link up h1 h2⟩

/-- C17 at a concrete store: in the three routers with the link `R1 - R2`, the name
`R1` is known, `R9` is not, and `R0`, `R1` are not linked. -/
theorem failed_calls_change_nothing_witness :
    addRouter threeRouters "R1" = threeRouters ∧
      removeRouter threeRouters "R9" = threeRouters ∧
      addEdge threeRouters "R1" "R1" 4 = threeRouters ∧
      toggleLink threeRouters "R0" "R1" false = threeRouters :=
  ⟨(failed_calls_change_nothing threeRouters).2.1 "R1" (by decide),
    (failed_calls_change_nothing threeRouters).2.2.1 "R9" (by decide),
    (failed_calls_change_nothing threeRouters).2.2.2.2.1 "R1" "R1" 4
      (Or.inr (Or.inr (by decide))),
    (failed_calls_change_nothing threeRouters).2.2.2.2.2.2.2 "R0" "R1" false
      (by decide) (by decide)⟩

/-! ## Unique names, self links, capacity (C18, C19, C20) -/

theorem names_of_labels {g g2 : Graph} (h : labels g2 = labels g) :
    g2.nodes.map Router.name = g.nodes.map Router.name := by
  rw [← labels_names, ← labels_names, h]

theorem uniqueNames_addRouter {g : Graph} (h : UniqueNames g) (name : String) :
    UniqueNames (addRouter g name) := by
  unfold addRouter
  by_cases h1 : g.nodes.length ≥ MAX_V
  · rw [if_pos h1]; exact h
  · rw [if_neg h1]
    simp only
    generalize (if name.isEmpty = true then "R" ++ toString g.nodes.length else name) = rn
    by_cases h2 : getRouterIndex g rn ≠ -1
    · rw [if_pos h2]; exact h
    · rw [if_neg h2]
      have habs := getRouterIndex_absent (not_not.mp h2)
      unfold UniqueNames at h ⊢
      simp only [List.map_append, List.map_cons, List.map_nil]
      rw [List.nodup_append]
      refine ⟨h, List.nodup_singleton _, ?_⟩
      intro x hx1 hx2
      simp only [List.mem_singleton] at hx2
      subst hx2
      obtain ⟨r, hr, hrn⟩ := List.mem_map.mp hx1
      exact habs r hr hrn

theorem uniqueNames_removeRouter {g : Graph} (h : UniqueNames g) (name : String) :
    UniqueNames (removeRouter g name) := by
  by_cases hne : getRouterIndex g name = -1
  · rw [removeRouter_fail hne]; exact h
  · unfold UniqueNames at h ⊢
    rw [← labels_names, removeRouter_labels hne, map_eraseIdx, labels_names]
    exact (List.eraseIdx_sublist _ _).nodup h

theorem reachable_uniqueNames {g : Graph} (h : Reachable g) : UniqueNames g := by
  induction h with
  | empty => simp [UniqueNames, emptyGraph]
  | addRouter g name _ ih => exact uniqueNames_addRouter ih name
  | removeRouter g name _ ih => exact uniqueNames_removeRouter ih name
  | addEdge g a b c _ _ _ ih =>
    unfold UniqueNames at ih ⊢
    rw [names_of_labels (addEdge_labels g a b c)]; exact ih
  | removeEdge g a b _ ih =>
    unfold UniqueNames at ih ⊢
    rw [names_of_labels (removeEdge_labels g a b)]; exact ih
  | toggleRouterStatus g name _ ih =>
    unfold UniqueNames at ih ⊢
    rw [toggleRouterStatus_names]; exact ih
  | toggleLink g a b up _ ih =>
    unfold UniqueNames at ih ⊢
    rw [names_of_labels (toggleLink_labels g a b up)]; exact ih

/-- With unique names `getRouterIndex` finds every router at its own slot. -/
theorem getRouterIndex_of_unique {g : Graph} (h : UniqueNames g) {i : Nat} {r : Router}
    (hr : g.nodes[i]? = some r) : getRouterIndex g r.name = (i : Int) := by
  rcases findName_spec r.name g.nodes 0 with ⟨_, h2⟩ | ⟨k, ro, h1, h2, h3⟩
  · exact absurd rfl (h2 r (List.getElem?_mem hr))
  · have hlt : k < (g.nodes.map Router.name).length := by
      rw [List.length_map]
      by_contra hc
      rw [List.getElem?_eq_none (by omega)] at h2
      cases h2
    have hk : (g.nodes.map Router.name)[k]? = (g.nodes.map Router.name)[i]? := by
      rw [List.getElem?_map, List.getElem?_map, h2, hr]
      simp [h3]
    have := List.getElem?_inj hlt h hk
    subst this
    have h4 : getRouterIndex g r.name = 0 + (k : Int) := h1
    omega

/-- C18: in every store reachable from the empty store through the public mutators no
two slots hold the same name, and `getRouterIndex(nodes[i].name)` is `i` for every
slot `i` below `V`. -/
theorem names_unique (g : Graph) (h : Reachable g) :
    UniqueNames g ∧
    (∀ i j : Nat, ∀ ri rj : Router, g.nodes[i]? = some ri → g.nodes[j]? = some rj →
      i ≠ j → ri.name ≠ rj.name) ∧
    ∀ (i : Nat) (r : Router), g.nodes[i]? = some r → getRouterIndex g r.name = (i : Int) := by
  have hu := reachable_uniqueNames h
  refine ⟨hu, ?_, fun i r hr => getRouterIndex_of_unique hu hr⟩
  intro i j ri rj hi hj hij hname
  have h1 := getRouterIndex_of_unique hu hi
  have h2 := getRouterIndex_of_unique hu hj
  rw [hname, h2] at h1
  omega

/-- C18 at a concrete reachable store: the three routers with the link `R1 - R2`. -/
theorem names_unique_witness :
    Reachable threeRouters ∧ UniqueNames threeRouters ∧
      getRouterIndex threeRouters "R2" = 2 :=
  ⟨reachable_threeRouters, (names_unique threeRouters reachable_threeRouters).1,
    (names_unique threeRouters reachable_threeRouters).2.2 2 ⟨"R2", true, [⟨1, 5, 5, true⟩]⟩
      (by decide)⟩

/-- C19, evaluated at its failing input: after three `addRouter`,
`addEdge("R1", "R2", 5)` and `removeRouter("R0")` the store is `staleStore`, which is
reachable and in which the router at slot 1 holds a record whose `dest` is 1. -/
theorem removeRouter_makes_self_link :
    Reachable (removeRouter threeRouters "R0") ∧
      removeRouter threeRouters "R0" = staleStore ∧
      ∃ e ∈ headOf staleStore 1, e.dest = 1 :=
  ⟨Reachable.removeRouter _ "R0" reachable_threeRouters, by decide, by decide⟩

theorem length_le_of_reachable {g : Graph} (h : Reachable g) : g.nodes.length ≤ MAX_V := by
  induction h with
  | empty => simp [emptyGraph]
  | addRouter g name _ ih =>
    unfold addRouter
    by_cases h1 : g.nodes.length ≥ MAX_V
    · rw [if_pos h1]; exact ih
    · rw [if_neg h1]
      simp only
      generalize (if name.isEmpty = true then "R" ++ toString g.nodes.length else name) = rn
      by_cases h2 : getRouterIndex g rn ≠ -1
      · rw [if_pos h2]; exact ih
      · rw [if_neg h2]
        simp only [List.length_append, List.length_singleton]
        omega
  | removeRouter g name _ ih =>
    by_cases hne : getRouterIndex g name = -1
    · rw [removeRouter_fail hne]; exact ih
    · have := congrArg List.length (removeRouter_labels hne)
      rw [labels_length] at this
      rw [this]
      exact le_trans (List.length_eraseIdx_le _ _) (by rw [labels_length]; exact ih)
  | addEdge g a b c _ _ _ ih =>
    rw [← labels_length, addEdge_labels, labels_length]; exact ih
  | removeEdge g a b _ ih =>
    rw [← labels_length, removeEdge_labels, labels_length]; exact ih
  | toggleRouterStatus g name _ ih =>
    rw [toggleRouterStatus_length]; exact ih
  | toggleLink g a b up _ ih =>
    rw [toggleLink_length]; exact ih

/-- C20: in every store reachable through the public mutators the router count is
between 0 and `MAX_V` (100), and `addRouter` on a store with `V = MAX_V` returns the
store it was given. -/
theorem count_within_capacity (g : Graph) (h : Reachable g) :
    0 ≤ g.V ∧ g.V ≤ (MAX_V : Int) ∧ MAX_V = 100 ∧
    ∀ name, g.V = (MAX_V : Int) → addRouter g name = g := by
  have hl := length_le_of_reachable h
  refine ⟨?_, ?_, rfl, ?_⟩
  · unfold Graph.V; omega
  · unfold Graph.V; omega
  · intro name hv
    unfold Graph.V at hv
    exact addRouter_full name (by omega)

/-- C20 at a concrete reachable store: the three routers with the link `R1 - R2`. -/
theorem count_within_capacity_witness :
    Reachable threeRouters ∧ threeRouters.V = 3 ∧ threeRouters.V ≤ (MAX_V : Int) :=
  ⟨reachable_threeRouters, by decide,
    (count_within_capacity threeRouters reachable_threeRouters).2.1⟩

/-! ## Up flag and sentinel cost (C21) -/

theorem reachable_sentinelPair : Reachable sentinelPair :=
  Reachable.addEdge _ "R0" "R1" INT_MAX
    (Reachable.addRouter _ "" (Reachable.addRouter _ "" Reachable.empty))
    (by decide) (by decide)

/-- C21, at its counterexample: `addEdge("R0", "R1", INT_MAX)` on two fresh routers
gives a reachable store in which router `R0` holds a record with `up = true` whose cost
is `INT_MAX`. -/
theorem up_record_with_sentinel_counterexample :
    Reachable sentinelPair ∧
      ∃ e, RecordOf sentinelPair e ∧ e.up = true ∧ e.cost = INT_MAX :=
  ⟨reachable_sentinelPair, ⟨1, INT_MAX, INT_MAX, true⟩,
    recordOf_of_headOf (u := 0) (by decide), rfl, rfl⟩

/-- On distances in `[0, INT_MAX]` the relaxation step does the same whether it tests a
record's cost against `INT_MAX` or its `up` flag, for a record that carries `INT_MAX`
when it is down. -/
theorem relaxEdge_filter_up {g : Graph} {u : Int} {st : DState} {e : EdgeNode}
    (hdown : e.up = false → e.cost = INT_MAX) (inv : RangeInv g st) :
    relaxEdgeByUp g u st e = relaxEdge g u st e := by
  unfold relaxEdgeByUp relaxEdge
  cases hdu : getAt st.dist u with
  | none => rfl
  | some du =>
    cases hvis : getAt st.visited e.dest with
    | none => rfl
    | some vis =>
      cases vis with
      | true => rfl
      | false =>
        cases hrv : getAt g.nodes e.dest with
        | none => rfl
        | some rv =>
          cases hrup : rv.up with
          | false => simp [hrup]
          | true =>
            cases hup : e.up with
            | false => simp [hrup, hup, hdown hup]
            | true =>
              by_cases hc : e.cost = INT_MAX
              · have hb := getAt_some_bounds hvis
                rw [inv.len_vis, ← inv.len_dist] at hb
                obtain ⟨dv, hdv⟩ := getAt_of_bounds st.dist hb.1 hb.2
                have h1 := inv.range u du hdu
                have h2 := inv.range e.dest dv hdv
                have hlt : ¬ du + INT_MAX < dv := by omega
                simp [hrup, hup, hc, hdv, hlt]
              · simp only [hrup, hup, hc, Bool.not_true, Bool.false_eq_true, if_false]

/-- C21, amended: in every store reachable through the public mutators a link record
whose cost is not `INT_MAX` has `up = true` (a record marked down carries `INT_MAX`),
and a record with `up = true` carries its original cost; so the records that
`runDijkstra` admits by `cost != INT_MAX` are all up, and an up record is left out only
when its original cost is `INT_MAX`. For such a record, and for every other, the
relaxation step does the same under either filter whenever the distances lie in
`[0, INT_MAX]`. -/
theorem cost_filter_admits_up_records (g : Graph) (h : Reachable g) :
    ∀ e, RecordOf g e →
      (e.cost ≠ INT_MAX → e.up = true) ∧ (e.up = false → e.cost = INT_MAX) ∧
      (e.up = true → e.cost = e.originalCost) ∧
      (e.up = true → e.cost = INT_MAX → e.originalCost = INT_MAX) ∧
      ∀ u st, RangeInv g st → relaxEdgeByUp g u st e = relaxEdge g u st e := by
  intro e he
  have h1 := reachable_downHasMax h e he
  have h2 := reachable_upHasOriginal h e he
  refine ⟨?_, h1, h2, ?_, fun u st inv => relaxEdge_filter_up h1 inv⟩
  · intro hc
    cases hup : e.up with
    | true => rfl
    | false => exact absurd (h1 hup) hc
  · intro hup hc
    rw [← h2 hup]; exact hc

/-- C21, amended, at a concrete reachable store: the record of `R1` for `R2` in the
store of three routers. -/
theorem cost_filter_admits_up_records_witness :
    Reachable threeRouters ∧ RecordOf threeRouters ⟨2, 5, 5, true⟩ ∧
      ((5 : Int) ≠ INT_MAX → true = true) :=
  ⟨reachable_threeRouters, recordOf_of_headOf (u := 1) (by decide),
    (cost_filter_admits_up_records threeRouters reachable_threeRouters ⟨2, 5, 5, true⟩
      (recordOf_of_headOf (u := 1) (by decide))).1⟩

/-! ## The spec scenario (C24, C25) -/

/-- C24: in the store built by five default `addRouter` calls and the six `addEdge`
calls of the scenario, `dijkstra(R0, R3, true)` is 40, `findShortestPath(R0, R3)` is
`[R0, R1, R3]` as slots `[0, 1, 3]`, and `getNextHop(R0, R3)` is the slot of `R1`. -/
theorem scenario_shortest_path :
    getRouterIndex scenario "R0" = 0 ∧ getRouterIndex scenario "R1" = 1 ∧
      getRouterIndex scenario "R3" = 3 ∧
      dijkstra scenario 0 3 true = some 40 ∧
      findShortestPath scenario 0 3 = some [0, 1, 3] ∧
      getNextHop scenario 0 3 = some 1 :=
  ⟨by decide, by decide, by decide, by decide, by decide, by decide⟩

/-- C25, at its counterexample: with `R1` down the scenario store still joins `R0` and
`R3` over `R4`, so `dijkstra(R0, R3, true)` is not `INT_MAX` and `findShortestPath(R0,
R3)` is not empty. -/
theorem scenario_r1_down_counterexample :
    upOf (toggleRouterStatus scenario "R1") 1 = false ∧
      dijkstra (toggleRouterStatus scenario "R1") 0 3 true ≠ some INT_MAX ∧
      findShortestPath (toggleRouterStatus scenario "R1") 0 3 ≠ some [] :=
  ⟨by decide, by decide, by decide⟩

/-- C25, amended: in the scenario store, after `toggleRouterStatus("R1")` has brought
`R1` down, `dijkstra(R0, R3, true)` is 75 and `findShortestPath(R0, R3)` is `[R0, R4,
R3]`, as slots `[0, 4, 3]`: the path over the links `R0 - R4` (50) and `R4 - R3` (25). -/
theorem scenario_r1_down_reroutes :
    dijkstra (toggleRouterStatus scenario "R1") 0 3 true = some 75 ∧
      findShortestPath (toggleRouterStatus scenario "R1") 0 3 = some [0, 4, 3] ∧
      getNextHop (toggleRouterStatus scenario "R1") 0 3 = some 4 :=
  ⟨by decide, by decide, by decide⟩

/-! ## Record targets in reachable stores (C29) -/

/-- C29, evaluated at its failing input: after three `addRouter`,
`addEdge("R1", "R2", 5)` and `removeRouter("R0")` the store is `staleStore`, which is
reachable, has two routers, and whose slot 0 holds a record with `dest = 2`; for it
`runDijkstra(0)` has no defined result. -/
theorem removeRouter_leaves_dest_out_of_range :
    Reachable (removeRouter threeRouters "R0") ∧
      removeRouter threeRouters "R0" = staleStore ∧ staleStore.V = 2 ∧
      (∃ e ∈ headOf staleStore 0, e.dest = 2) ∧ ¬ DestsValid staleStore ∧
      runDijkstra staleStore 0 = none :=
  ⟨Reachable.removeRouter _ "R0" reachable_threeRouters, by decide, by decide, by decide,
    by decide, by decide⟩

/-! ## Termination of the main loop for arbitrary costs (C27) -/

theorem pendingRecords_set :
    ∀ (vs : List Bool) (rs : List Router) (i : Nat) (r : Router),
      vs[i]? = some false → rs[i]? = some r →
      pendingRecords (vs.set i true) rs + r.head.length = pendingRecords vs rs
  | [], _, _, _, h, _ => by simp at h
  | _ :: _, [], _, _, _, h => by simp at h
  | v :: vs, r0 :: rs, 0, r, hv, hr => by
    simp only [List.getElem?_cons_zero, Option.some.injEq] at hv hr
    subst hv; subst hr
    simp only [List.set_cons_zero, pendingRecords, if_true, Bool.false_eq_true, if_false]
    omega
  | v :: vs, r0 :: rs, i + 1, r, hv, hr => by
    simp only [List.getElem?_cons_succ] at hv hr
    have ih := pendingRecords_set vs rs i r hv hr
    simp only [List.set_cons_succ, pendingRecords]
    omega

theorem pendingRecords_replicate :
    ∀ rs : List Router, pendingRecords (List.replicate rs.length false) rs
      = (rs.map (fun r => r.head.length)).sum
  | [] => by simp [pendingRecords]
  | r :: rs => by
    have ih := pendingRecords_replicate rs
    simp only [List.length_cons, List.replicate_succ, pendingRecords, Bool.false_eq_true,
      if_false, List.map_cons, List.sum_cons, ih]

theorem pushBound_init (g : Graph) (src : Int) :
    pushBound g (initState g src) = totalRecords g + 1 := by
  simp only [pushBound, initState, pendingRecords_replicate, totalRecords,
    List.length_singleton]
  omega

/-- With all record targets in range every iteration succeeds and lowers the bound on
the pushes still to come. -/
theorem loopBody_pushBound {g : Graph} {src : Int} {st : DState} {top : Int × Int}
    (hdv : DestsValid g) (inv : SInv g src st) (htop : pqTop st.pq = some top) :
    ∃ st1, loopBody g st top = some st1 ∧ pushBound g st1 < pushBound g st := by
  have hmem := (pqTop_spec _ _ htop).1
  obtain ⟨_, _, _, hu0, hu1⟩ := inv.pq_ok top.1 top.2 hmem
  have hu2 : top.2 < (g.nodes.length : Int) := hu1
  obtain ⟨vis, hvis⟩ := getAt_of_bounds st.visited hu0 (by rw [inv.len_vis]; exact hu2)
  obtain ⟨ru, hru⟩ := getAt_of_bounds g.nodes hu0 hu2
  obtain ⟨du, hdu⟩ := getAt_of_bounds st.dist hu0 (by rw [inv.len_dist]; exact hu2)
  have hlen : (st.pq.erase top).length + 1 = st.pq.length := by
    rw [List.length_erase_of_mem hmem]
    have : 0 < st.pq.length := List.length_pos_of_mem hmem
    omega
  by_cases hskip : vis = true ∨ ru.up = false
  · refine ⟨{ st with pq := st.pq.erase top }, ?_, ?_⟩
    · unfold loopBody
      simp only [hvis, hru]
      rcases hskip with h | h
      · simp [h]
      · simp [h]
    · simp only [pushBound]
      omega
  · have hv : vis = false := by
      cases vis with
      | true => exact absurd (Or.inl rfl) hskip
      | false => rfl
    have hup : ru.up = true := by
      cases h : ru.up with
      | true => rfl
      | false => exact absurd (Or.inr h) hskip
    subst hv
    have hw := pendingRecords_set st.visited g.nodes top.2.toNat ru
      (getAt_toNat hvis) (getAt_toNat hru)
    rw [← setAt_toNat _ _ hu0] at hw
    by_cases hm : du = INT_MAX
    · refine ⟨{ st with pq := st.pq.erase top, visited := setAt st.visited top.2 true },
        ?_, ?_⟩
      · unfold loopBody
        simp [hvis, hru, hup, hdu, hm]
      · simp only [pushBound]
        omega
    · obtain ⟨st1, h1⟩ := relaxAll_isSome (g := g) (u := top.2) ru.head
        { st with pq := st.pq.erase top, visited := setAt st.visited top.2 true }
        inv.len_dist (by simp [length_setAt, inv.len_vis]) ⟨hu0, hu1⟩
        (fun e he => hdv ru (getAt_mem hru) e he)
      refine ⟨st1, ?_, ?_⟩
      · unfold loopBody
        simp [hvis, hru, hup, hdu, hm, h1]
      · obtain ⟨a1, a2, _⟩ := relaxAll_sizes _ _ _ h1
        simp only [pushBound, a2]
        simp only at a1
        omega

/-- With all record targets in range the main loop ends within any budget that is at
least the bound on the pushes. -/
theorem runLoop_within {g : Graph} {src : Int} (hdv : DestsValid g) :
    ∀ (fuel : Nat) (st : DState), SInv g src st → pushBound g st ≤ fuel →
      ∃ st1, runLoop g fuel st = some st1
  | 0, st, _, hp => by
    have : st.pq = [] := by
      unfold pushBound at hp
      exact List.eq_nil_of_length_eq_zero (by omega)
    exact ⟨st, by simp [runLoop, this, pqTop]⟩
  | fuel + 1, st, inv, hp => by
    cases ht : pqTop st.pq with
    | none => exact ⟨st, by simp [runLoop, ht]⟩
    | some top =>
      obtain ⟨st2, h2, hlt⟩ := loopBody_pushBound hdv inv ht
      obtain ⟨st3, h3⟩ := runLoop_within hdv fuel st2 (SInv_loopBody inv ht h2) (by omega)
      exact ⟨st3, by simp [runLoop, ht, h2, h3]⟩

/-- A run of the main loop that ends within a budget ends in the same state within every
larger budget. -/
theorem runLoop_mono {g : Graph} :
    ∀ (fuel : Nat) (st st1 : DState), runLoop g fuel st = some st1 →
      ∀ k, runLoop g (fuel + k) st = some st1
  | 0, st, st1, h, k => by
    unfold runLoop at h
    cases ht : pqTop st.pq with
    | none =>
      simp only [ht] at h
      cases k with
      | zero => simp [runLoop, ht, h]
      | succ k => simp [runLoop, ht, h]
    | some top => simp [ht] at h
  | fuel + 1, st, st1, h, k => by
    unfold runLoop at h
    have e : fuel + 1 + k = (fuel + k) + 1 := by omega
    rw [e]
    unfold runLoop
    cases ht : pqTop st.pq with
    | none => simpa [ht] using h
    | some top =>
      simp only [ht] at h ⊢
      cases hb : loopBody g st top with
      | none => simp [hb] at h
      | some st2 =>
        simp only [hb] at h ⊢
        exact runLoop_mono fuel st2 st1 h k

/-- C27: on a store whose record targets are all in range, whatever the link costs,
`runDijkstra(src)` returns for every `src`; for a valid `src` its main loop ends, with an
empty queue, within `1 + totalRecords` iterations, each of which pops one entry. A call
of the relaxation step either leaves the queue alone or pushes the record's target, which
is then unvisited; an iteration either only pops, or it has marked the popped slot
visited and pushes at most as many entries as that slot has records. -/
theorem runDijkstra_terminates (g : Graph) (hdv : DestsValid g) :
    (∀ src, ∃ r, runDijkstra g src = some r) ∧
    (∀ src, ValidSlot g src →
      ∃ st, runLoop g (totalRecords g + 1) (initState g src) = some st ∧ st.pq = [] ∧
        runDijkstra g src = some ⟨st.dist, st.prev⟩) ∧
    (∀ u st e st1, relaxEdge g u st e = some st1 →
      st1.pq = st.pq ∨
        (getAt st.visited e.dest = some false ∧ ∃ k, st1.pq = (k, e.dest) :: st.pq)) ∧
    (∀ st top st1, loopBody g st top = some st1 →
      st1.pq = st.pq.erase top ∨
        (getAt st.visited top.2 = some false ∧ getAt st1.visited top.2 = some true ∧
          st1.pq.length ≤ (st.pq.erase top).length + (headOf g top.2).length)) := by
  have hvalid : ∀ src, ValidSlot g src →
      ∃ st, runLoop g (totalRecords g + 1) (initState g src) = some st ∧ st.pq = [] ∧
        runDijkstra g src = some ⟨st.dist, st.prev⟩ := by
    intro src hs
    obtain ⟨st, hst⟩ := runLoop_within hdv (totalRecords g + 1) (initState g src)
      (SInv_init hs) (le_of_eq (pushBound_init g src))
    obtain ⟨_, hpq⟩ := runLoop_rule (SInv g src)
      (fun st top st1 hP ht hb => SInv_loopBody hP ht hb) _ _ _ (SInv_init hs) hst
    refine ⟨st, hst, hpq, ?_⟩
    have hm := runLoop_mono _ _ _ hst g.nodes.length
    have e : totalRecords g + 1 + g.nodes.length = loopFuel g := by
      unfold loopFuel; omega
    rw [e] at hm
    unfold runDijkstra
    have : ¬ (src < 0 ∨ src ≥ g.V) := by
      have := hs.1; have := hs.2; omega
    simp [this, hm]
  refine ⟨?_, hvalid, ?_, ?_⟩
  · intro src
    by_cases hs : ValidSlot g src
    · obtain ⟨st, _, _, h⟩ := hvalid src hs
      exact ⟨_, h⟩
    · refine ⟨⟨[], []⟩, ?_⟩
      unfold runDijkstra
      have : src < 0 ∨ src ≥ g.V := by
        unfold ValidSlot at hs; omega
      simp [this]
  · intro u st e st1 h
    obtain ⟨du, vis, _, hvis, hc⟩ := relaxEdge_cases h
    rcases hc with ⟨hv, _, _, _, hst⟩ | ⟨hst, _⟩
    · right
      subst hv
      exact ⟨hvis, wrap32 (du + e.cost), by rw [hst]⟩
    · left; rw [hst]
  · intro st top st1 h
    obtain ⟨vis, ru, hvis, hru, hc⟩ := loopBody_cases h
    rcases hc with ⟨_, hst⟩ | ⟨hv, _, du, _, hc2⟩
    · left; rw [hst]
    · subst hv
      have hb := getAt_some_bounds hvis
      rcases hc2 with ⟨_, hst⟩ | ⟨_, hrel⟩
      · left; rw [hst]
      · right
        obtain ⟨a1, a2, _⟩ := relaxAll_sizes _ _ _ hrel
        refine ⟨hvis, ?_, ?_⟩
        · rw [a2]
          exact getAt_setAt_self _ _ hb.1 hb.2
        · have : headOf g top.2 = ru.head := by simp [headOf, hru]
          rw [this]
          exact a1

/-- C27 at a concrete store: two routers joined by a link of cost `-5`. -/
theorem runDijkstra_terminates_witness :
    DestsValid (addEdge (addRouter (addRouter emptyGraph "") "") "R0" "R1" (-5)) ∧
      ∃ r, runDijkstra (addEdge (addRouter (addRouter emptyGraph "") "") "R0" "R1" (-5)) 0
        = some r :=
  ⟨by decide,
    (runDijkstra_terminates (addEdge (addRouter (addRouter emptyGraph "") "") "R0" "R1" (-5))
      (by decide)).1 0⟩

/-! ## The predecessor array is rooted at the source (C28) -/

/-- C28: on a store whose record targets are in range and for a valid `src`,
`runDijkstra(src)` returns vectors with `prev[src] = -1`, and for every `dest` with
`dist[dest] != INT_MAX` the predecessors of `dest` form a repetition-free chain from
`src` of at most `V` slots, none of them `-1`; the backward walk of `dijkstra` and
`findShortestPath` from `dest` ends at `src` within `V - 1` steps, so their test
`current == -1` fails and they return `dist[dest]` and the chain, and for `src != dest`
the walk of `getNextHop` stops at a slot whose predecessor is `src`, which is returned
by the first `if` after the loop. -/
theorem prev_rooted_acyclic (g : Graph) (src : Int) (hdv : DestsValid g)
    (hs : ValidSlot g src) :
    ∃ r, runDijkstra g src = some r ∧ getAt r.prev src = some (-1) ∧
      ∀ dest d, getAt r.dist dest = some d → d ≠ INT_MAX →
        ∃ p, Chain r.prev src dest p ∧ p.Nodup ∧ (-1) ∉ p ∧ p.length ≤ g.nodes.length ∧
          (∃ stack, walkBack r.prev src (g.nodes.length - 1) dest [] = some (src, stack) ∧
            src :: stack = p) ∧
          (∃ stack, walkBack r.prev src g.nodes.length dest [] = some (src, stack)) ∧
          dijkstra g src dest false = some d ∧
          findShortestPath g src dest = some p ∧ p ≠ [] ∧
          (src ≠ dest → ∃ hop, hopBack r.prev src g.nodes.length dest = some hop ∧
            getAt r.prev hop = some src ∧ getNextHop g src dest = some hop ∧ hop ≠ -1) := by
  obtain ⟨st, hrun, inv, _, hres⟩ := runDijkstra_result hdv hs
  refine ⟨⟨st.dist, st.prev⟩, hres, inv.prev_src, ?_⟩
  intro dest d hd hmax
  simp only at hd
  have hdb := getAt_some_bounds hd
  rw [inv.len_dist] at hdb
  have hdv2 : ValidSlot g dest := hdb
  obtain ⟨_, _, dd, hdd, _, _, hq⟩ := path_queries_of_run hs hdv2 hrun
  have hdd2 : dd = d := by
    rw [hd] at hdd
    exact (Option.some.inj hdd).symm
  subst hdd2
  obtain ⟨p, hp1, hp2, _, hfs, _, hnh⟩ := hq hmax
  have hs2 : src < (g.nodes.length : Int) := hs.2
  have hsp : 0 ≤ src ∧ src < (st.prev.length : Int) := by
    rw [inv.len_prev]; exact ⟨hs.1, hs2⟩
  have hb : ∀ x ∈ p, 0 ≤ x ∧ x < (g.nodes.length : Int) := by
    intro x hx
    have := chain_bounds hp1 hsp x hx
    rw [inv.len_prev] at this
    exact this
  have hlen : p.length ≤ g.nodes.length := nodup_length_le hp2 hb
  have hpos := chain_length_pos hp1
  have hs1 : src ≠ -1 := by have := hs.1; omega
  have hvalid : ¬ (src < 0 ∨ src ≥ g.V ∨ dest < 0 ∨ dest ≥ g.V) := by
    have := hs.1; have := hs.2; have := hdb.1; have := hdb.2
    unfold Graph.V
    omega
  have hne1 : st.dist.isEmpty = false := by
    cases h : st.dist with
    | nil => rw [h] at hd; simp [getAt] at hd
    | cons a as => rfl
  have hne2 : st.prev.isEmpty = false := by
    cases h : st.prev with
    | nil => have := inv.prev_src; rw [h] at this; simp [getAt] at this
    | cons a as => rfl
  obtain ⟨rest1, hr1, hr2⟩ := walkBack_chain hp1 (g.nodes.length - 1) [] (by omega)
  obtain ⟨rest, hr3, hr4⟩ := walkBack_chain hp1 g.nodes.length [] (by omega)
  refine ⟨p, hp1, hp2, ?_, hlen, ⟨rest1, hr1, by simpa using hr2⟩, ⟨rest, hr3⟩, ?_, hfs, ?_,
    ?_⟩
  · intro hm
    have := (hb _ hm).1
    omega
  · unfold dijkstra
    simp only [hvalid, if_false, hres, hne1, hne2, Bool.or_self, Bool.false_eq_true, hd, hmax,
      hr3]
    simp [hs1]
  · intro hnil
    rw [hnil] at hpos
    simp at hpos
  · intro hsd
    obtain ⟨hop, hh1, hh2⟩ := hnh hsd
    obtain ⟨hop2, hc1, hc2, hc3⟩ := hopBack_chain hp1 (Ne.symm hsd)
    have he : hop2 = hop := by
      rw [hh1] at hc1
      exact (Option.some.inj hc1).symm
    subst he
    refine ⟨hop2, hc3 g.nodes.length (by omega), hc2, hh2, ?_⟩
    have := (hb hop2 (List.getElem?_mem hh1)).1
    omega

/-- C28 at a concrete store: the three routers with the link `R1 - R2`, from slot 1. -/
theorem prev_rooted_acyclic_witness :
    DestsValid threeRouters ∧ ValidSlot threeRouters 1 ∧
      ∃ r, runDijkstra threeRouters 1 = some r ∧ getAt r.prev 1 = some (-1) :=
  ⟨by decide, by decide,
    (prev_rooted_acyclic threeRouters 1 (by decide) (by decide)).imp
      (fun _ h => ⟨h.1, h.2.1⟩)⟩

/-! ## Distances never wrap (C22) -/

theorem getAt_setAt_cases {α : Type} (xs : List α) {i j : Int} {x y : α}
    (h : getAt (setAt xs i x) j = some y) :
    (j = i ∧ y = x) ∨ (j ≠ i ∧ getAt xs j = some y) := by
  by_cases hji : j = i
  · subst hji
    have hb := getAt_some_bounds h
    rw [length_setAt] at hb
    rw [getAt_setAt_self _ _ hb.1 hb.2] at h
    exact Or.inl ⟨rfl, (Option.some.inj h).symm⟩
  · rw [getAt_setAt_ne _ _ (Ne.symm hji)] at h
    exact Or.inr ⟨hji, h⟩

theorem RangeInv_init (g : Graph) (src : Int) : RangeInv g (initState g src) := by
  refine ⟨by simp [initState, length_setAt], by simp [initState], ?_⟩
  intro v d h
  simp only [initState] at h
  rcases getAt_setAt_cases _ h with ⟨_, hd⟩ | ⟨_, hd⟩
  · subst hd; decide
  · have := getAt_replicate _ _ hd
    subst this; decide

/-- What one call of the relaxation step does to the distances when they are in range and
the record's cost is not negative. -/
theorem relaxEdge_exact {g : Graph} {u : Int} {st st1 : DState} {e : EdgeNode}
    (inv : RangeInv g st) (hc : 0 ≤ e.cost) (h : relaxEdge g u st e = some st1) :
    ∃ du dv, getAt st.dist u = some du ∧ getAt st.dist e.dest = some dv ∧
      (st1.dist = st.dist ∨
        (st1.dist = setAt st.dist e.dest (du + e.cost) ∧
          getAt st.visited e.dest = some false ∧
          wrap32 (du + e.cost) = du + e.cost ∧ 0 ≤ du + e.cost ∧ du + e.cost < INT_MAX)) ∧
      (INT_MAX ≤ du + e.cost → st1.dist = st.dist) ∧
      st1.visited = st.visited := by
  obtain ⟨du, vis, hdu, hvis, hcase⟩ := relaxEdge_cases h
  have hvb := getAt_some_bounds hvis
  rw [inv.len_vis, ← inv.len_dist] at hvb
  obtain ⟨dv, hdv⟩ := getAt_of_bounds st.dist hvb.1 hvb.2
  have hr1 := inv.range u du hdu
  have hr2 := inv.range e.dest dv hdv
  refine ⟨du, dv, hdu, hdv, ?_⟩
  rcases hcase with ⟨hv, _, _, ⟨dv2, hdv2, hlt⟩, hst⟩ | ⟨hst, _⟩
  · have e2 : dv2 = dv := by
      rw [hdv] at hdv2
      exact (Option.some.inj hdv2).symm
    subst e2
    have h0 : 0 ≤ du + e.cost := by omega
    have h1 : du + e.cost < INT_MAX := by omega
    have hw := wrap32_id h0 h1
    subst hv
    refine ⟨Or.inr ⟨?_, hvis, hw, h0, h1⟩, ?_, ?_⟩
    · rw [hst, hw]
    · intro hge; omega
    · rw [hst]
  · exact ⟨Or.inl (by rw [hst]), fun _ => by rw [hst], by rw [hst]⟩

theorem RangeInv_relaxEdge {g : Graph} {u : Int} {st st1 : DState} {e : EdgeNode}
    (inv : RangeInv g st) (hc : 0 ≤ e.cost) (h : relaxEdge g u st e = some st1) :
    RangeInv g st1 := by
  obtain ⟨du, dv, _, _, hcase, _, hvis⟩ := relaxEdge_exact inv hc h
  rcases hcase with hd | ⟨hd, _, _, h0, h1⟩
  · exact ⟨by rw [hd]; exact inv.len_dist, by rw [hvis]; exact inv.len_vis,
      by rw [hd]; exact inv.range⟩
  · refine ⟨by rw [hd, length_setAt]; exact inv.len_dist, by rw [hvis]; exact inv.len_vis, ?_⟩
    intro v d hv
    rw [hd] at hv
    rcases getAt_setAt_cases _ hv with ⟨_, hx⟩ | ⟨_, hx⟩
    · subst hx; exact ⟨h0, le_of_lt h1⟩
    · exact inv.range v d hx

theorem RangeInv_relaxAll {g : Graph} {u : Int} :
    ∀ (es : List EdgeNode) (st st1 : DState), RangeInv g st → (∀ e ∈ es, 0 ≤ e.cost) →
      relaxAll g u st es = some st1 → RangeInv g st1
  | [], st, st1, inv, _, h => by
    simp only [relaxAll, Option.some.injEq] at h
    subst h; exact inv
  | e :: es, st, st1, inv, hc, h => by
    unfold relaxAll at h
    cases h1 : relaxEdge g u st e with
    | none => simp [h1] at h
    | some st2 =>
      simp only [h1] at h
      exact RangeInv_relaxAll es st2 st1
        (RangeInv_relaxEdge inv (hc e (List.mem_cons_self _ _)) h1)
        (fun x hx => hc x (List.mem_cons_of_mem _ hx)) h

theorem RangeInv_loopBody {g : Graph} {st st1 : DState} {top : Int × Int}
    (hc : CostsNonneg g) (inv : RangeInv g st) (h : loopBody g st top = some st1) :
    RangeInv g st1 := by
  obtain ⟨vis, ru, _, hru, hcase⟩ := loopBody_cases h
  have hvisited : RangeInv g
      { st with pq := st.pq.erase top, visited := setAt st.visited top.2 true } :=
    ⟨inv.len_dist, by simp [length_setAt, inv.len_vis], inv.range⟩
  rcases hcase with ⟨_, hst⟩ | ⟨_, _, du, _, hc2⟩
  · rw [hst]; exact ⟨inv.len_dist, inv.len_vis, inv.range⟩
  · rcases hc2 with ⟨_, hst⟩ | ⟨_, hrel⟩
    · rw [hst]; exact hvisited
    · exact RangeInv_relaxAll _ _ _ hvisited (fun e he => hc ru (getAt_mem hru) e he) hrel

theorem RangeInv_atLoopHead {g : Graph} {src : Int} {st : DState} (hc : CostsNonneg g)
    (h : AtLoopHead g src st) : RangeInv g st := by
  induction h with
  | init => exact RangeInv_init g src
  | next _ _ hb ih => exact RangeInv_loopBody hc ih hb

/-- Inside the `for` loop over the records of `u` the distances are in range, `u` is
visited with a distance below `INT_MAX`, and the records still to come are records of
`u`. -/
theorem atRelax_inv {g : Graph} {src u : Int} {st : DState} {es : List EdgeNode}
    (hc : CostsNonneg g) (h : AtRelax g src u st es) :
    RangeInv g st ∧ getAt st.visited u = some true ∧
      (∃ du, getAt st.dist u = some du ∧ du ≠ INT_MAX) ∧
      ∃ ru, getAt g.nodes u = some ru ∧ ∀ e ∈ es, e ∈ ru.head := by
  induction h with
  | @enter st top ru du hhead _ hvis hru _ hdu hne =>
    have inv := RangeInv_atLoopHead hc hhead
    have hb := getAt_some_bounds hvis
    exact ⟨⟨inv.len_dist, by simp [length_setAt, inv.len_vis], inv.range⟩,
      getAt_setAt_self _ _ hb.1 hb.2, ⟨du, hdu, hne⟩, ru, hru, fun e he => he⟩
  | @step u st st1 e es _ hrel ih =>
    obtain ⟨inv, hvis, ⟨du, hdu, hne⟩, ru, hru, hes⟩ := ih
    have hce : 0 ≤ e.cost := hc ru (getAt_mem hru) e (hes e (List.mem_cons_self _ _))
    obtain ⟨du2, dv, hdu2, _, hcase, _, hv⟩ := relaxEdge_exact inv hce hrel
    refine ⟨RangeInv_relaxEdge inv hce hrel, by rw [hv]; exact hvis, ?_, ru, hru,
      fun x hx => hes x (List.mem_cons_of_mem _ hx)⟩
    rcases hcase with hd | ⟨hd, hfalse, _⟩
    · exact ⟨du, by rw [hd]; exact hdu, hne⟩
    · have hneq : e.dest ≠ u := by
        intro heq
        rw [heq, hvis] at hfalse
        cases hfalse
      exact ⟨du, by rw [hd, getAt_setAt_ne _ _ hneq]; exact hdu, hne⟩
/-- C22: on a store whose record targets are in range and whose costs are not negative,
for a valid `src`, `runDijkstra(src)` returns and every distance it holds at the loop
test lies in `[0, INT_MAX]`. At every record `e` that its `for` loop handles for a router
`u`, `dist[u]` lies in `[0, INT_MAX)`, the sum `dist[u] + cost` is not negative and
(for a cost that is an `int`) below `2^63`; the step either leaves `dist` as it is or
stores exactly that sum in `dist[e.dest]`, in which case the sum lies in `[0, INT_MAX)`
and the cast to `int` does not change it; a sum of `INT_MAX` or more is never stored. -/
theorem dist_writes_exact (g : Graph) (src : Int) (hdv : DestsValid g) (hc : CostsNonneg g)
    (hs : ValidSlot g src) :
    (∃ st, AtLoopHead g src st ∧ st.pq = [] ∧
      runDijkstra g src = some ⟨st.dist, st.prev⟩) ∧
    (∀ st, AtLoopHead g src st → ∀ v d, getAt st.dist v = some d → 0 ≤ d ∧ d ≤ INT_MAX) ∧
    (∀ u st e es, AtRelax g src u st (e :: es) →
      ∃ du dv st1, getAt st.dist u = some du ∧ getAt st.dist e.dest = some dv ∧
        0 ≤ du ∧ du < INT_MAX ∧ 0 ≤ dv ∧ dv ≤ INT_MAX ∧ 0 ≤ e.cost ∧
        relaxEdge g u st e = some st1 ∧
        (st1.dist = st.dist ∨
          (st1.dist = setAt st.dist e.dest (du + e.cost) ∧
            wrap32 (du + e.cost) = du + e.cost ∧
            0 ≤ du + e.cost ∧ du + e.cost < INT_MAX)) ∧
        (INT_MAX ≤ du + e.cost → st1.dist = st.dist) ∧
        (e.cost ≤ INT_MAX → 0 ≤ du + e.cost ∧ du + e.cost < 2 ^ 63)) := by
  refine ⟨?_, ?_, ?_⟩
  · obtain ⟨st, hrun, _, hpq, hres⟩ := runDijkstra_result hdv hs
    obtain ⟨hat, _⟩ := runLoop_rule (AtLoopHead g src)
      (fun st top st1 hP ht hb => AtLoopHead.next hP ht hb) _ _ _ AtLoopHead.init hrun
    exact ⟨st, hat, hpq, hres⟩
  · intro st hat
    exact (RangeInv_atLoopHead hc hat).range
  · intro u st e es hat
    obtain ⟨inv, _, ⟨du, hdu, hne⟩, ru, hru, hes⟩ := atRelax_inv hc hat
    have hmem := hes e (List.mem_cons_self _ _)
    have hce : 0 ≤ e.cost := hc ru (getAt_mem hru) e hmem
    have hd := hdv ru (getAt_mem hru) e hmem
    have hd2 : e.dest < (g.nodes.length : Int) := hd.2
    have hub := getAt_some_bounds hdu
    obtain ⟨st1, hrel⟩ := relaxEdge_isSome g u st e ⟨du, hdu⟩
      (getAt_of_bounds _ hd.1 (by rw [inv.len_vis]; exact hd2))
      (getAt_of_bounds _ hd.1 hd2)
      (getAt_of_bounds _ hd.1 (by rw [inv.len_dist]; exact hd2))
    obtain ⟨du2, dv, hdu2, hdv2, hcase, hge, _⟩ := relaxEdge_exact inv hce hrel
    have e2 : du2 = du := by
      rw [hdu] at hdu2
      exact (Option.some.inj hdu2).symm
    subst e2
    have hr1 := inv.range u du2 hdu
    have hr2 := inv.range e.dest dv hdv2
    have hlt : du2 < INT_MAX := lt_of_le_of_ne hr1.2 hne
    refine ⟨du2, dv, st1, hdu, hdv2, hr1.1, hlt, hr2.1, hr2.2, hce, hrel, ?_, hge, ?_⟩
    · rcases hcase with h1 | ⟨h1, _, h2, h3, h4⟩
      · exact Or.inl h1
      · exact Or.inr ⟨h1, h2, h3, h4⟩
    · intro hmax
      have h5 := hr1.1
      unfold INT_MAX at hmax hlt
      constructor
      · omega
      · norm_num
        omega

/-- The first pass of `runDijkstra(0)` through its `for` loop in the scenario store: slot
0 is popped and its first record, for slot 4, is about to be handled. -/
theorem atRelax_scenario :
    ∃ st es, AtRelax scenario 0 0 st (⟨4, 50, 50, true⟩ :: es) :=
  ⟨_, _, @AtRelax.enter scenario 0 (initState scenario 0) (0, 0)
    ⟨"R0", true, [⟨4, 50, 50, true⟩, ⟨1, 10, 10, true⟩]⟩ 0 AtLoopHead.init
    (by decide) (by decide) (by decide) rfl (by decide) (by decide)⟩

/-- C22 at a concrete store: the scenario store has targets in range and costs that are
not negative, and `runDijkstra(0)` returns there. -/
theorem dist_writes_exact_witness :
    DestsValid scenario ∧ CostsNonneg scenario ∧ ValidSlot scenario 0 ∧
      ∃ st, AtLoopHead scenario 0 st ∧ st.pq = [] ∧
        runDijkstra scenario 0 = some ⟨st.dist, st.prev⟩ :=
  ⟨by decide, by decide, by decide,
    (dist_writes_exact scenario 0 (by decide) (by decide) (by decide)).1⟩

/-! ## The routing table (C23) -/

/-- With non-negative costs the cost of a query between two different slots is `INT_MAX`
exactly when no walk over up routers and usable records costs less than `INT_MAX`. -/
theorem cost_max_iff_no_walk {g : Graph} {src dest c : Int} (hdv : DestsValid g)
    (hnn : CostsNonneg g) (hs : ValidSlot g src) (hd : ValidSlot g dest) (hne : src ≠ dest)
    (hc : dijkstra g src dest true = some c) :
    c = INT_MAX ↔ ¬ ∃ d, Walk g src dest d ∧ d < INT_MAX := by
  by_cases hup : RouterUp g src
  · obtain ⟨st, hrun, inv, _, hsound, hopt⟩ := runDijkstra_optimal hdv hnn hs hup
    obtain ⟨_, _, dd, hdd, hdij, _, _⟩ := path_queries_of_run hs hd hrun
    have e : dd = c := by
      rw [hdij] at hc
      exact Option.some.inj hc
    subst e
    constructor
    · rintro hmax ⟨d, hw, hlt⟩
      obtain ⟨d1, hd1, hle⟩ := hopt dest d hw hlt
      rw [hdd] at hd1
      cases hd1
      omega
    · intro hno
      by_contra hmax
      have hw := (hsound dest dd hdd hmax).2
      have hle := inv.dist_le dest dd hdd
      exact hno ⟨dd, hw, lt_of_le_of_ne hle hmax⟩
  · obtain ⟨st, hrun, inv, _, _⟩ := runDijkstra_result hdv hs
    obtain ⟨_, _, dd, hdd, hdij, _, _⟩ := path_queries_of_run hs hd hrun
    have e : dd = c := by
      rw [hdij] at hc
      exact Option.some.inj hc
    subst e
    constructor
    · rintro _ ⟨d, hw, _⟩
      exact hup (walk_src_up hw)
    · intro _
      exact down_source_dist inv hup hne hdd

/-- The row that the loop body of `printRoutingTable` writes for a slot `dest` other
than `routerIdx`. -/
theorem tableRow_spec {g : Graph} {routerIdx : Int} {dest : Nat} (hdv : DestsValid g)
    (hs : ValidSlot g routerIdx) (hd : dest < g.nodes.length)
    (hne : (dest : Int) ≠ routerIdx) :
    ∃ row, tableRow g routerIdx dest = some row ∧ RowSpec g routerIdx dest row := by
  have hd2 : ValidSlot g (dest : Int) := by
    constructor
    · omega
    · unfold Graph.V; omega
  obtain ⟨st, hrun, inv, _, dd, hdd, hdij, hmaxcase, hpath⟩ := path_queries hdv hs hd2
  obtain ⟨rd, hrd⟩ := getAt_of_bounds g.nodes hd2.1 hd2.2
  have hwalk : CostsNonneg g → ∀ row : TableRow, (row.cost = CostCell.inf ↔ dd = INT_MAX) →
      (row.cost = CostCell.inf ↔ ¬ ∃ d, Walk g routerIdx dest d ∧ d < INT_MAX) := by
    intro hnn row hrow
    rw [hrow]
    exact cost_max_iff_no_walk hdv hnn hs hd2 (Ne.symm hne) hdij
  by_cases hmax : dd = INT_MAX
  · have hnh := (hmaxcase hmax).2
    refine ⟨⟨rd.name, "-", CostCell.inf⟩, ?_, rd, dd, -1, hrd, rfl, hdij, hnh, ?_, ?_, ?_, ?_,
      ?_⟩
    · unfold tableRow
      simp [hnh, hdij, hrd, hmax]
    · simp [hmax]
    · simp [hmax]
    · intro _; rfl
    · intro h; exact absurd hmax h
    · intro hnn
      exact hwalk hnn _ (by simp [hmax])
  · obtain ⟨p, hp1, hp2, _, _, _, hhop⟩ := hpath hmax
    obtain ⟨hop, hh1, hh2⟩ := hhop (Ne.symm hne)
    have hs2 : routerIdx < (g.nodes.length : Int) := hs.2
    have hsp : 0 ≤ routerIdx ∧ routerIdx < (st.prev.length : Int) := by
      rw [inv.len_prev]; exact ⟨hs.1, hs2⟩
    have hb := chain_bounds hp1 hsp hop (List.getElem?_mem hh1)
    rw [inv.len_prev] at hb
    obtain ⟨rh, hrh⟩ := getAt_of_bounds g.nodes hb.1 hb.2
    have hop1 : hop ≠ -1 := by omega
    have hop2 : hop ≠ routerIdx := by
      obtain ⟨q, hq⟩ := chain_head hp1
      subst hq
      simp only [List.getElem?_cons_succ] at hh1
      have hmem := List.getElem?_mem hh1
      intro heq
      subst heq
      exact (List.nodup_cons.mp hp2).1 hmem
    refine ⟨⟨rd.name, rh.name, CostCell.ms dd⟩, ?_, rd, dd, hop, hrd, rfl, hdij, hh2, ?_, ?_,
      ?_, ?_, ?_⟩
    · unfold tableRow
      simp [hh2, hdij, hrd, hmax, hop1, hop2, hrh]
    · simp [hmax]
    · simp [hmax, hop1]
    · intro h; exact absurd h hmax
    · intro _; exact ⟨rfl, rh, hrh, rfl⟩
    · intro hnn
      exact hwalk hnn _ (by simp [hmax])

/-- The rows that the loop of `printRoutingTable` writes for a list of slots in range. -/
theorem tableRows_spec {g : Graph} {routerIdx : Int} (hdv : DestsValid g)
    (hs : ValidSlot g routerIdx) :
    ∀ dests : List Nat, (∀ d ∈ dests, d < g.nodes.length) →
      ∃ rows, tableRows g routerIdx dests = some rows ∧
        List.Forall₂ (RowSpec g routerIdx)
          (dests.filter (fun d => decide ((d : Int) ≠ routerIdx))) rows
  | [], _ => ⟨[], rfl, by simp⟩
  | dest :: dests, h => by
    obtain ⟨rows, hr1, hr2⟩ := tableRows_spec hdv hs dests
      (fun d hd => h d (List.mem_cons_of_mem _ hd))
    by_cases heq : (dest : Int) = routerIdx
    · refine ⟨rows, ?_, ?_⟩
      · unfold tableRows
        simp [heq, hr1]
      · simpa [List.filter_cons, heq] using hr2
    · obtain ⟨row, hw1, hw2⟩ := tableRow_spec hdv hs (h dest (List.mem_cons_self _ _)) heq
      refine ⟨row :: rows, ?_, ?_⟩
      · unfold tableRows
        simp [heq, hw1, hr1]
      · simp only [List.filter_cons, heq, ne_eq, not_false_eq_true, decide_True, if_true]
        exact List.Forall₂.cons hw2 hr2

/-- C23: on a well-formed store and for a valid `routerIdx`, `printRoutingTable` writes
the title with the router's name and one row for each slot `dest != routerIdx`, in slot
order. The row names `dest`; its cost column is `INF` if and only if
`dijkstra(routerIdx, dest, true)` is `INT_MAX`, which is if and only if
`getNextHop(routerIdx, dest)` is `-1`, and then the next-hop column is `-`; otherwise
the row shows the name of the router `getNextHop(routerIdx, dest)` and the cost
`dijkstra(routerIdx, dest, true)`. With non-negative costs the cost column is `INF`
exactly when no walk over up routers and usable records costs less than `INT_MAX`. -/
theorem routing_table_rows (g : Graph) (hwf : WellFormed g) (routerIdx : Int)
    (hv : ValidSlot g routerIdx) :
    ∃ r rows, getAt g.nodes routerIdx = some r ∧
      printRoutingTable g routerIdx = some (TableOutput.table r.name rows) ∧
      List.Forall₂ (RowSpec g routerIdx)
        ((List.range g.nodes.length).filter (fun d => decide ((d : Int) ≠ routerIdx)))
        rows := by
  obtain ⟨r, hr⟩ := getAt_of_bounds g.nodes hv.1 hv.2
  obtain ⟨rows, h1, h2⟩ := tableRows_spec hwf.1 hv (List.range g.nodes.length)
    (fun d hd => List.mem_range.mp hd)
  refine ⟨r, rows, hr, ?_, h2⟩
  unfold printRoutingTable
  have : ¬ (routerIdx < 0 ∨ routerIdx ≥ g.V) := by
    have := hv.1; have := hv.2; omega
  simp [this, hr, h1]

/-- C23 at a concrete store: the routing table of `R0` in the scenario store. -/
theorem routing_table_rows_witness :
    WellFormed scenario ∧ ValidSlot scenario 0 ∧
      printRoutingTable scenario 0 = some (TableOutput.table "R0"
        [⟨"R1", "R1", CostCell.ms 10⟩, ⟨"R2", "R1", CostCell.ms 25⟩,
          ⟨"R3", "R1", CostCell.ms 40⟩, ⟨"R4", "R4", CostCell.ms 50⟩]) ∧
      ∃ r rows, getAt scenario.nodes 0 = some r ∧
        printRoutingTable scenario 0 = some (TableOutput.table r.name rows) ∧
        List.Forall₂ (RowSpec scenario 0)
          ((List.range scenario.nodes.length).filter (fun d => decide ((d : Int) ≠ 0)))
          rows :=
  ⟨by decide, by decide, by decide, routing_table_rows scenario (by decide) 0 (by decide)⟩

/-! ## Saving and loading (C26) -/

theorem getRouterIndex_none {g : Graph} {n : String} (h : ∀ r ∈ g.nodes, r.name ≠ n) :
    getRouterIndex g n = -1 := by
  rcases findName_spec n g.nodes 0 with ⟨h1, _⟩ | ⟨k, ro, _, h2, h3⟩
  · exact h1
  · exact absurd h3 (h ro (List.getElem?_mem h2))

theorem words_single_nonempty {s : String} (h : words s = [s]) : s.isEmpty = false := by
  cases hs : s.isEmpty with
  | false => rfl
  | true =>
    have e : s = "" := (String.isEmpty_iff s).mp hs
    subst e
    exact absurd h (by decide)

/-- The call `addRouter(name)` for a name that is not empty and not yet known, below the
capacity. -/
theorem addRouter_new {g : Graph} {name : String} (hcap : g.nodes.length < MAX_V)
    (hne : name.isEmpty = false) (hnew : ∀ r ∈ g.nodes, r.name ≠ name) :
    addRouter g name = ⟨g.nodes ++ [⟨name, true, []⟩]⟩ := by
  unfold addRouter
  have h1 : ¬ g.nodes.length ≥ MAX_V := by omega
  simp [h1, hne, getRouterIndex_none hnew]

theorem setUp_last (rs : List Router) (name : String) (b : Bool) :
    setUp ⟨rs ++ [⟨name, true, []⟩]⟩ (rs.length : Int) b = ⟨rs ++ [⟨name, b, []⟩]⟩ := by
  unfold setUp
  have h1 : getAt (rs ++ [(⟨name, true, []⟩ : Router)]) (rs.length : Int)
      = some ⟨name, true, []⟩ := by
    rw [getAt_natCast]; simp
  simp only [h1]
  have h2 : setAt (rs ++ [(⟨name, true, []⟩ : Router)]) (rs.length : Int) ⟨name, b, []⟩
      = rs ++ [⟨name, b, []⟩] := by
    unfold setAt
    simp
  rw [h2]

/-- The router loop of `loadFromFile` on the tokens of router lines with distinct
single-token names: every line is loaded as one router without records, and the tokens
after the router lines remain. -/
theorem loadRouters_lines :
    ∀ (ls pre : List (String × Bool)) (rest : List Token),
      ((pre ++ ls).map Prod.fst).Nodup → (∀ l ∈ ls, words l.1 = [l.1]) →
      (pre ++ ls).length ≤ MAX_V →
      loadRouters ls.length (pre.length : Int) ⟨pre.map routerOfLine⟩
          (ls.flatMap routerTokens ++ rest)
        = some (⟨(pre ++ ls).map routerOfLine⟩, some rest)
  | [], pre, rest, _, _, _ => by simp [loadRouters]
  | l :: ls, pre, rest, hnd, htok, hcap => by
    have hw := htok l (List.mem_cons_self _ _)
    have hne := words_single_nonempty hw
    have hnew : ∀ r ∈ pre.map routerOfLine, r.name ≠ l.1 := by
      intro r hr heq
      obtain ⟨p, hp, rfl⟩ := List.mem_map.mp hr
      rw [List.map_append, List.nodup_append] at hnd
      exact hnd.2.2 (List.mem_map_of_mem Prod.fst hp)
        (by rw [show p.1 = l.1 from heq]; simp)
    have hlen : (pre.map routerOfLine).length < MAX_V := by
      simp only [List.length_append, List.length_cons, List.length_map] at hcap ⊢
      omega
    have hadd := addRouter_new (g := ⟨pre.map routerOfLine⟩) hlen hne hnew
    have hset := setUp_last (pre.map routerOfLine) l.1
      (decide ((if l.2 = true then (1 : Int) else 0) = 1))
    rw [List.length_map] at hset
    have hb : decide ((if l.2 = true then (1 : Int) else 0) = 1) = l.2 := by
      cases l.2 <;> simp
    rw [hb] at hset
    have ih := loadRouters_lines ls (pre ++ [l]) rest
      (by simpa using hnd) (fun x hx => htok x (List.mem_cons_of_mem _ hx))
      (by simpa using hcap)
    have e1 : (pre ++ [l]).map routerOfLine = pre.map routerOfLine ++ [⟨l.1, l.2, []⟩] := by
      simp [routerOfLine]
    have e2 : ((pre ++ [l]).length : Int) = (pre.length : Int) + 1 := by simp
    rw [e1, e2] at ih
    simp only [List.length_cons, List.flatMap_cons, routerTokens, hw, List.map_cons,
      List.map_nil, List.singleton_append, List.cons_append, List.nil_append, loadRouters,
      readString, readInt, readFloat]
    rw [hadd]
    dsimp only
    rw [hb, hset, ih]
    simp

/-- The link loop of `loadFromFile` on the tokens of link lines with single-token names:
it makes the calls `addEdge(from, to, cost)` in order, within any budget above the number
of lines. -/
theorem loadEdges_lines :
    ∀ (ls : List (String × String × Int)) (n : Nat) (g : Graph),
      (∀ l ∈ ls, words l.1 = [l.1] ∧ words l.2.1 = [l.2.1]) → ls.length < n →
      loadEdges n g (ls.flatMap linkTokens) = some (addLinks g ls)
  | [], n, g, _, hn => by
    cases n with
    | zero => omega
    | succ n => simp [loadEdges, readString, addLinks]
  | l :: ls, n, g, htok, hn => by
    cases n with
    | zero => omega
    | succ n =>
      obtain ⟨h1, h2⟩ := htok l (List.mem_cons_self _ _)
      have ih := loadEdges_lines ls n (addEdge g l.1 l.2.1 l.2.2)
        (fun x hx => htok x (List.mem_cons_of_mem _ hx))
        (by simp only [List.length_cons] at hn; omega)
      simp only [List.flatMap_cons, linkTokens, h1, h2, List.map_cons, List.map_nil,
        List.singleton_append, List.cons_append, List.nil_append, loadEdges, readString,
        readInt]
      rw [ih]
      simp [addLinks]

theorem mem_linkSlots {i : Int} {t : Int × Int × Int} :
    ∀ es : List EdgeNode, t ∈ linkSlots i es ↔
      ∃ e ∈ es, i < e.dest ∧ t = (i, e.dest, e.originalCost)
  | [] => by simp [linkSlots]
  | e :: es => by
    have ih := mem_linkSlots (i := i) (t := t) es
    unfold linkSlots
    by_cases h : i < e.dest
    · rw [if_pos h, List.mem_cons, ih]
      constructor
      · rintro (h1 | ⟨x, hx, h2⟩)
        · exact ⟨e, List.mem_cons_self _ _, h, h1⟩
        · exact ⟨x, List.mem_cons_of_mem _ hx, h2⟩
      · rintro ⟨x, hx, h2, h3⟩
        rcases List.mem_cons.mp hx with rfl | hx
        · exact Or.inl h3
        · exact Or.inr ⟨x, hx, h2, h3⟩
    · rw [if_neg h, ih]
      constructor
      · rintro ⟨x, hx, h2⟩
        exact ⟨x, List.mem_cons_of_mem _ hx, h2⟩
      · rintro ⟨x, hx, h2, h3⟩
        rcases List.mem_cons.mp hx with rfl | hx
        · exact absurd h2 h
        · exact ⟨x, hx, h2, h3⟩

theorem linkSlots_pairs_nodup {i : Int} :
    ∀ es : List EdgeNode, (es.map EdgeNode.dest).Nodup →
      ((linkSlots i es).map (fun t => (t.1, t.2.1))).Nodup
  | [], _ => by simp [linkSlots]
  | e :: es, h => by
    rw [List.map_cons, List.nodup_cons] at h
    have ih := linkSlots_pairs_nodup (i := i) es h.2
    unfold linkSlots
    by_cases hlt : i < e.dest
    · rw [if_pos hlt, List.map_cons, List.nodup_cons]
      refine ⟨?_, ih⟩
      intro hmem
      obtain ⟨t, ht, heq⟩ := List.mem_map.mp hmem
      obtain ⟨x, hx, _, rfl⟩ := (mem_linkSlots es).mp ht
      simp only [Prod.mk.injEq] at heq
      exact h.1 (List.mem_map.mpr ⟨x, hx, heq.2⟩)
    · rw [if_neg hlt]; exact ih

theorem allLinkSlots_ge :
    ∀ (rs : List Router) (i : Int) (t : Int × Int × Int), t ∈ allLinkSlots i rs → i ≤ t.1
  | [], _, _, h => by simp [allLinkSlots] at h
  | r :: rs, i, t, h => by
    unfold allLinkSlots at h
    rcases List.mem_append.mp h with h | h
    · obtain ⟨x, _, _, rfl⟩ := (mem_linkSlots r.head).mp h
      exact le_refl _
    · have := allLinkSlots_ge rs (i + 1) t h
      omega

/-- With one record per target no two link lines are written for the same pair of
slots. -/
theorem allLinkSlots_pairs_nodup :
    ∀ (rs : List Router) (i : Int), (∀ r ∈ rs, (r.head.map EdgeNode.dest).Nodup) →
      ((allLinkSlots i rs).map (fun t => (t.1, t.2.1))).Nodup
  | [], _, _ => by simp [allLinkSlots]
  | r :: rs, i, h => by
    unfold allLinkSlots
    rw [List.map_append, List.nodup_append]
    refine ⟨linkSlots_pairs_nodup r.head (h r (List.mem_cons_self _ _)),
      allLinkSlots_pairs_nodup rs (i + 1) (fun x hx => h x (List.mem_cons_of_mem _ hx)), ?_⟩
    intro p hp1 hp2
    obtain ⟨t, ht, rfl⟩ := List.mem_map.mp hp1
    obtain ⟨s, hs, heq⟩ := List.mem_map.mp hp2
    obtain ⟨x, _, _, rfl⟩ := (mem_linkSlots r.head).mp ht
    have := allLinkSlots_ge rs (i + 1) s hs
    simp only [Prod.mk.injEq] at heq
    omega

theorem mem_allLinkSlots {t : Int × Int × Int} :
    ∀ (rs : List Router) (i : Int), t ∈ allLinkSlots i rs ↔
      ∃ (k : Nat) (r : Router) (e : EdgeNode), rs[k]? = some r ∧ e ∈ r.head ∧
        i + k < e.dest ∧ t = (i + k, e.dest, e.originalCost)
  | [], i => by simp [allLinkSlots]
  | r :: rs, i => by
    have ih := mem_allLinkSlots (t := t) rs (i + 1)
    unfold allLinkSlots
    rw [List.mem_append, mem_linkSlots, ih]
    constructor
    · rintro (⟨e, he, h1, h2⟩ | ⟨k, r2, e, hk, he, h1, h2⟩)
      · exact ⟨0, r, e, by simp, he, by simpa using h1, by simpa using h2⟩
      · refine ⟨k + 1, r2, e, by simpa using hk, he, ?_, ?_⟩
        · push_cast; omega
        · rw [h2]; push_cast; simp only [Prod.mk.injEq, and_true]; omega
    · rintro ⟨k, r2, e, hk, he, h1, h2⟩
      cases k with
      | zero =>
        simp only [List.getElem?_cons_zero, Option.some.injEq] at hk
        subst hk
        exact Or.inl ⟨e, he, by simpa using h1, by simpa using h2⟩
      | succ k =>
        simp only [List.getElem?_cons_succ] at hk
        refine Or.inr ⟨k, r2, e, hk, he, ?_, ?_⟩
        · push_cast at h1; omega
        · rw [h2]; push_cast; simp only [Prod.mk.injEq, and_true]; omega

/-- The link lines of the whole store: one triple `(u, v, c)` for each record with
original cost `c` that a slot `u` holds for a slot `v` above it. -/
theorem mem_allLinkSlots_store {g : Graph} {t : Int × Int × Int} :
    t ∈ allLinkSlots 0 g.nodes ↔
      t.1 < t.2.1 ∧ ∃ e ∈ headOf g t.1, e.dest = t.2.1 ∧ e.originalCost = t.2.2 := by
  rw [mem_allLinkSlots]
  constructor
  · rintro ⟨k, r, e, hk, he, h1, rfl⟩
    simp only [zero_add] at h1 ⊢
    refine ⟨h1, e, ?_, rfl, rfl⟩
    unfold headOf
    rw [getAt_natCast, hk]
    exact he
  · rintro ⟨h1, e, he, h2, h3⟩
    obtain ⟨r, hr, _, her⟩ := headOf_mem_nodes he
    have hb := getAt_some_bounds hr
    refine ⟨t.1.toNat, r, e, getAt_toNat hr, her, ?_, ?_⟩
    · rw [h2]; simp only [zero_add]
      have : ((t.1.toNat : Nat) : Int) = t.1 := Int.toNat_of_nonneg hb.1
      omega
    · have : ((t.1.toNat : Nat) : Int) = t.1 := Int.toNat_of_nonneg hb.1
      rw [zero_add, this, h2, h3]

theorem linkLines_eq {g : Graph} {i : Int} {r : Router} (hr : getAt g.nodes i = some r) :
    ∀ es : List EdgeNode, (∀ e ∈ es, 0 ≤ e.dest ∧ e.dest < g.V) →
      linkLines g i r es = some ((linkSlots i es).map (lineOf g))
  | [], _ => by simp [linkLines, linkSlots]
  | e :: es, h => by
    have ih := linkLines_eq hr es (fun x hx => h x (List.mem_cons_of_mem _ hx))
    have hv := h e (List.mem_cons_self _ _)
    obtain ⟨rv, hrv⟩ := getAt_of_bounds g.nodes hv.1 hv.2
    unfold linkLines linkSlots
    by_cases hlt : i < e.dest
    · simp only [hlt, if_true, hrv, ih, List.map_cons, lineOf, nameAt, hr]
    · simp only [hlt, if_false, ih]

theorem allLinkLines_eq {g : Graph} :
    ∀ (rs : List Router) (i : Nat),
      (∀ (k : Nat) (r : Router), rs[k]? = some r → g.nodes[i + k]? = some r) →
      (∀ r ∈ rs, ∀ e ∈ r.head, 0 ≤ e.dest ∧ e.dest < g.V) →
      allLinkLines g (i : Int) rs = some ((allLinkSlots (i : Int) rs).map (lineOf g))
  | [], _, _, _ => by simp [allLinkLines, allLinkSlots]
  | r :: rs, i, hpos, hdv => by
    have hr : getAt g.nodes (i : Int) = some r := by
      rw [getAt_natCast]
      exact hpos 0 r (by simp)
    have h1 := linkLines_eq hr r.head (hdv r (List.mem_cons_self _ _))
    have ih := allLinkLines_eq rs (i + 1)
      (fun k x hk => by
        have := hpos (k + 1) x (by simpa using hk)
        rw [show i + 1 + k = i + (k + 1) by omega]
        exact this)
      (fun x hx => hdv x (List.mem_cons_of_mem _ hx))
    unfold allLinkLines allLinkSlots
    rw [h1]
    simp only
    have e : ((i : Int) + 1) = ((i + 1 : Nat) : Int) := by push_cast; rfl
    rw [e, ih]
    simp

/-- On a store whose record targets are in range `saveToFile` writes the router count,
the name and up flag of every router in slot order, and the link lines of
`allLinkSlots`. -/
theorem saveToFile_eq {g : Graph} (hdv : DestsValid g) :
    saveToFile g = some ⟨g.V, g.nodes.map (fun r => (r.name, r.up)),
      (allLinkSlots 0 g.nodes).map (lineOf g)⟩ := by
  have h := allLinkLines_eq (g := g) g.nodes 0 (fun k r hk => by simpa using hk) hdv
  unfold saveToFile
  simp only [Nat.cast_zero] at h
  rw [h]

/-- The name of a slot of a store with distinct names is found at that slot in every
store with the same labels. -/
theorem getRouterIndex_nameAt {g h : Graph} (hl : labels h = labels g) (hun : UniqueNames g)
    {i : Int} {r : Router} (hr : getAt g.nodes i = some r) :
    getRouterIndex h (nameAt g i) = i := by
  rw [getRouterIndex_congr hl]
  have hb := getAt_some_bounds hr
  have h1 := getRouterIndex_of_unique hun (getAt_toNat hr)
  have h2 : ((i.toNat : Nat) : Int) = i := Int.toNat_of_nonneg hb.1
  unfold nameAt
  rw [hr]
  simp only
  rw [h1, h2]

theorem getAt_of_labels {g h : Graph} (hl : labels h = labels g) {i : Int} {r : Router}
    (hr : getAt g.nodes i = some r) : ∃ r2, getAt h.nodes i = some r2 := by
  have hb := getAt_some_bounds hr
  have hlen : h.nodes.length = g.nodes.length := by
    rw [← labels_length h, ← labels_length g, hl]
  exact getAt_of_bounds _ hb.1 (by rw [hlen]; exact hb.2)

/-- The call `addEdge` for a link line between two slots that are not linked yet keeps
the labels and adds the two records of the line. -/
theorem addEdge_new_heads {g h : Graph} (hl : labels h = labels g) (hun : UniqueNames g)
    {i j c : Int} {ri rj : Router} (hi : getAt g.nodes i = some ri)
    (hj : getAt g.nodes j = some rj) (hij : i ≠ j)
    (h1 : hasDest j (headOf h i) = false) (h2 : hasDest i (headOf h j) = false) :
    labels (addEdge h (nameAt g i) (nameAt g j) c) = labels g ∧
      ∀ u e, e ∈ headOf (addEdge h (nameAt g i) (nameAt g j) c) u ↔
        e ∈ headOf h u ∨ MadeBy (i, j, c) u e := by
  refine ⟨by rw [addEdge_labels, hl], ?_⟩
  have hbi := getAt_some_bounds hi
  have hbj := getAt_some_bounds hj
  have e1 := addEdge_eq (g := h) (c := c) (getRouterIndex_nameAt hl hun hi)
    (getRouterIndex_nameAt hl hun hj) (by omega) (by omega) hij
  simp only [h1, h2, Bool.or_self, Bool.false_eq_true, if_false] at e1
  obtain ⟨hi2, hhi⟩ := getAt_of_labels hl hi
  obtain ⟨hj2, hhj⟩ := getAt_of_labels hl hj
  obtain ⟨hj3, hhj3⟩ := getAt_mapHead_isSome (i := i)
    (f := fun es => (⟨j, c, c, true⟩ : EdgeNode) :: es) hhj
  intro u e
  rw [e1]
  by_cases huj : u = j
  · subst huj
    rw [headOf_mapHead_self _ hhj3, headOf_mapHead_ne _ _ hij]
    simp only [List.mem_cons, MadeBy]
    constructor
    · rintro (h | h)
      · exact Or.inr (Or.inr ⟨trivial, h⟩)
      · exact Or.inl h
    · rintro (h | ⟨h, _⟩ | ⟨_, h⟩)
      · exact Or.inr h
      · exact absurd h.symm hij
      · exact Or.inl h
  · rw [headOf_mapHead_ne _ _ (Ne.symm huj)]
    by_cases hui : u = i
    · subst hui
      rw [headOf_mapHead_self _ hhi]
      simp only [List.mem_cons, MadeBy]
      constructor
      · rintro (h | h)
        · exact Or.inr (Or.inl ⟨trivial, h⟩)
        · exact Or.inl h
      · rintro (h | ⟨_, h⟩ | ⟨h, _⟩)
        · exact Or.inr h
        · exact Or.inl h
        · exact absurd h huj
    · rw [headOf_mapHead_ne _ _ (Ne.symm hui)]
      simp only [MadeBy]
      constructor
      · intro h; exact Or.inl h
      · rintro (h | ⟨h, _⟩ | ⟨h, _⟩)
        · exact h
        · exact absurd h hui
        · exact absurd h huj

/-- The calls `addEdge` for the link lines of a list of slot triples, no two for the same
pair of slots and each from a slot to a higher one: the labels stay and the records
afterwards are exactly those made for the lines. -/
theorem addLinks_made {g : Graph} (hun : UniqueNames g) :
    ∀ (ts done : List (Int × Int × Int)) (h : Graph), labels h = labels g →
      (∀ u e, e ∈ headOf h u ↔ ∃ t ∈ done, MadeBy t u e) →
      ((done ++ ts).map (fun t => (t.1, t.2.1))).Nodup →
      (∀ t ∈ done ++ ts, t.1 < t.2.1 ∧ (∃ r, getAt g.nodes t.1 = some r) ∧
        ∃ r, getAt g.nodes t.2.1 = some r) →
      labels (addLinks h (ts.map (lineOf g))) = labels g ∧
        ∀ u e, e ∈ headOf (addLinks h (ts.map (lineOf g))) u ↔
          ∃ t ∈ done ++ ts, MadeBy t u e
  | [], done, h, hl, hrec, _, _ => by
    simp only [List.map_nil, addLinks, List.foldl_nil, List.append_nil]
    exact ⟨hl, hrec⟩
  | t :: ts, done, h, hl, hrec, hnd, hok => by
    obtain ⟨hlt, ⟨ri, hri⟩, ⟨rj, hrj⟩⟩ := hok t (by simp)
    have hfresh : ∀ s ∈ done, ¬ (s.1 = t.1 ∧ s.2.1 = t.2.1) := by
      intro s hs heq
      rw [List.map_append, List.nodup_append] at hnd
      refine hnd.2.2 (List.mem_map_of_mem _ hs) ?_
      rw [List.map_cons]
      have : (s.1, s.2.1) = (t.1, t.2.1) := by rw [heq.1, heq.2]
      rw [this]
      exact List.mem_cons_self _ _
    have h1 : hasDest t.2.1 (headOf h t.1) = false := by
      rw [hasDest_eq_false]
      intro e he hd
      obtain ⟨s, hs, hm⟩ := (hrec t.1 e).mp he
      have hs2 := (hok s (List.mem_append_left _ hs)).1
      rcases hm with ⟨h3, h4⟩ | ⟨h3, h4⟩
      · rw [h4] at hd
        exact hfresh s hs ⟨h3.symm, hd⟩
      · rw [h4] at hd
        simp only at hd
        omega
    have h2 : hasDest t.1 (headOf h t.2.1) = false := by
      rw [hasDest_eq_false]
      intro e he hd
      obtain ⟨s, hs, hm⟩ := (hrec t.2.1 e).mp he
      have hs2 := (hok s (List.mem_append_left _ hs)).1
      rcases hm with ⟨h3, h4⟩ | ⟨h3, h4⟩
      · rw [h4] at hd
        simp only at hd
        omega
      · rw [h4] at hd
        exact hfresh s hs ⟨hd, h3.symm⟩
    obtain ⟨hl2, hrec2⟩ := addEdge_new_heads (c := t.2.2) hl hun hri hrj (ne_of_lt hlt) h1 h2
    have hrec3 : ∀ u e, e ∈ headOf (addEdge h (nameAt g t.1) (nameAt g t.2.1) t.2.2) u ↔
        ∃ s ∈ done ++ [t], MadeBy s u e := by
      intro u e
      rw [hrec2, hrec]
      constructor
      · rintro (⟨s, hs, hm⟩ | hm)
        · exact ⟨s, List.mem_append_left _ hs, hm⟩
        · exact ⟨t, by simp, hm⟩
      · rintro ⟨s, hs, hm⟩
        rcases List.mem_append.mp hs with hs | hs
        · exact Or.inl ⟨s, hs, hm⟩
        · rw [List.mem_singleton.mp hs] at hm
          exact Or.inr hm
    have ih := addLinks_made hun ts (done ++ [t])
      (addEdge h (nameAt g t.1) (nameAt g t.2.1) t.2.2) hl2 hrec3
      (by rw [List.append_assoc]; exact hnd) (by rw [List.append_assoc]; exact hok)
    rw [List.append_assoc] at ih
    exact ih

theorem addLinks_oneRecord :
    ∀ (ls : List (String × String × Int)) (g : Graph), OneRecordPerDest g →
      OneRecordPerDest (addLinks g ls)
  | [], _, h => h
  | l :: ls, _, h => addLinks_oneRecord ls _ (oneRecord_addEdge h l.1 l.2.1 l.2.2)

theorem getAt_same_labels {g h : Graph} (hl : labels h = labels g) {i : Int} {r : Router}
    (hr : getAt g.nodes i = some r) :
    ∃ r2, getAt h.nodes i = some r2 ∧ r2.name = r.name ∧ r2.up = r.up := by
  obtain ⟨r2, hr2⟩ := getAt_of_labels hl hr
  refine ⟨r2, hr2, ?_⟩
  have h1 := getAt_toNat hr
  have h2 := getAt_toNat hr2
  have h3 : (labels h)[i.toNat]? = some (r2.name, r2.up) := by
    simp [labels, List.getElem?_map, h2]
  have h4 : (labels g)[i.toNat]? = some (r.name, r.up) := by
    simp [labels, List.getElem?_map, h1]
  rw [hl, h4] at h3
  simp only [Option.some.injEq, Prod.mk.injEq] at h3
  exact ⟨h3.1.symm, h3.2.symm⟩

/-- Links named by their endpoints carry over between two stores with the same labels
when the records carry over slot by slot. -/
theorem hasLink_transfer {g h : Graph} (hl : labels h = labels g)
    (hrec : ∀ u v c, (∃ e ∈ headOf h u, e.dest = v ∧ e.originalCost = c) →
      ∃ e ∈ headOf g u, e.dest = v ∧ e.originalCost = c)
    {a b : String} {c : Int} (hk : HasLink h a b c) : HasLink g a b c := by
  obtain ⟨u, ru, e, rv, hu, ha, he, hv, hb, hc⟩ := hk
  obtain ⟨e2, he2, hd2, hc2⟩ := hrec u e.dest c
    ⟨e, by rw [headOf_of_getAt hu]; exact he, rfl, hc⟩
  obtain ⟨r2, hr2, _, her2⟩ := headOf_mem_nodes he2
  obtain ⟨x, hx, hxn, _⟩ := getAt_same_labels hl hr2
  rw [hu] at hx
  cases hx
  have hvb := getAt_some_bounds hv
  have hlen : h.nodes.length = g.nodes.length := by
    rw [← labels_length h, ← labels_length g, hl]
  obtain ⟨rv2, hrv2⟩ := getAt_of_bounds g.nodes hvb.1 (by rw [← hlen]; exact hvb.2)
  obtain ⟨y, hy, hyn, _⟩ := getAt_same_labels hl hrv2
  rw [hv] at hy
  cases hy
  exact ⟨u, r2, e2, rv2, hr2, by rw [← hxn]; exact ha, her2, by rw [hd2]; exact hrv2,
    by rw [← hyn]; exact hb, hc2⟩

theorem length_flatMap_linkTokens :
    ∀ ls : List (String × String × Int), ls.length ≤ (ls.flatMap linkTokens).length
  | [] => by simp
  | l :: ls => by
    have ih := length_flatMap_linkTokens ls
    simp only [List.flatMap_cons, List.length_append, List.length_cons, linkTokens,
      List.length_map, List.length_nil]
    omega

/-- The store that the router section of a saved text is loaded as. -/
theorem loaded_routers_labels (g : Graph) :
    labels ⟨(g.nodes.map (fun r => (r.name, r.up))).map routerOfLine⟩ = labels g ∧
      ∀ u, headOf ⟨(g.nodes.map (fun r => (r.name, r.up))).map routerOfLine⟩ u = [] := by
  constructor
  · simp [labels, routerOfLine, List.map_map, Function.comp_def]
  · intro u
    unfold headOf
    cases h : getAt (⟨(g.nodes.map (fun r => (r.name, r.up))).map routerOfLine⟩ : Graph).nodes u with
    | none => rfl
    | some r =>
      have hm := getAt_mem h
      simp only [List.map_map, List.mem_map, Function.comp_apply, routerOfLine] at hm
      obtain ⟨x, _, rfl⟩ := hm
      rfl

/-- Slot by slot, the records loaded from the link lines of a well-formed store without
self links are the records of the store, with the same targets and original costs. -/
theorem made_iff_records {g : Graph} (hwf : WellFormed g) (hself : NoSelfLinks g)
    (u v c : Int) :
    (∃ t ∈ allLinkSlots 0 g.nodes, MadeBy t u ⟨v, c, c, true⟩) ↔
      ∃ e ∈ headOf g u, e.dest = v ∧ e.originalCost = c := by
  have halves : ∀ (i : Int) (e : EdgeNode), e ∈ headOf g i →
      ∃ e2 ∈ headOf g e.dest, e2.dest = i ∧ e2.originalCost = e.originalCost := by
    intro i e he
    obtain ⟨r, hr, _, _⟩ := headOf_mem_nodes he
    have hb := getAt_some_bounds hr
    have hc : ((i.toNat : Nat) : Int) = i := Int.toNat_of_nonneg hb.1
    obtain ⟨e2, h1, h2, _, h3, _⟩ := hwf.2.1 i.toNat (by omega) e (by rw [hc]; exact he)
    exact ⟨e2, h1, by rw [h2, hc], h3⟩
  constructor
  · rintro ⟨t, ht, hm⟩
    obtain ⟨hlt, e, he, hd, hc⟩ := mem_allLinkSlots_store.mp ht
    rcases hm with ⟨h1, h2⟩ | ⟨h1, h2⟩
    · simp only [EdgeNode.mk.injEq, and_true] at h2
      exact ⟨e, by rw [h1]; exact he, by rw [hd, h2.1], by rw [hc, h2.2.1]⟩
    · simp only [EdgeNode.mk.injEq, and_true] at h2
      obtain ⟨e2, h3, h4, h5⟩ := halves t.1 e he
      rw [hd] at h3
      exact ⟨e2, by rw [h1]; exact h3, by rw [h4, h2.1], by rw [h5, hc, h2.2.1]⟩
  · rintro ⟨e, he, hd, hc⟩
    obtain ⟨r, hr, _, _⟩ := headOf_mem_nodes he
    have hb := getAt_some_bounds hr
    have hcast : ((u.toNat : Nat) : Int) = u := Int.toNat_of_nonneg hb.1
    have hne : v ≠ u := by
      have := hself u.toNat (by omega) e (by rw [hcast]; exact he)
      rw [hcast, hd] at this
      exact this
    rcases lt_or_gt_of_ne hne with hlt | hgt
    · obtain ⟨e2, h3, h4, h5⟩ := halves u e he
      rw [hd] at h3
      exact ⟨(v, u, c), mem_allLinkSlots_store.mpr ⟨hlt, e2, h3, h4, by rw [h5, hc]⟩,
        Or.inr ⟨rfl, rfl⟩⟩
    · exact ⟨(u, v, c), mem_allLinkSlots_store.mpr ⟨hgt, e, he, hd, hc⟩, Or.inl ⟨rfl, rfl⟩⟩
/-- C26, at its counterexample: a router named `A B` is a reachable store; its saved text
has the tokens `1 A B 1 x y`, and loading them reads the name `A` and fails on the up
flag `B`, so that the load is aborted with the store empty: the router is lost. -/
theorem save_load_blank_name_counterexample :
    Reachable (addRouter emptyGraph "A B") ∧
      (saveToFile (addRouter emptyGraph "A B")).map tokens
        = some [Token.num 1, Token.word "A", Token.word "B", Token.num 1, Token.real,
            Token.real] ∧
      loadFromFile [Token.num 1, Token.word "A", Token.word "B", Token.num 1, Token.real,
        Token.real] = some emptyGraph ∧
      labels emptyGraph ≠ labels (addRouter emptyGraph "A B") :=
  ⟨Reachable.addRouter _ "A B" Reachable.empty, by decide, by decide, by decide⟩

/-- Saving and loading the store left by `removeRouter("R1")` after four `addRouter` and
`addEdge("R0", "R2", 7)`: the record of `R0` still has `dest = 2`, now the slot of `R3`,
so the link line names `R0` and `R3`, and the loaded store links `R0` with `R3` and leaves
`R2` without a record. -/
theorem save_load_after_removeRouter :
    ((saveToFile (removeRouter (addEdge (addRouter (addRouter (addRouter (addRouter
        emptyGraph "") "") "") "") "R0" "R2" 7) "R1")).map tokens).bind loadFromFile
      = some ⟨[⟨"R0", true, [⟨2, 7, 7, true⟩]⟩, ⟨"R2", true, []⟩,
          ⟨"R3", true, [⟨0, 7, 7, true⟩]⟩]⟩ := by
  decide

/-- C26, amended: for every well-formed store without self links whose router names are
pairwise distinct single tokens and whose router count is at most `MAX_V`, `saveToFile`
writes a text, and loading its tokens gives a store with the same names and up flags in
the same slot order and the same links, by endpoint names and slot by slot, each with the
same original cost; every loaded record is up with its cost equal to its original cost,
and no router holds two records for one target. -/
theorem save_load_round_trip (g : Graph) (hwf : WellFormed g) (hself : NoSelfLinks g)
    (hun : UniqueNames g) (htok : SingleTokenNames g) (hcap : g.nodes.length ≤ MAX_V) :
    ∃ t g2, saveToFile g = some t ∧ loadFromFile (tokens t) = some g2 ∧
      labels g2 = labels g ∧
      (∀ a b c, HasLink g2 a b c ↔ HasLink g a b c) ∧
      (∀ u v c, (∃ e ∈ headOf g2 u, e.dest = v ∧ e.originalCost = c) ↔
        ∃ e ∈ headOf g u, e.dest = v ∧ e.originalCost = c) ∧
      (∀ e, RecordOf g2 e → e.cost = e.originalCost ∧ e.up = true) ∧
      OneRecordPerDest g2 := by
  have hsave := saveToFile_eq hwf.1
  have hok : ∀ t ∈ allLinkSlots 0 g.nodes, t.1 < t.2.1 ∧
      (∃ r, getAt g.nodes t.1 = some r) ∧ ∃ r, getAt g.nodes t.2.1 = some r := by
    intro t ht
    obtain ⟨hlt, e, he, hd, _⟩ := mem_allLinkSlots_store.mp ht
    obtain ⟨r, hr, hrm, her⟩ := headOf_mem_nodes he
    have hv := hwf.1 r hrm e her
    rw [hd] at hv
    exact ⟨hlt, ⟨r, hr⟩, getAt_of_bounds g.nodes hv.1 hv.2⟩
  have hwords : ∀ l ∈ (allLinkSlots 0 g.nodes).map (lineOf g),
      words l.1 = [l.1] ∧ words l.2.1 = [l.2.1] := by
    intro l hl
    obtain ⟨t, ht, rfl⟩ := List.mem_map.mp hl
    obtain ⟨_, ⟨r1, hr1⟩, ⟨r2, hr2⟩⟩ := hok t ht
    simp only [lineOf, nameAt, hr1, hr2]
    exact ⟨htok r1 (getAt_mem hr1), htok r2 (getAt_mem hr2)⟩
  obtain ⟨hl1, hempty⟩ := loaded_routers_labels g
  have hrouters := loadRouters_lines (g.nodes.map (fun r => (r.name, r.up))) []
    ((allLinkSlots 0 g.nodes).map (lineOf g) |>.flatMap linkTokens)
    (by simpa [List.map_map, Function.comp_def] using hun)
    (by
      intro l hl
      obtain ⟨r, hr, rfl⟩ := List.mem_map.mp hl
      exact htok r hr)
    (by simpa using hcap)
  have hedges := loadEdges_lines ((allLinkSlots 0 g.nodes).map (lineOf g))
    (((allLinkSlots 0 g.nodes).map (lineOf g) |>.flatMap linkTokens).length + 1)
    ⟨(g.nodes.map (fun r => (r.name, r.up))).map routerOfLine⟩ hwords
    (Nat.lt_succ_of_le (length_flatMap_linkTokens _))
  obtain ⟨hl2, hrec⟩ := addLinks_made hun (allLinkSlots 0 g.nodes) []
    ⟨(g.nodes.map (fun r => (r.name, r.up))).map routerOfLine⟩ hl1
    (by intro u e; rw [hempty u]; simp)
    (by simpa using allLinkSlots_pairs_nodup g.nodes 0 hwf.2.2)
    (by simpa using hok)
  simp only [List.nil_append] at hrec
  have hload : loadFromFile (tokens ⟨g.V, g.nodes.map (fun r => (r.name, r.up)),
      (allLinkSlots 0 g.nodes).map (lineOf g)⟩)
      = some (addLinks ⟨(g.nodes.map (fun r => (r.name, r.up))).map routerOfLine⟩
          ((allLinkSlots 0 g.nodes).map (lineOf g))) := by
    have h0 : ¬ g.V < 0 := by unfold Graph.V; omega
    have h1 : ¬ g.V > (MAX_V : Int) := by unfold Graph.V; omega
    have h2 : g.V.toNat = (g.nodes.map (fun r => (r.name, r.up))).length := by
      unfold Graph.V; simp
    simp only [List.length_nil, List.map_nil, List.nil_append, Nat.cast_zero] at hrouters
    unfold loadFromFile tokens
    simp only [readInt, h0, h1, if_false, h2]
    have e0 : (⟨[]⟩ : Graph) = emptyGraph := rfl
    rw [e0] at hrouters
    rw [hrouters]
    simp only
    exact hedges
  have hslots : ∀ u v c,
      (∃ e ∈ headOf (addLinks ⟨(g.nodes.map (fun r => (r.name, r.up))).map routerOfLine⟩
        ((allLinkSlots 0 g.nodes).map (lineOf g))) u, e.dest = v ∧ e.originalCost = c) ↔
      ∃ e ∈ headOf g u, e.dest = v ∧ e.originalCost = c := by
    intro u v c
    rw [← made_iff_records hwf hself u v c]
    constructor
    · rintro ⟨e, he, hd, hc⟩
      obtain ⟨t, ht, hm⟩ := (hrec u e).mp he
      refine ⟨t, ht, ?_⟩
      rcases hm with ⟨h1, h2⟩ | ⟨h1, h2⟩
      · rw [h2] at hd hc
        simp only at hd hc
        rw [← hd, ← hc]
        exact Or.inl ⟨h1, rfl⟩
      · rw [h2] at hd hc
        simp only at hd hc
        rw [← hd, ← hc]
        exact Or.inr ⟨h1, rfl⟩
    · rintro ⟨t, ht, hm⟩
      exact ⟨⟨v, c, c, true⟩, (hrec u _).mpr ⟨t, ht, hm⟩, rfl, rfl⟩
  refine ⟨_, _, hsave, hload, hl2, ?_, hslots, ?_, ?_⟩
  · intro a b c
    exact ⟨hasLink_transfer hl2 (fun u v c h => (hslots u v c).mp h),
      hasLink_transfer hl2.symm (fun u v c h => (hslots u v c).mpr h)⟩
  · rintro e ⟨r, hr, her⟩
    obtain ⟨k, hk⟩ := List.getElem?_of_mem hr
    have hg : getAt (addLinks ⟨(g.nodes.map (fun r => (r.name, r.up))).map routerOfLine⟩
        ((allLinkSlots 0 g.nodes).map (lineOf g))).nodes (k : Int) = some r := by
      rw [getAt_natCast]; exact hk
    obtain ⟨t, _, hm⟩ := (hrec (k : Int) e).mp (by rw [headOf_of_getAt hg]; exact her)
    rcases hm with ⟨_, h2⟩ | ⟨_, h2⟩
    · rw [h2]; exact ⟨rfl, rfl⟩
    · rw [h2]; exact ⟨rfl, rfl⟩
  · apply addLinks_oneRecord
    intro r hr
    simp only [List.map_map, List.mem_map, Function.comp_apply, routerOfLine] at hr
    obtain ⟨x, _, rfl⟩ := hr
    simp

/-- C26, amended, at a concrete store: the scenario store. -/
theorem save_load_round_trip_witness :
    WellFormed scenario ∧ NoSelfLinks scenario ∧ UniqueNames scenario ∧
      SingleTokenNames scenario ∧
      ∃ t g2, saveToFile scenario = some t ∧ loadFromFile (tokens t) = some g2 ∧
        labels g2 = labels scenario :=
  ⟨by decide, by decide, by decide, by decide,
    (save_load_round_trip scenario (by decide) (by decide) (by decide) (by decide)
      (by decide)).imp (fun _ h => h.imp (fun _ h2 => ⟨h2.1, h2.2.1, h2.2.2.1⟩))⟩

end RouteExplorer
